import Mathlib

/-! The glox scanner: a shallow embedding of `src/scanner/scanner.go`.

The Go scanner walks a `string` byte by byte (`rune(sc.source[sc.cursor])`).
Here the source is a `List Char`, one element per byte of the Go string, the
element being the character whose code is the byte.  Every index and every
slice of the source goes through `index` / `slice`, which report the Go
run-time panic as `Fault.indexOutOfRange`.  The `for` loops of the Go code are
recursive functions over a fuel argument; running out of fuel is
`Fault.outOfFuel`.  Go's `int` fields (`line`, `start`, `cursor`) are natural
numbers: they are bounded by the length of the source plus one, so they never
wrap.

The older scanner of `src/scanner.go` is embedded the same way in the
namespace `Glox.Root`.
-/

namespace Glox

/-! ## constants.go -/

def LEFT_PAREN : Nat := 1
def RIGHT_PAREN : Nat := 2
def LEFT_BRACE : Nat := 3
def RIGHT_BRACE : Nat := 4
def COMMA : Nat := 5
def DOT : Nat := 6
def MINUS : Nat := 7
def PLUS : Nat := 8
def SEMICOLON : Nat := 9
def STAR : Nat := 10
def BANG : Nat := 11
def BANG_EQUAL : Nat := 12
def EQUAL : Nat := 13
def EQUAL_EQUAL : Nat := 14
def GREATER : Nat := 15
def GREATER_EQUAL : Nat := 16
def LESS : Nat := 17
def LESS_EQUAL : Nat := 18
def SLASH : Nat := 19
def IDENTIFIER : Nat := 20
def STRING : Nat := 21
def NUMBER : Nat := 22
def AND : Nat := 23
def CLASS : Nat := 24
def ELSE : Nat := 25
def FALSE : Nat := 26
def FUN : Nat := 27
def FOR : Nat := 28
def IF : Nat := 29
def NIL : Nat := 30
def OR : Nat := 31
def PRINT : Nat := 32
def RETURN : Nat := 33
def SUPER : Nat := 34
def THIS : Nat := 35
def TRUE : Nat := 36
def VAR : Nat := 37
def WHILE : Nat := 38
def EOF : Nat := 39

/-- The entries of the Go map `keywords`, in the order of the source. -/
def keywordTable : List (List Char × Nat) :=
  [ ("and".toList, AND), ("class".toList, CLASS), ("else".toList, ELSE),
    ("false".toList, FALSE), ("fun".toList, FUN), ("for".toList, FOR),
    ("if".toList, IF), ("nil".toList, NIL), ("or".toList, OR),
    ("print".toList, PRINT), ("return".toList, RETURN), ("super".toList, SUPER),
    ("this".toList, THIS), ("true".toList, TRUE), ("var".toList, VAR),
    ("while".toList, WHILE) ]

/-- The Go expression `keywords[text]`: the zero value `0` for a missing key. -/
def keywords (text : List Char) : Nat :=
  (List.lookup text keywordTable).getD 0

/-- The keyword kinds as the specification lists them: the sixteen words
`and, class, else, false, fun, for, if, nil, or, print, return, super, this,
true, var, while`, each with the kind named after it, and `none` for every
other word.  It is written from the specification, not from the map `keywords`
of the code. -/
def specKeywordKind (w : List Char) : Option Nat :=
  if w = "and".toList then some AND
  else if w = "class".toList then some CLASS
  else if w = "else".toList then some ELSE
  else if w = "false".toList then some FALSE
  else if w = "fun".toList then some FUN
  else if w = "for".toList then some FOR
  else if w = "if".toList then some IF
  else if w = "nil".toList then some NIL
  else if w = "or".toList then some OR
  else if w = "print".toList then some PRINT
  else if w = "return".toList then some RETURN
  else if w = "super".toList then some SUPER
  else if w = "this".toList then some THIS
  else if w = "true".toList then some TRUE
  else if w = "var".toList then some VAR
  else if w = "while".toList then some WHILE
  else none

/-! ## Data model -/

/-- The Go `error` values the scanner handles. -/
inductive GoError where
  | ioEOF
  | errUnterminatedString
  | errSyntax
  | errRange
  deriving DecidableEq, Repr

/-- The ways a run of the model stops without a result: a Go run-time panic
on an index or slice out of range, or the fuel of a loop used up. -/
inductive Fault where
  | indexOutOfRange
  | outOfFuel
  deriving DecidableEq, Repr

/-- The values stored in `Token.literal` (an `interface{}` in Go): a string,
or the `float64` that `strconv.ParseFloat` returned, which is represented by
the decimal text it was parsed from. -/
inductive Literal where
  | str (s : List Char)
  | num (text : List Char)
  deriving DecidableEq, Repr

structure Token where
  tokenType : Nat
  lexeme : List Char
  literal : Literal
  line : Nat
  deriving DecidableEq, Repr

structure Scanner where
  source : List Char
  line : Nat
  start : Nat
  cursor : Nat
  tokens : List Token
  Errors : List GoError
  deriving DecidableEq, Repr

/-- The Scanner that `NewScanner` builds once the file has been read into
`source` (opening and reading the file is outside the model). -/
def NewScanner (source : List Char) : Scanner :=
  { source := source, line := 1, start := 0, cursor := 0, tokens := [], Errors := [] }

/-! ## Go primitives -/

/-- The Go expression `s[i]`: panics when `i` is not below `len(s)`. -/
def index (s : List Char) (i : Nat) : Except Fault Char :=
  match s[i]? with
  | some c => .ok c
  | none => .error .indexOutOfRange

/-- The Go expression `s[lo:hi]`: panics unless `lo ≤ hi ≤ len(s)`.  (The one
call with a subtraction, `sc.cursor-1` in `consumeString`, has `lo ≥ 1`, so a
negative `hi` in Go and the truncated `0` here both panic.) -/
def slice (s : List Char) (lo hi : Nat) : Except Fault (List Char) :=
  if lo ≤ hi ∧ hi ≤ s.length then .ok ((s.drop lo).take (hi - lo))
  else .error .indexOutOfRange

def isAlpha (c : Char) : Bool :=
  ('a' ≤ c && c ≤ 'z') || ('A' ≤ c && c ≤ 'Z') || c == '_'

def isDigit (c : Char) : Bool :=
  '0' ≤ c && c ≤ '9'

def isAlphaNum (c : Char) : Bool :=
  isAlpha c || isDigit c

/-- The value of a run of decimal digits. -/
def natOfDigits (ds : List Char) : Nat :=
  ds.foldl (fun n c => 10 * n + (c.toNat - '0'.toNat)) 0

/-- The least real number that rounds to `+Inf` as a `float64`: half an ulp
above the largest finite value `2^1024 - 2^971`. -/
def float64Overflow : Nat := 2 ^ 1024 - 2 ^ 970

/-- The Go call `strconv.ParseFloat(text, 64)` on texts made of digits and
dots, following the documentation of `strconv`: a text with digits, at most
one dot and nothing else is well formed; a well-formed text whose value is
half an ulp or more above the largest `float64` gives `ErrRange`; any other
well-formed text parses.  The value is at least `float64Overflow` exactly when
its integer part is, the fraction being below one.  Texts with other
characters (exponents, hexadecimal, `inf`) are given `ErrSyntax` here; `digit`
never builds one. -/
def ParseFloat (text : List Char) : Except GoError Literal :=
  let ip := text.takeWhile isDigit
  let rest := text.dropWhile isDigit
  let fp := match rest with
    | '.' :: r => r
    | r => r
  if !(fp.all isDigit) || (ip.isEmpty && fp.isEmpty) then .error .errSyntax
  else if float64Overflow ≤ natOfDigits ip then .error .errRange
  else .ok (.num text)

/-! ## scanner.go -/

def Scanner.isAtEnd (sc : Scanner) : Bool :=
  decide (sc.source.length ≤ sc.cursor)

/-- The result `(rune, error)` of `advance` together with the updated Scanner. -/
def Scanner.advance (sc : Scanner) : Except Fault (Char × Option GoError × Scanner) :=
  if sc.isAtEnd then .ok (Char.ofNat 0, some .ioEOF, sc)
  else do
    let c ← index sc.source sc.cursor
    pure (c, none, { sc with cursor := sc.cursor + 1 })

def Scanner.matchAdvance (sc : Scanner) (c : Char) : Except Fault (Bool × Scanner) :=
  if sc.isAtEnd then .ok (false, sc)
  else do
    let d ← index sc.source sc.cursor
    if d ≠ c then pure (false, sc)
    else pure (true, { sc with cursor := sc.cursor + 1 })

def Scanner.addToken (sc : Scanner) (tokenType : Nat) (literal : Literal) :
    Except Fault Scanner := do
  let lexeme ← slice sc.source sc.start sc.cursor
  pure { sc with tokens := sc.tokens ++
    [{ tokenType := tokenType, lexeme := lexeme, literal := literal, line := sc.line }] }

def Scanner.addError (sc : Scanner) (err : GoError) : Scanner :=
  { sc with Errors := sc.Errors ++ [err] }

def Scanner.hasError (sc : Scanner) : Bool :=
  decide (sc.Errors.length > 0)

def Scanner.peek (sc : Scanner) : Except Fault Char :=
  if sc.isAtEnd then .ok (Char.ofNat 0)
  else index sc.source sc.cursor

def Scanner.peekNext (sc : Scanner) : Except Fault Char :=
  if sc.isAtEnd then .ok (Char.ofNat 0)
  else index sc.source (sc.cursor + 1)

/-- The loop of `comment`: the error of `advance` is dropped (`c, _ :=`), only
the rune is looked at. -/
def Scanner.comment : Nat → Scanner → Except Fault Scanner
  | 0, _ => .error .outOfFuel
  | fuel + 1, sc => do
    let (c, _, sc) ← sc.advance
    if c = '\n' then pure { sc with line := sc.line + 1 }
    else Scanner.comment fuel sc

/-- The inner loop of `digit`: `for isDigit(sc.peek()) { sc.advance() }`. -/
def Scanner.digitFraction : Nat → Scanner → Except Fault Scanner
  | 0, _ => .error .outOfFuel
  | fuel + 1, sc => do
    let c ← sc.peek
    if isDigit c then do
      let (_, _, sc) ← sc.advance
      Scanner.digitFraction fuel sc
    else pure sc

/-- The outer loop of `digit`.  `c == '.' && isDigit(sc.peekNext())` evaluates
`peekNext` only when `c` is a dot. -/
def Scanner.digitLoop : Nat → Scanner → Except Fault Scanner
  | 0, _ => .error .outOfFuel
  | fuel + 1, sc =>
    if sc.isAtEnd then pure sc
    else do
      let c ← sc.peek
      if isDigit c then do
        let (_, _, sc) ← sc.advance
        Scanner.digitLoop fuel sc
      else if c = '.' then do
        let n ← sc.peekNext
        if isDigit n then do
          let (_, _, sc) ← sc.advance
          Scanner.digitFraction fuel sc
        else pure sc
      else pure sc

/-- The method `digit`, returning its `error` result and the Scanner. -/
def Scanner.digit (fuel : Nat) (sc : Scanner) : Except Fault (Option GoError × Scanner) := do
  let sc ← Scanner.digitLoop fuel sc
  let text ← slice sc.source sc.start sc.cursor
  match ParseFloat text with
  | .error err => pure (some err, sc)
  | .ok n => do
    let sc ← sc.addToken NUMBER n
    pure (none, sc)

/-- The method `consumeString`, returning its `error` result and the Scanner. -/
def Scanner.consumeString : Nat → Scanner → Except Fault (Option GoError × Scanner)
  | 0, _ => .error .outOfFuel
  | fuel + 1, sc => do
    let (c, err, sc) ← sc.advance
    if err.isSome then pure (some .errUnterminatedString, sc)
    else if c = '"' then do
      let text ← slice sc.source (sc.start + 1) (sc.cursor - 1)
      let sc ← sc.addToken STRING (.str text)
      pure (none, sc)
    else if c = '\n' then Scanner.consumeString fuel { sc with line := sc.line + 1 }
    else Scanner.consumeString fuel sc

/-- The loop of `identifier`. -/
def Scanner.identifierLoop : Nat → Scanner → Except Fault Scanner
  | 0, _ => .error .outOfFuel
  | fuel + 1, sc => do
    let c ← sc.peek
    if sc.isAtEnd || !(isAlphaNum c) then pure sc
    else do
      let (_, _, sc) ← sc.advance
      Scanner.identifierLoop fuel sc

def Scanner.identifier (fuel : Nat) (sc : Scanner) : Except Fault Scanner := do
  let sc ← Scanner.identifierLoop fuel sc
  let text ← slice sc.source sc.start sc.cursor
  let key := keywords text
  if key ≠ 0 then sc.addToken (keywords text) (.str [])
  else sc.addToken IDENTIFIER (.str text)

/-- The `switch c` statement in the loop of `Scan`, on the Scanner as
`advance` left it.  The cases are tried in the order of the source; `continue`
and falling out of the `switch` both start the next iteration, so the result is
only the Scanner.  The `error` results of `consumeString` and `digit` are
dropped, as in the source. -/
def Scanner.scanSwitch (fuel : Nat) (c : Char) (sc : Scanner) : Except Fault Scanner :=
  if c = ' ' ∨ c = '\t' ∨ c = '\r' then pure sc
  else if c = '\n' then pure { sc with line := sc.line + 1 }
  else if c = '(' then sc.addToken LEFT_PAREN (.str [])
  else if c = ')' then sc.addToken RIGHT_PAREN (.str [])
  else if c = '{' then sc.addToken LEFT_BRACE (.str [])
  else if c = '}' then sc.addToken RIGHT_BRACE (.str [])
  else if c = ';' then sc.addToken SEMICOLON (.str [])
  else if c = '.' then sc.addToken DOT (.str [])
  else if c = '+' then sc.addToken PLUS (.str [])
  else if c = '-' then sc.addToken MINUS (.str [])
  else if c = '*' then sc.addToken STAR (.str [])
  else if c = '=' then do
    let (m, sc) ← sc.matchAdvance '='
    if m then sc.addToken EQUAL_EQUAL (.str [])
    else sc.addToken EQUAL (.str [])
  else if c = '!' then do
    let (m, sc) ← sc.matchAdvance '='
    if m then sc.addToken BANG_EQUAL (.str [])
    else sc.addToken BANG (.str [])
  else if c = '>' then do
    let (m, sc) ← sc.matchAdvance '='
    if m then sc.addToken GREATER_EQUAL (.str [])
    else sc.addToken GREATER (.str [])
  else if c = '<' then do
    let (m, sc) ← sc.matchAdvance '='
    if m then sc.addToken LESS_EQUAL (.str [])
    else sc.addToken LESS (.str [])
  else if c = '"' then do
    let (_, sc) ← Scanner.consumeString fuel sc
    pure sc
  else if c = '/' then do
    let (m, sc) ← sc.matchAdvance '/'
    if m then Scanner.comment fuel sc
    else do
      let (m, sc) ← sc.matchAdvance '*'
      if m then pure sc
      else sc.addToken SLASH (.str [])
  else if isAlpha c then Scanner.identifier fuel sc
  else if isDigit c then do
    let (_, sc) ← Scanner.digit fuel sc
    pure sc
  else pure sc

/-- One iteration of the `for` loop of `Scan`.  The Boolean is `true` when the
iteration ends in `break`. -/
def Scanner.scanStep (fuel : Nat) (sc : Scanner) : Except Fault (Bool × Scanner) := do
  let sc := { sc with start := sc.cursor }
  let (c, err, sc) ← sc.advance
  if err.isSome then do
    let sc ← sc.addToken EOF (.str [])
    pure (true, sc)
  else do
    let sc ← Scanner.scanSwitch fuel c sc
    pure (false, sc)

/-- The `for` loop of `Scan`. -/
def Scanner.scanLoop : Nat → Scanner → Except Fault Scanner
  | 0, _ => .error .outOfFuel
  | fuel + 1, sc => do
    let (stop, sc) ← Scanner.scanStep fuel sc
    if stop then pure sc
    else Scanner.scanLoop fuel sc

/-- The method `Scan`: the pair `(sc.tokens, sc.Errors)` it returns, and the
Scanner as the call leaves it. -/
def Scanner.Scan (fuel : Nat) (sc : Scanner) :
    Except Fault ((List Token × List GoError) × Scanner) := do
  let sc ← Scanner.scanLoop fuel sc
  pure ((sc.tokens, sc.Errors), sc)

/-- The pair that `Scan` returns on the Scanner `NewScanner` builds for `source`. -/
def scanSource (fuel : Nat) (source : List Char) : Except Fault (List Token × List GoError) :=
  (Scanner.Scan fuel (NewScanner source)).map Prod.fst

/-! ## The root-level scanner, `src/scanner.go`

A second, older scanner in the package at the root of `src`.  Its constants
are `iota << 1`, its Scanner starts at line 0 and keeps no error list, and
its token literal is always a `string`. -/

namespace Root

def LEFT_PAREN : Nat := 0 <<< 1
def RIGHT_PAREN : Nat := 1 <<< 1
def LEFT_BRACE : Nat := 2 <<< 1
def RIGHT_BRACE : Nat := 3 <<< 1
def COMMA : Nat := 4 <<< 1
def DOT : Nat := 5 <<< 1
def MINUS : Nat := 6 <<< 1
def PLUS : Nat := 7 <<< 1
def SEMICOLON : Nat := 8 <<< 1
def STAR : Nat := 9 <<< 1
def BANG : Nat := 10 <<< 1
def BANG_EQUAL : Nat := 11 <<< 1
def EQUAL : Nat := 12 <<< 1
def EQUAL_EQUAL : Nat := 13 <<< 1
def GREATER : Nat := 14 <<< 1
def GREATER_EQUAL : Nat := 15 <<< 1
def LESS : Nat := 16 <<< 1
def LESS_EQUAL : Nat := 17 <<< 1
def SLASH : Nat := 18 <<< 1
def IDENTIFIER : Nat := 19 <<< 1
def STRING : Nat := 20 <<< 1
def NUMBER : Nat := 21 <<< 1
def AND : Nat := 22 <<< 1
def CLASS : Nat := 23 <<< 1
def ELSE : Nat := 24 <<< 1
def FALSE : Nat := 25 <<< 1
def FUN : Nat := 26 <<< 1
def FOR : Nat := 27 <<< 1
def IF : Nat := 28 <<< 1
def NIL : Nat := 29 <<< 1
def OR : Nat := 30 <<< 1
def PRINT : Nat := 31 <<< 1
def RETURN : Nat := 32 <<< 1
def SUPER : Nat := 33 <<< 1
def THIS : Nat := 34 <<< 1
def TRUE : Nat := 35 <<< 1
def VAR : Nat := 36 <<< 1
def WHILE : Nat := 37 <<< 1
def EOF : Nat := 38 <<< 1

/-- The entries of the Go map `keywords` of `src/scanner.go`. -/
def keywordTable : List (List Char × Nat) :=
  [ ("and".toList, AND), ("class".toList, CLASS), ("else".toList, ELSE),
    ("false".toList, FALSE), ("fun".toList, FUN), ("for".toList, FOR),
    ("if".toList, IF), ("nil".toList, NIL), ("or".toList, OR),
    ("print".toList, PRINT), ("return".toList, RETURN), ("super".toList, SUPER),
    ("this".toList, THIS), ("true".toList, TRUE), ("var".toList, VAR),
    ("while".toList, WHILE) ]

/-- The Go expression `keywords[text]`: the zero value `0` for a missing key. -/
def keywords (text : List Char) : Nat :=
  (List.lookup text keywordTable).getD 0

structure token where
  tokenType : Nat
  lexeme : List Char
  literal : List Char
  line : Nat
  deriving DecidableEq, Repr

structure scanner where
  source : List Char
  line : Nat
  start : Nat
  cursor : Nat
  tokens : List token
  deriving DecidableEq, Repr

/-- The scanner that `NewScanner` builds once the file has been read into
`source` (opening and reading the file is outside the model). -/
def NewScanner (source : List Char) : scanner :=
  { source := source, line := 0, start := 0, cursor := 0, tokens := [] }

/-- The function `isAlpha` of `src/scanner.go`; the middle range is `'Z'` to
`'Z'` in the source. -/
def isAlpha (c : Char) : Bool :=
  ('a' ≤ c && c ≤ 'z') || ('Z' ≤ c && c ≤ 'Z') || c == '_'

def isDigit (c : Char) : Bool :=
  '0' ≤ c && c ≤ '9'

def isAlphaNum (c : Char) : Bool :=
  isAlpha c || isDigit c

def scanner.isAtEnd (sc : scanner) : Bool :=
  decide (sc.source.length ≤ sc.cursor)

def scanner.peek (sc : scanner) : Except Fault Char :=
  if sc.isAtEnd then .ok (Char.ofNat 0)
  else index sc.source sc.cursor

/-- The result `(rune, error)` of `advance` together with the updated scanner. -/
def scanner.advance (sc : scanner) : Except Fault (Char × Option GoError × scanner) :=
  if sc.isAtEnd then .ok (Char.ofNat 0, some .ioEOF, sc)
  else do
    let r ← index sc.source sc.cursor
    pure (r, none, { sc with cursor := sc.cursor + 1 })

/-- The method `matchAdvance`; `sc.isAtEnd() || sc.peek() != c` evaluates
`peek` only when the scanner is not at the end. -/
def scanner.matchAdvance (sc : scanner) (c : Char) : Except Fault (Bool × scanner) :=
  if sc.isAtEnd then .ok (false, sc)
  else do
    let d ← sc.peek
    if d ≠ c then pure (false, sc)
    else pure (true, { sc with cursor := sc.cursor + 1 })

def scanner.addToken (sc : scanner) (tokenType : Nat) (literal : List Char) :
    Except Fault scanner := do
  let text ← slice sc.source sc.start sc.cursor
  pure { sc with tokens := sc.tokens ++
    [{ tokenType := tokenType, lexeme := text, literal := literal, line := sc.line }] }

/-- The method `identifier`, returning its `error` result and the scanner.
The loop reads with `advance`, so it stops one character after the
identifier, or returns the error of `advance` at the end of the source
without adding a token.  (`sc.cursor-1` follows a successful `advance`, so
the cursor is at least 1.) -/
def scanner.identifier : Nat → scanner → Except Fault (Option GoError × scanner)
  | 0, _ => .error .outOfFuel
  | fuel + 1, sc => do
    let (c, err, sc) ← sc.advance
    if err.isSome then pure (err, sc)
    else if !(isAlphaNum c) then do
      let text ← slice sc.source sc.start (sc.cursor - 1)
      let t := keywords text
      let tokenType := if t ≠ 0 then t else IDENTIFIER
      let sc ← sc.addToken tokenType text
      pure (none, sc)
    else scanner.identifier fuel sc

/-- The method `consumeString`, returning its `error` result and the scanner. -/
def scanner.consumeString : Nat → scanner → Except Fault (Option GoError × scanner)
  | 0, _ => .error .outOfFuel
  | fuel + 1, sc => do
    let (c, err, sc) ← sc.advance
    if err.isSome then pure (some .errUnterminatedString, sc)
    else if c = '"' then do
      let text ← slice sc.source sc.start (sc.cursor - 1)
      let sc ← sc.addToken STRING text
      pure (none, sc)
    else scanner.consumeString fuel sc

/-- The method `comment`, returning its `error` result and the scanner: the
loop stops at the first character that is not a newline. -/
def scanner.comment : Nat → scanner → Except Fault (Option GoError × scanner)
  | 0, _ => .error .outOfFuel
  | fuel + 1, sc => do
    let (c, err, sc) ← sc.advance
    if err.isSome then pure (err, sc)
    else if c ≠ '\n' then pure (none, sc)
    else scanner.comment fuel sc

/-- The `switch c` statement in the loop of `ScanToken`, on the scanner as
`advance` left it; `continue` and falling out of the `switch` both start the
next iteration.  The `error` results of `comment`, `consumeString` and
`identifier` are dropped, as in the source. -/
def scanner.scanSwitch (fuel : Nat) (c : Char) (sc : scanner) : Except Fault scanner :=
  if c = ' ' ∨ c = '\t' ∨ c = '\r' then pure sc
  else if c = '\n' then pure { sc with line := sc.line + 1 }
  else if c = '{' then sc.addToken LEFT_BRACE []
  else if c = '}' then sc.addToken RIGHT_BRACE []
  else if c = ')' then sc.addToken RIGHT_PAREN []
  else if c = '(' then sc.addToken LEFT_PAREN []
  else if c = '*' then sc.addToken STAR []
  else if c = '+' then sc.addToken PLUS []
  else if c = '-' then sc.addToken MINUS []
  else if c = ',' then sc.addToken COMMA []
  else if c = '.' then sc.addToken DOT []
  else if c = ';' then sc.addToken SEMICOLON []
  else if c = '!' then do
    let (m, sc) ← sc.matchAdvance '='
    if m then sc.addToken BANG_EQUAL []
    else sc.addToken BANG []
  else if c = '=' then do
    let (m, sc) ← sc.matchAdvance '='
    if m then sc.addToken EQUAL_EQUAL []
    else sc.addToken EQUAL []
  else if c = '>' then do
    let (m, sc) ← sc.matchAdvance '='
    if m then sc.addToken GREATER_EQUAL []
    else sc.addToken GREATER []
  else if c = '<' then do
    let (m, sc) ← sc.matchAdvance '='
    if m then sc.addToken LESS_EQUAL []
    else sc.addToken LESS []
  else if c = '/' then do
    let (m, sc) ← sc.matchAdvance '/'
    if !m then sc.addToken SLASH []
    else do
      let (_, sc) ← scanner.comment fuel sc
      pure sc
  else if c = '"' then do
    let (_, sc) ← scanner.consumeString fuel sc
    pure sc
  else if isAlpha c then do
    let (_, sc) ← scanner.identifier fuel sc
    pure sc
  else pure sc

/-- One iteration of the `for` loop of `ScanToken`.  The Boolean is `true`
when the iteration ends in `break`. -/
def scanner.scanStep (fuel : Nat) (sc : scanner) : Except Fault (Bool × scanner) := do
  let sc := { sc with start := sc.cursor }
  let (c, err, sc) ← sc.advance
  if err.isSome then do
    let sc ← sc.addToken EOF []
    pure (true, sc)
  else do
    let sc ← scanner.scanSwitch fuel c sc
    pure (false, sc)

/-- The `for` loop of `ScanToken`. -/
def scanner.scanLoop : Nat → scanner → Except Fault scanner
  | 0, _ => .error .outOfFuel
  | fuel + 1, sc => do
    let (stop, sc) ← scanner.scanStep fuel sc
    if stop then pure sc
    else scanner.scanLoop fuel sc

/-- The method `ScanToken`: the tokens it returns, and the scanner as the call
leaves it. -/
def scanner.ScanToken (fuel : Nat) (sc : scanner) : Except Fault (List token × scanner) := do
  let sc ← scanner.scanLoop fuel sc
  pure (sc.tokens, sc)

end Root

/-! ## Relations used to state what the Scanner does -/

/-- The relation `Run sc sc1 new`: the Scanner `sc1` is `sc` with the cursor moved forward,
not past the end of the source, the line counter raised by the number of
newlines the cursor passed over, and the tokens `new` appended. -/
structure Run (sc sc1 : Scanner) (new : List Token) : Prop where
  source : sc1.source = sc.source
  start : sc1.start = sc.start
  tokens : sc1.tokens = sc.tokens ++ new
  errors : sc1.Errors = sc.Errors
  cursor_le : sc.cursor ≤ sc1.cursor
  cursor_bound : sc.cursor ≤ sc.source.length → sc1.cursor ≤ sc.source.length
  line : sc1.line + (sc.source.take sc.cursor).count '\n'
      = sc.line + (sc.source.take sc1.cursor).count '\n'

/-- What is known of the literal of a token from its kind and lexeme. -/
def LitOK (ty : Nat) (lexeme : List Char) (lit : Literal) : Prop :=
  ty = STRING ∨ (ty = NUMBER ∧ lit = .num lexeme) ∨ (ty = IDENTIFIER ∧ lit = .str lexeme) ∨
    (ty ≠ STRING ∧ ty ≠ NUMBER ∧ ty ≠ IDENTIFIER ∧ lit = .str [])

/-- What one iteration of the loop of `Scan` that does not stop the loop
appends to the tokens: nothing, or one token that is not `EOF`, whose lexeme is the
source text from `start` to the cursor and whose line is the line counter. -/
def Emitted (sc1 : Scanner) (new : List Token) : Prop :=
  new = [] ∨ ∃ ty lit, ty ≠ EOF ∧ sc1.start ≤ sc1.cursor ∧
    LitOK ty ((sc1.source.drop sc1.start).take (sc1.cursor - sc1.start)) lit ∧
    new = [{ tokenType := ty,
             lexeme := (sc1.source.drop sc1.start).take (sc1.cursor - sc1.start),
             literal := lit, line := sc1.line }]

/-- The relation `Good sc sc1`: from `sc` to `sc1` the cursor moved forward and at most one
token, as described by `Emitted`, was appended. -/
def Good (sc sc1 : Scanner) : Prop :=
  ∃ new, Run sc sc1 new ∧ Emitted sc1 new

/-- The relation `Lexed src base p toks`: the tokens `toks` lie in the source `src` one after
the other, at or after offset `p`: each is the text of a range `[i, j)` that
begins where the one before ended or later, is not an `EOF` token, and carries
as line `base` plus the number of newlines before offset `j`, the end of its
range. -/
inductive Lexed (src : List Char) (base : Nat) : Nat → List Token → Prop where
  | nil (p : Nat) : Lexed src base p []
  | cons (p i j : Nat) (ty : Nat) (lit : Literal) (rest : List Token) :
      p ≤ i → i ≤ j → j ≤ src.length → ty ≠ EOF →
      LitOK ty ((src.drop i).take (j - i)) lit →
      Lexed src base j rest →
      Lexed src base p ({ tokenType := ty, lexeme := (src.drop i).take (j - i),
                          literal := lit, line := base + (src.take j).count '\n' } :: rest)

/-- The relation `Stable x y`: unless `x` ran out of fuel, `y` is the same outcome. -/
def Stable {α : Type} (x y : Except Fault α) : Prop :=
  x ≠ .error .outOfFuel → y = x

/-- The Scanner `sc` moved behind a text `pre`: the same Scanner on the source
`pre ++ sc.source`, with `start` and the cursor `pre.length` further on. -/
def Scanner.shift (pre : List Char) (sc : Scanner) : Scanner :=
  { sc with
    source := pre ++ sc.source
    start := pre.length + sc.start
    cursor := pre.length + sc.cursor }

/-! ## Relations used to state the round trip -/

/-- The characters the `switch` of `Scan` skips without a token: the cases
`' '`, `'\t'`, `'\r'` and `'\n'`. -/
def isWhitespace (c : Char) : Bool :=
  c == ' ' || c == '\t' || c == '\r' || c == '\n'

/-- The characters for which the `switch` of `Scan` has a case that adds a
token: the single-character tokens, the characters that begin a one- or
two-character operator, and the slash. -/
def isOperator (c : Char) : Bool :=
  c == '(' || c == ')' || c == '{' || c == '}' || c == ';' || c == '.' || c == '+' ||
    c == '-' || c == '*' || c == '=' || c == '!' || c == '>' || c == '<' || c == '/'

/-- The relation `Tiled text toks`: the text is the lexemes of the tokens `toks`, in
order, with nothing but whitespace before, between and after them. -/
inductive Tiled : List Char → List Token → Prop where
  | nil : Tiled [] []
  | space (c : Char) (text : List Char) (toks : List Token) :
      isWhitespace c = true → Tiled text toks → Tiled (c :: text) toks
  | token (t : Token) (text : List Char) (toks : List Token) :
      Tiled text toks → Tiled (t.lexeme ++ text) (t :: toks)

/-- The sum of the lengths of the lexemes of the tokens. -/
def lexemeChars (toks : List Token) : Nat :=
  (toks.map (fun t => t.lexeme.length)).sum

/-- The number of whitespace characters inside the lexemes of the tokens. -/
def lexemeSpaces (toks : List Token) : Nat :=
  (toks.map (fun t => t.lexeme.countP isWhitespace)).sum

/-- The relation `StepOver sc L new`: an iteration of the loop of `Scan` on `sc` returns
without stopping the loop, with the cursor moved over the text `L` and the
tokens `new` appended. -/
def StepOver (sc : Scanner) (L : List Char) (new : List Token) : Prop :=
  ∃ n s1, Scanner.scanStep n sc = .ok (false, s1) ∧ s1.source = sc.source ∧
    s1.cursor = sc.cursor + L.length ∧ s1.tokens = sc.tokens ++ new

/-- The texts `Plain text` of the round trip: every character is whitespace, a character
that begins an operator or a single-character token, a double quote, a
letter, an underscore or a digit; no `//` and no `/*` occurs; every run of
digits has a value below `float64Overflow`; and the double quotes come in
pairs.  The round trip asks this of the part of the source outside its string
literals, `outsideStrings false source`. -/
structure Plain (text : List Char) : Prop where
  chars : ∀ c ∈ text, isWhitespace c = true ∨ isOperator c = true ∨ c = '"' ∨
    isAlpha c = true ∨ isDigit c = true
  noLineComment : ¬ ['/', '/'] <:+: text
  noBlockComment : ¬ ['/', '*'] <:+: text
  numbers : ∀ d, d <:+: text → (∀ c ∈ d, isDigit c = true) → natOfDigits d < float64Overflow
  quotes : text.count '"' % 2 = 0

/-- The part of a text that lies outside its string literals: the characters
between a double quote and the next double quote are dropped, the double
quotes themselves are kept.  The flag tells whether the text begins inside a
string literal. -/
def outsideStrings : Bool → List Char → List Char
  | _, [] => []
  | false, c :: rest => c :: outsideStrings (c == '"') rest
  | true, c :: rest =>
    if c = '"' then c :: outsideStrings false rest else outsideStrings true rest

/-- The relation `Advances sc text`: on the Scanner `sc`, whose unread text is `text`, an
iteration of the loop of `Scan` moves over a non-empty beginning `L` of the
text, which is one whitespace character or the lexeme of the one token it
appends, and leaves a text that is plain outside its string literals. -/
def Advances (sc : Scanner) (text : List Char) : Prop :=
  ∃ L rest new, text = L ++ rest ∧ L ≠ [] ∧ StepOver sc L new ∧
    Plain (outsideStrings false rest) ∧
    ∀ toks, Tiled rest toks → Tiled text (new ++ toks)

/-! ## The Go primitives as equations -/

theorem index_eq_ok {s : List Char} {i : Nat} {c : Char} (h : s[i]? = some c) :
    index s i = .ok c := by
  simp [index, h]

theorem index_eq_error {s : List Char} {i : Nat} (h : s.length ≤ i) :
    index s i = .error .indexOutOfRange := by
  simp [index, List.getElem?_eq_none h]

theorem slice_eq_ok {s : List Char} {lo hi : Nat} (h₁ : lo ≤ hi) (h₂ : hi ≤ s.length) :
    slice s lo hi = .ok ((s.drop lo).take (hi - lo)) := by
  simp [slice, h₁, h₂]

theorem slice_append (a b c : List Char) :
    slice (a ++ b ++ c) a.length (a.length + b.length) = .ok b := by
  rw [slice_eq_ok (by omega) (by simp)]
  simp [List.append_assoc]

theorem slice_ok_iff {s : List Char} {lo hi : Nat} {r : List Char} :
    slice s lo hi = .ok r ↔ lo ≤ hi ∧ hi ≤ s.length ∧ r = (s.drop lo).take (hi - lo) := by
  unfold slice
  split
  · rename_i h
    simp [h.1, h.2, eq_comm]
  · rename_i h
    constructor
    · intro h'
      cases h'
    · rintro ⟨h₁, h₂, -⟩
      exact absurd ⟨h₁, h₂⟩ h

theorem advance_eq (sc : Scanner) :
    sc.advance = match sc.source[sc.cursor]? with
      | none => .ok (Char.ofNat 0, some .ioEOF, sc)
      | some c => .ok (c, none, { sc with cursor := sc.cursor + 1 }) := by
  unfold Scanner.advance Scanner.isAtEnd
  by_cases h : sc.source.length ≤ sc.cursor
  · simp [h, List.getElem?_eq_none h]
  · have h' : sc.cursor < sc.source.length := by omega
    simp [h, List.getElem?_eq_getElem h', index, bind, Except.bind, pure, Except.pure]

theorem peek_eq (sc : Scanner) :
    sc.peek = .ok ((sc.source[sc.cursor]?).getD (Char.ofNat 0)) := by
  unfold Scanner.peek Scanner.isAtEnd
  by_cases h : sc.source.length ≤ sc.cursor
  · simp [h, List.getElem?_eq_none h]
  · have h' : sc.cursor < sc.source.length := by omega
    simp [h, List.getElem?_eq_getElem h', index]

theorem peekNext_eq (sc : Scanner) :
    sc.peekNext = if sc.source.length ≤ sc.cursor then .ok (Char.ofNat 0)
      else index sc.source (sc.cursor + 1) := by
  unfold Scanner.peekNext Scanner.isAtEnd
  by_cases h : sc.source.length ≤ sc.cursor <;> simp [h]

theorem matchAdvance_eq (sc : Scanner) (c : Char) :
    sc.matchAdvance c = if sc.source[sc.cursor]? = some c
      then .ok (true, { sc with cursor := sc.cursor + 1 }) else .ok (false, sc) := by
  unfold Scanner.matchAdvance Scanner.isAtEnd
  by_cases h : sc.source.length ≤ sc.cursor
  · simp [h, List.getElem?_eq_none h]
  · have h' : sc.cursor < sc.source.length := by omega
    simp only [h, decide_False, Bool.false_eq_true, ↓reduceIte, List.getElem?_eq_getElem h',
      index, bind, Except.bind, pure, Except.pure, Option.some.injEq]
    by_cases hc : sc.source[sc.cursor] = c <;> simp [hc]

theorem addToken_eq (sc : Scanner) (ty : Nat) (lit : Literal) :
    sc.addToken ty lit = if sc.start ≤ sc.cursor ∧ sc.cursor ≤ sc.source.length
      then .ok { sc with tokens := sc.tokens ++
        [{ tokenType := ty, lexeme := (sc.source.drop sc.start).take (sc.cursor - sc.start),
           literal := lit, line := sc.line }] }
      else .error .indexOutOfRange := by
  unfold Scanner.addToken slice
  by_cases h : sc.start ≤ sc.cursor ∧ sc.cursor ≤ sc.source.length <;>
    simp [h, bind, Except.bind, pure, Except.pure]

/-! ## Moving the cursor -/

theorem count_take_succ {s : List Char} {i : Nat} {c : Char} (h : s[i]? = some c) (x : Char) :
    (s.take (i + 1)).count x = (s.take i).count x + (if c = x then 1 else 0) := by
  rw [List.take_succ, List.count_append, h]
  by_cases hc : c = x <;> simp [hc, List.count_cons]

theorem Run.stay (sc : Scanner) : Run sc sc [] :=
  ⟨rfl, rfl, by simp, rfl, Nat.le_refl _, fun h => h, rfl⟩

theorem Run.trans {a b c : Scanner} {n₁ n₂ : List Token} (h₁ : Run a b n₁) (h₂ : Run b c n₂) :
    Run a c (n₁ ++ n₂) := by
  refine ⟨h₂.source.trans h₁.source, h₂.start.trans h₁.start, ?_,
    h₂.errors.trans h₁.errors, Nat.le_trans h₁.cursor_le h₂.cursor_le, ?_, ?_⟩
  · rw [h₂.tokens, h₁.tokens, List.append_assoc]
  · intro h
    have := h₁.cursor_bound h
    have := h₂.cursor_bound (by rw [h₁.source]; exact this)
    rwa [h₁.source] at this
  · have e₁ := h₁.line
    have e₂ := h₂.line
    rw [h₁.source] at e₂
    omega

theorem Run.trans_nil {a b c : Scanner} {n : List Token} (h₁ : Run a b []) (h₂ : Run b c n) :
    Run a c n := by
  simpa using h₁.trans h₂

/-- Stepping over one character that is not a newline. -/
theorem Run.step {sc : Scanner} {c : Char} (h : sc.source[sc.cursor]? = some c)
    (hc : c ≠ '\n') : Run sc { sc with cursor := sc.cursor + 1 } [] := by
  have hlt : sc.cursor < sc.source.length := (List.getElem?_eq_some.1 h).1
  refine ⟨rfl, rfl, by simp, rfl, Nat.le_succ _, fun _ => hlt, ?_⟩
  simp [count_take_succ h, hc]

/-- Stepping over a newline and counting it. -/
theorem Run.stepNewline {sc : Scanner} (h : sc.source[sc.cursor]? = some '\n') :
    Run sc { sc with cursor := sc.cursor + 1, line := sc.line + 1 } [] := by
  have hlt : sc.cursor < sc.source.length := (List.getElem?_eq_some.1 h).1
  refine ⟨rfl, rfl, by simp, rfl, Nat.le_succ _, fun _ => hlt, ?_⟩
  simp [count_take_succ h]
  omega

theorem isAtEnd_of_none {sc : Scanner} (h : sc.source[sc.cursor]? = none) :
    sc.isAtEnd = true := by
  simpa [Scanner.isAtEnd] using h

theorem isAtEnd_of_some {sc : Scanner} {c : Char} (h : sc.source[sc.cursor]? = some c) :
    sc.isAtEnd = false := by
  have hlt : sc.cursor < sc.source.length := (List.getElem?_eq_some.1 h).1
  simpa [Scanner.isAtEnd] using hlt

theorem isDigit_ne_newline {c : Char} (h : isDigit c = true) : c ≠ '\n' := by
  rintro rfl
  revert h
  decide

theorem isAlphaNum_ne_newline {c : Char} (h : isAlphaNum c = true) : c ≠ '\n' := by
  rintro rfl
  revert h
  decide

theorem comment_run : ∀ (fuel : Nat) (sc sc1 : Scanner),
    Scanner.comment fuel sc = .ok sc1 → Run sc sc1 []
  | 0, sc, sc1, h => by simp [Scanner.comment] at h
  | fuel + 1, sc, sc1, h => by
    rw [Scanner.comment, advance_eq] at h
    cases hc : sc.source[sc.cursor]? with
    | none =>
      simp [hc, bind, Except.bind] at h
      exact comment_run fuel sc sc1 h
    | some c =>
      simp only [hc, bind, Except.bind] at h
      by_cases hn : c = '\n'
      · subst hn
        simp [pure, Except.pure] at h
        subst h
        exact Run.stepNewline hc
      · simp only [hn, if_false] at h
        exact (Run.step hc hn).trans_nil (comment_run fuel _ sc1 h)

theorem identifierLoop_run : ∀ (fuel : Nat) (sc sc1 : Scanner),
    Scanner.identifierLoop fuel sc = .ok sc1 → Run sc sc1 []
  | 0, sc, sc1, h => by simp [Scanner.identifierLoop] at h
  | fuel + 1, sc, sc1, h => by
    rw [Scanner.identifierLoop, peek_eq, advance_eq] at h
    cases hc : sc.source[sc.cursor]? with
    | none =>
      simp [hc, bind, Except.bind, isAtEnd_of_none hc, pure, Except.pure] at h
      subst h
      exact Run.stay _
    | some c =>
      simp only [hc, bind, Except.bind, isAtEnd_of_some hc, Option.getD_some,
        Bool.false_or] at h
      by_cases ha : isAlphaNum c = true
      · simp only [ha, Bool.not_true, Bool.false_eq_true, if_false] at h
        exact (Run.step hc (isAlphaNum_ne_newline ha)).trans_nil (identifierLoop_run fuel _ sc1 h)
      · simp [ha, pure, Except.pure] at h
        subst h
        exact Run.stay _

theorem digitFraction_run : ∀ (fuel : Nat) (sc sc1 : Scanner),
    Scanner.digitFraction fuel sc = .ok sc1 → Run sc sc1 []
  | 0, sc, sc1, h => by simp [Scanner.digitFraction] at h
  | fuel + 1, sc, sc1, h => by
    rw [Scanner.digitFraction, peek_eq, advance_eq] at h
    cases hc : sc.source[sc.cursor]? with
    | none =>
      have h0 : isDigit (Char.ofNat 0) = false := by decide
      simp [hc, bind, Except.bind, pure, Except.pure, h0] at h
      subst h
      exact Run.stay _
    | some c =>
      simp only [hc, bind, Except.bind, Option.getD_some] at h
      by_cases hd : isDigit c = true
      · simp only [hd, if_true] at h
        exact (Run.step hc (isDigit_ne_newline hd)).trans_nil (digitFraction_run fuel _ sc1 h)
      · simp [hd, pure, Except.pure] at h
        subst h
        exact Run.stay _

theorem digitLoop_run : ∀ (fuel : Nat) (sc sc1 : Scanner),
    Scanner.digitLoop fuel sc = .ok sc1 → Run sc sc1 []
  | 0, sc, sc1, h => by simp [Scanner.digitLoop] at h
  | fuel + 1, sc, sc1, h => by
    rw [Scanner.digitLoop, peek_eq, advance_eq] at h
    cases hc : sc.source[sc.cursor]? with
    | none =>
      simp [hc, isAtEnd_of_none hc, pure, Except.pure] at h
      subst h
      exact Run.stay _
    | some c =>
      simp only [hc, bind, Except.bind, isAtEnd_of_some hc, Option.getD_some,
        Bool.false_eq_true, if_false] at h
      by_cases hd : isDigit c = true
      · simp only [hd, if_true] at h
        exact (Run.step hc (isDigit_ne_newline hd)).trans_nil (digitLoop_run fuel _ sc1 h)
      · simp only [hd, Bool.false_eq_true, if_false] at h
        by_cases hdot : c = '.'
        · subst hdot
          simp only [if_true] at h
          cases hn : sc.peekNext with
          | error e => simp [hn] at h
          | ok n =>
            simp only [hn] at h
            by_cases hnd : isDigit n = true
            · simp only [hnd, if_true] at h
              exact (Run.step hc (by decide)).trans_nil (digitFraction_run fuel _ sc1 h)
            · simp [hnd, pure, Except.pure] at h
              subst h
              exact Run.stay _
        · simp [hdot, pure, Except.pure] at h
          subst h
          exact Run.stay _

theorem keywords_range (text : List Char) :
    keywords text = 0 ∨ (AND ≤ keywords text ∧ keywords text ≤ WHILE) := by
  unfold keywords keywordTable
  simp only [List.lookup]
  repeat' split
  all_goals simp [AND, CLASS, ELSE, FALSE, FUN, FOR, IF, NIL, OR, PRINT, RETURN, SUPER, THIS,
    TRUE, VAR, WHILE]

theorem addToken_run {sc sc1 : Scanner} {ty : Nat} {lit : Literal}
    (h : sc.addToken ty lit = .ok sc1) :
    Run sc sc1 [{ tokenType := ty,
                  lexeme := (sc1.source.drop sc1.start).take (sc1.cursor - sc1.start),
                  literal := lit, line := sc1.line }] ∧ sc1.start ≤ sc1.cursor ∧
      sc1.cursor ≤ sc1.source.length ∧ sc1.cursor = sc.cursor := by
  rw [addToken_eq] at h
  split at h
  · rename_i hb
    simp only [Except.ok.injEq] at h
    subst h
    exact ⟨⟨rfl, rfl, rfl, rfl, Nat.le_refl _, fun h => h, rfl⟩, hb.1, hb.2, rfl⟩
  · simp at h

theorem Good.of_run {sc sc1 : Scanner} (h : Run sc sc1 []) : Good sc sc1 :=
  ⟨[], h, Or.inl rfl⟩

theorem Good.trans_left {a b c : Scanner} (h₁ : Run a b []) (h₂ : Good b c) : Good a c := by
  obtain ⟨new, hr, he⟩ := h₂
  exact ⟨new, h₁.trans_nil hr, he⟩

theorem Good.cursor_le {a b : Scanner} (h : Good a b) : a.cursor ≤ b.cursor := by
  obtain ⟨_, hr, _⟩ := h
  exact hr.cursor_le

theorem addToken_good {sc sc1 : Scanner} {ty : Nat} {lit : Literal}
    (h : sc.addToken ty lit = .ok sc1) (hty : ty ≠ EOF)
    (hlit : LitOK ty ((sc.source.drop sc.start).take (sc.cursor - sc.start)) lit) :
    Good sc sc1 := by
  obtain ⟨hr, hs, -, hcur⟩ := addToken_run h
  refine ⟨_, hr, Or.inr ⟨ty, lit, hty, hs, ?_, rfl⟩⟩
  rw [hr.source, hr.start, hcur]
  exact hlit

theorem addToken_plain {sc sc1 : Scanner} {ty : Nat}
    (h : sc.addToken ty (.str []) = .ok sc1) (hty : ty ≠ EOF)
    (h₁ : ty ≠ STRING) (h₂ : ty ≠ NUMBER) (h₃ : ty ≠ IDENTIFIER) : Good sc sc1 :=
  addToken_good h hty (Or.inr (Or.inr (Or.inr ⟨h₁, h₂, h₃, rfl⟩)))

theorem ite_ok_cases {α : Type} {p : Prop} [Decidable p] {a b : Except Fault α} {r : α}
    (h : (if p then a else b) = .ok r) : (p ∧ a = .ok r) ∨ (¬p ∧ b = .ok r) := by
  by_cases hp : p
  · left
    rw [if_pos hp] at h
    exact ⟨hp, h⟩
  · right
    rw [if_neg hp] at h
    exact ⟨hp, h⟩

/-- The operator cases of the switch: `matchAdvance` on a character other than
a newline, then one of two plain tokens. -/
theorem matchToken_good {sc sc1 : Scanner} {d : Char} {ty₁ ty₂ : Nat} (hd : d ≠ '\n')
    (h : (do
      let (m, sc) ← sc.matchAdvance d
      if m then sc.addToken ty₁ (.str []) else sc.addToken ty₂ (.str [])) = .ok sc1)
    (a₀ : ty₁ ≠ EOF) (a₁ : ty₁ ≠ STRING) (a₂ : ty₁ ≠ NUMBER) (a₃ : ty₁ ≠ IDENTIFIER)
    (b₀ : ty₂ ≠ EOF) (b₁ : ty₂ ≠ STRING) (b₂ : ty₂ ≠ NUMBER) (b₃ : ty₂ ≠ IDENTIFIER) :
    Good sc sc1 := by
  rw [matchAdvance_eq] at h
  by_cases hm : sc.source[sc.cursor]? = some d
  · simp only [hm, if_true, bind, Except.bind] at h
    exact Good.trans_left (Run.step hm hd) (addToken_plain h a₀ a₁ a₂ a₃)
  · simp only [hm, if_false, bind, Except.bind, Bool.false_eq_true] at h
    exact addToken_plain h b₀ b₁ b₂ b₃

theorem consumeString_good : ∀ (fuel : Nat) (sc sc1 : Scanner) (e : Option GoError),
    Scanner.consumeString fuel sc = .ok (e, sc1) → Good sc sc1
  | 0, sc, sc1, e, h => by simp [Scanner.consumeString] at h
  | fuel + 1, sc, sc1, e, h => by
    rw [Scanner.consumeString, advance_eq] at h
    cases hc : sc.source[sc.cursor]? with
    | none =>
      simp [hc, bind, Except.bind, pure, Except.pure] at h
      rw [← h.2]
      exact Good.of_run (Run.stay _)
    | some c =>
      simp only [hc, bind, Except.bind, Option.isSome_none, Bool.false_eq_true, if_false] at h
      rcases ite_ok_cases h with ⟨hq, h2⟩ | ⟨hq, h2⟩
      · clear h
        subst hq
        refine Good.trans_left (Run.step hc (by decide)) ?_
        simp only [Nat.add_sub_cancel] at h2
        cases ht : slice sc.source (sc.start + 1) sc.cursor with
        | error f => simp [ht] at h2
        | ok text =>
          simp only [ht] at h2
          cases ha : Scanner.addToken { sc with cursor := sc.cursor + 1 } STRING (.str text) with
          | error f => simp [ha] at h2
          | ok s2 =>
            simp only [ha, pure, Except.pure, Except.ok.injEq, Prod.mk.injEq] at h2
            rw [← h2.2]
            exact addToken_good ha (by decide) (Or.inl rfl)
      · clear h
        rcases ite_ok_cases h2 with ⟨hn, h⟩ | ⟨hn, h⟩
        · subst hn
          exact Good.trans_left (Run.stepNewline hc) (consumeString_good fuel _ sc1 e h)
        · exact Good.trans_left (Run.step hc hn) (consumeString_good fuel _ sc1 e h)

theorem identifier_good {fuel : Nat} {sc sc1 : Scanner}
    (h : Scanner.identifier fuel sc = .ok sc1) : Good sc sc1 := by
  rw [Scanner.identifier] at h
  cases hl : Scanner.identifierLoop fuel sc with
  | error f => simp [hl, bind, Except.bind] at h
  | ok s1 =>
    simp only [hl, bind, Except.bind] at h
    refine Good.trans_left (identifierLoop_run fuel sc s1 hl) ?_
    cases ht : slice s1.source s1.start s1.cursor with
    | error f => simp [ht] at h
    | ok text =>
      simp only [ht] at h
      have htext := (slice_ok_iff.1 ht).2.2
      rcases ite_ok_cases h with ⟨hk, h⟩ | ⟨hk, h⟩
      · have hr := keywords_range text
        have h23 : 23 ≤ keywords text ∧ keywords text ≤ 38 := by
          rcases hr with h0 | h1
          · exact absurd h0 hk
          · simpa [AND, WHILE] using h1
        refine addToken_plain h ?_ ?_ ?_ ?_ <;> simp only [EOF, STRING, NUMBER, IDENTIFIER] <;> omega
      · refine addToken_good h (by decide) (Or.inr (Or.inr (Or.inl ⟨rfl, ?_⟩)))
        rw [htext]

theorem ParseFloat_ok {text : List Char} {n : Literal} (h : ParseFloat text = .ok n) :
    n = .num text := by
  unfold ParseFloat at h
  simp only at h
  split_ifs at h
  simp only [Except.ok.injEq] at h
  exact h.symm

theorem digit_good {fuel : Nat} {sc sc1 : Scanner} {e : Option GoError}
    (h : Scanner.digit fuel sc = .ok (e, sc1)) : Good sc sc1 := by
  rw [Scanner.digit] at h
  cases hl : Scanner.digitLoop fuel sc with
  | error f => simp [hl, bind, Except.bind] at h
  | ok s1 =>
    simp only [hl, bind, Except.bind] at h
    refine Good.trans_left (digitLoop_run fuel sc s1 hl) ?_
    cases ht : slice s1.source s1.start s1.cursor with
    | error f => simp [ht] at h
    | ok text =>
      simp only [ht] at h
      have htext := (slice_ok_iff.1 ht).2.2
      cases hp : ParseFloat text with
      | error err =>
        simp only [hp, pure, Except.pure, Except.ok.injEq, Prod.mk.injEq] at h
        rw [← h.2]
        exact Good.of_run (Run.stay _)
      | ok n =>
        simp only [hp] at h
        cases ha : s1.addToken NUMBER n with
        | error f => simp [ha] at h
        | ok s2 =>
          simp only [ha, pure, Except.pure, Except.ok.injEq, Prod.mk.injEq] at h
          rw [← h.2]
          refine addToken_good ha (by decide) (Or.inr (Or.inl ⟨rfl, ?_⟩))
          rw [ParseFloat_ok hp, htext]

/-- The `switch` of `Scan`, started after `advance` read the character `c` at
the cursor of `s0`: the cursor moves forward by at least that character, the
line counter follows the newlines, and at most one token is appended. -/
theorem scanSwitch_good (fuel : Nat) (c : Char) (s0 sc1 : Scanner)
    (hc : s0.source[s0.cursor]? = some c)
    (h : Scanner.scanSwitch fuel c { s0 with cursor := s0.cursor + 1 } = .ok sc1) :
    Good s0 sc1 ∧ s0.cursor < sc1.cursor := by
  unfold Scanner.scanSwitch at h
  rcases ite_ok_cases h with ⟨hw, h'⟩ | ⟨-, h'⟩
  · simp only [pure, Except.pure, Except.ok.injEq] at h'
    subst h'
    have hn : c ≠ '\n' := by
      rcases hw with rfl | rfl | rfl <;> decide
    exact ⟨Good.of_run (Run.step hc hn), Nat.lt_succ_self _⟩
  clear h
  rename' h' => h
  rcases ite_ok_cases h with ⟨hn, h'⟩ | ⟨hn, h'⟩
  · simp only [pure, Except.pure, Except.ok.injEq] at h'
    subst h' hn
    exact ⟨Good.of_run (Run.stepNewline hc), Nat.lt_succ_self _⟩
  clear h
  rename' h' => h
  have key : Good { s0 with cursor := s0.cursor + 1 } sc1 → Good s0 sc1 ∧ s0.cursor < sc1.cursor := by
    intro hg
    exact ⟨Good.trans_left (Run.step hc hn) hg, Nat.lt_of_lt_of_le (Nat.lt_succ_self _) hg.cursor_le⟩
  rcases ite_ok_cases h with ⟨-, h'⟩ | ⟨-, h'⟩
  · exact key (addToken_plain h' (by decide) (by decide) (by decide) (by decide))
  clear h
  rename' h' => h
  rcases ite_ok_cases h with ⟨-, h'⟩ | ⟨-, h'⟩
  · exact key (addToken_plain h' (by decide) (by decide) (by decide) (by decide))
  clear h
  rename' h' => h
  rcases ite_ok_cases h with ⟨-, h'⟩ | ⟨-, h'⟩
  · exact key (addToken_plain h' (by decide) (by decide) (by decide) (by decide))
  clear h
  rename' h' => h
  rcases ite_ok_cases h with ⟨-, h'⟩ | ⟨-, h'⟩
  · exact key (addToken_plain h' (by decide) (by decide) (by decide) (by decide))
  clear h
  rename' h' => h
  rcases ite_ok_cases h with ⟨-, h'⟩ | ⟨-, h'⟩
  · exact key (addToken_plain h' (by decide) (by decide) (by decide) (by decide))
  clear h
  rename' h' => h
  rcases ite_ok_cases h with ⟨-, h'⟩ | ⟨-, h'⟩
  · exact key (addToken_plain h' (by decide) (by decide) (by decide) (by decide))
  clear h
  rename' h' => h
  rcases ite_ok_cases h with ⟨-, h'⟩ | ⟨-, h'⟩
  · exact key (addToken_plain h' (by decide) (by decide) (by decide) (by decide))
  clear h
  rename' h' => h
  rcases ite_ok_cases h with ⟨-, h'⟩ | ⟨-, h'⟩
  · exact key (addToken_plain h' (by decide) (by decide) (by decide) (by decide))
  clear h
  rename' h' => h
  rcases ite_ok_cases h with ⟨-, h'⟩ | ⟨-, h'⟩
  · exact key (addToken_plain h' (by decide) (by decide) (by decide) (by decide))
  clear h
  rename' h' => h
  rcases ite_ok_cases h with ⟨-, h'⟩ | ⟨-, h'⟩
  · exact key (matchToken_good (by decide) h' (by decide) (by decide) (by decide) (by decide)
      (by decide) (by decide) (by decide) (by decide))
  clear h
  rename' h' => h
  rcases ite_ok_cases h with ⟨-, h'⟩ | ⟨-, h'⟩
  · exact key (matchToken_good (by decide) h' (by decide) (by decide) (by decide) (by decide)
      (by decide) (by decide) (by decide) (by decide))
  clear h
  rename' h' => h
  rcases ite_ok_cases h with ⟨-, h'⟩ | ⟨-, h'⟩
  · exact key (matchToken_good (by decide) h' (by decide) (by decide) (by decide) (by decide)
      (by decide) (by decide) (by decide) (by decide))
  clear h
  rename' h' => h
  rcases ite_ok_cases h with ⟨-, h'⟩ | ⟨-, h'⟩
  · exact key (matchToken_good (by decide) h' (by decide) (by decide) (by decide) (by decide)
      (by decide) (by decide) (by decide) (by decide))
  clear h
  rename' h' => h
  rcases ite_ok_cases h with ⟨-, h'⟩ | ⟨-, h'⟩
  · cases hs : Scanner.consumeString fuel { s0 with cursor := s0.cursor + 1 } with
    | error f => simp [hs, bind, Except.bind] at h'
    | ok r =>
      obtain ⟨e, s2⟩ := r
      simp only [hs, bind, Except.bind, pure, Except.pure, Except.ok.injEq] at h'
      subst h'
      exact key (consumeString_good fuel _ _ e hs)
  clear h
  rename' h' => h
  rcases ite_ok_cases h with ⟨-, h'⟩ | ⟨-, h'⟩
  · apply key
    rw [matchAdvance_eq] at h'
    by_cases hm : ({ s0 with cursor := s0.cursor + 1 } : Scanner).source[
        ({ s0 with cursor := s0.cursor + 1 } : Scanner).cursor]? = some '/'
    · simp only [hm, if_true, bind, Except.bind] at h'
      exact Good.of_run ((Run.step hm (by decide)).trans_nil (comment_run fuel _ _ h'))
    · simp only [hm, if_false, bind, Except.bind, Bool.false_eq_true] at h'
      rw [matchAdvance_eq] at h'
      by_cases hm2 : ({ s0 with cursor := s0.cursor + 1 } : Scanner).source[
          ({ s0 with cursor := s0.cursor + 1 } : Scanner).cursor]? = some '*'
      · simp only [hm2, if_true, pure, Except.pure, Except.ok.injEq] at h'
        subst h'
        exact Good.of_run (Run.step hm2 (by decide))
      · simp only [hm2, if_false, Bool.false_eq_true] at h'
        exact addToken_plain h' (by decide) (by decide) (by decide) (by decide)
  clear h
  rename' h' => h
  rcases ite_ok_cases h with ⟨-, h'⟩ | ⟨-, h'⟩
  · exact key (identifier_good h')
  clear h
  rename' h' => h
  rcases ite_ok_cases h with ⟨-, h'⟩ | ⟨-, h'⟩
  · cases hs : Scanner.digit fuel { s0 with cursor := s0.cursor + 1 } with
    | error f => simp [hs, bind, Except.bind] at h'
    | ok r =>
      obtain ⟨e, s2⟩ := r
      simp only [hs, bind, Except.bind, pure, Except.pure, Except.ok.injEq] at h'
      subst h'
      exact key (digit_good hs)
  · simp only [pure, Except.pure, Except.ok.injEq] at h'
    subst h'
    exact key (Good.of_run (Run.stay _))

/-- One iteration of the loop of `Scan`: either the cursor is at the end of the
source, `EOF` is appended and the loop stops, or the loop goes on with the
cursor moved forward and at most one token appended. -/
theorem scanStep_spec {fuel : Nat} {sc sc1 : Scanner} {stop : Bool}
    (h : Scanner.scanStep fuel sc = .ok (stop, sc1)) :
    (stop = true ∧ sc.cursor = sc.source.length ∧
      sc1 = { sc with start := sc.cursor, tokens := sc.tokens ++
        [{ tokenType := EOF, lexeme := [], literal := .str [], line := sc.line }] }) ∨
    (stop = false ∧ Good { sc with start := sc.cursor } sc1 ∧ sc.cursor < sc1.cursor) := by
  rw [Scanner.scanStep, advance_eq] at h
  cases hc : sc.source[sc.cursor]? with
  | none =>
    left
    simp only [hc, bind, Except.bind, Option.isSome_some, if_true] at h
    have hlen : sc.source.length ≤ sc.cursor := by simpa using hc
    cases ha : Scanner.addToken { sc with start := sc.cursor } EOF (.str []) with
    | error f => simp [ha] at h
    | ok s2 =>
      simp only [ha, pure, Except.pure, Except.ok.injEq, Prod.mk.injEq] at h
      rw [addToken_eq] at ha
      rcases ite_ok_cases ha with ⟨hb, ha'⟩ | ⟨-, ha'⟩
      · have heq : sc.cursor = sc.source.length := Nat.le_antisymm hb.2 hlen
        simp only [Except.ok.injEq] at ha'
        refine ⟨h.1.symm, heq, ?_⟩
        rw [← h.2, ← ha']
        simp
      · cases ha'
  | some c =>
    right
    simp only [hc, bind, Except.bind, Option.isSome_none, Bool.false_eq_true, if_false] at h
    cases hs : Scanner.scanSwitch fuel c
        { source := sc.source, line := sc.line, start := sc.cursor, cursor := sc.cursor + 1,
          tokens := sc.tokens, Errors := sc.Errors } with
    | error f => simp [hs] at h
    | ok s2 =>
      simp only [hs, pure, Except.pure, Except.ok.injEq, Prod.mk.injEq] at h
      obtain ⟨h₁, h₂⟩ := h
      subst h₂
      have := scanSwitch_good fuel c { sc with start := sc.cursor } s2 hc hs
      exact ⟨h₁.symm, this.1, this.2⟩

theorem Lexed.mono {src : List Char} {base p q : Nat} {toks : List Token}
    (h : Lexed src base q toks) (hpq : p ≤ q) : Lexed src base p toks := by
  cases h with
  | nil => exact Lexed.nil p
  | cons _ i j ty lit rest h₁ h₂ h₃ h₄ h₅ h₆ =>
    exact Lexed.cons p i j ty lit rest (Nat.le_trans hpq h₁) h₂ h₃ h₄ h₅ h₆

/-- The loop of `Scan`, when it returns: the cursor is at the end of the
source, the errors are unchanged, and the tokens appended are tokens lying in
the source after the cursor, followed by one `EOF` token with empty lexeme. -/
theorem scanLoop_spec (base : Nat) : ∀ (fuel : Nat) (sc sc1 : Scanner),
    sc.line = base + (sc.source.take sc.cursor).count '\n' →
    Scanner.scanLoop fuel sc = .ok sc1 →
    sc1.source = sc.source ∧ sc1.Errors = sc.Errors ∧ sc1.cursor = sc.source.length ∧
    sc1.start = sc.source.length ∧ sc.cursor ≤ sc.source.length ∧
    sc1.line = base + sc.source.count '\n' ∧
    ∃ mid, Lexed sc.source base sc.cursor mid ∧
      sc1.tokens = sc.tokens ++ mid ++
        [{ tokenType := EOF, lexeme := [], literal := .str [], line := sc1.line }]
  | 0, sc, sc1, _, h => by simp [Scanner.scanLoop] at h
  | fuel + 1, sc, sc1, hline, h => by
    rw [Scanner.scanLoop] at h
    cases hs : Scanner.scanStep fuel sc with
    | error f => simp [hs, bind, Except.bind] at h
    | ok r =>
      obtain ⟨stop, s2⟩ := r
      simp only [hs, bind, Except.bind] at h
      rcases scanStep_spec hs with ⟨hstop, hcur, hs2⟩ | ⟨hstop, hgood, hlt⟩
      · subst hstop
        simp only [if_true, pure, Except.pure, Except.ok.injEq] at h
        subst h
        subst hs2
        refine ⟨rfl, rfl, hcur, hcur, Nat.le_of_eq hcur, ?_, [], Lexed.nil _, by simp⟩
        simp only [hline, hcur, List.take_length]
      · subst hstop
        simp only [Bool.false_eq_true, if_false] at h
        obtain ⟨new, hrun, hem⟩ := hgood
        have hsrc : s2.source = sc.source := hrun.source
        have hline2 : s2.line = base + (s2.source.take s2.cursor).count '\n' := by
          have := hrun.line
          simp only at this
          rw [hsrc]
          omega
        obtain ⟨h₁, h₂, h₃, h₃', h₄, h₅, mid, hmid, htok⟩ :=
          scanLoop_spec base fuel s2 sc1 hline2 h
        rw [hsrc] at h₁ h₃ h₃' h₄ h₅ hmid
        refine ⟨h₁, h₂.trans hrun.errors, h₃, h₃', Nat.le_trans (Nat.le_of_lt hlt) h₄, h₅,
          new ++ mid, ?_, ?_⟩
        · rcases hem with rfl | ⟨ty, lit, hty, hle, hlit, rfl⟩
          · exact hmid.mono (Nat.le_of_lt hlt)
          · have hst : s2.start = sc.cursor := hrun.start
            rw [hsrc, hst] at hlit
            rw [hsrc, hst, hline2, hsrc]
            exact Lexed.cons sc.cursor sc.cursor s2.cursor ty lit mid (Nat.le_refl _)
              (Nat.le_of_lt hlt) h₄ hty hlit hmid
        · rw [htok, hrun.tokens]
          simp [List.append_assoc]

/-! ## More fuel does not change a result -/

theorem Stable.unchanged {α : Type} (x : Except Fault α) : Stable x x := fun _ => rfl

theorem Stable.bind {α β : Type} {x y : Except Fault α} {f g : α → Except Fault β}
    (hx : Stable x y) (hf : ∀ a, Stable (f a) (g a)) : Stable (x >>= f) (y >>= g) := by
  intro h
  cases x with
  | error e =>
    have he : e ≠ .outOfFuel := by
      rintro rfl
      exact h rfl
    rw [hx (by simpa using he)]
    rfl
  | ok a =>
    rw [hx (by simp)]
    exact hf a h

theorem Stable.ite {α : Type} {p : Prop} [Decidable p] {a b c d : Except Fault α}
    (h₁ : Stable a c) (h₂ : Stable b d) :
    Stable (if p then a else b) (if p then c else d) := by
  by_cases hp : p
  · simpa [hp] using h₁
  · simpa [hp] using h₂

theorem comment_stable : ∀ (fuel : Nat) (sc : Scanner),
    Stable (Scanner.comment fuel sc) (Scanner.comment (fuel + 1) sc)
  | 0, sc => fun h => absurd rfl h
  | fuel + 1, sc => by
    rw [Scanner.comment, Scanner.comment]
    refine Stable.bind (Stable.unchanged _) ?_
    rintro ⟨c, e, s⟩
    exact Stable.ite (Stable.unchanged _) (comment_stable fuel s)

theorem digitFraction_stable : ∀ (fuel : Nat) (sc : Scanner),
    Stable (Scanner.digitFraction fuel sc) (Scanner.digitFraction (fuel + 1) sc)
  | 0, sc => fun h => absurd rfl h
  | fuel + 1, sc => by
    rw [Scanner.digitFraction, Scanner.digitFraction]
    refine Stable.bind (Stable.unchanged _) ?_
    intro c
    refine Stable.ite (Stable.bind (Stable.unchanged _) ?_) (Stable.unchanged _)
    rintro ⟨c, e, s⟩
    exact digitFraction_stable fuel s

theorem digitLoop_stable : ∀ (fuel : Nat) (sc : Scanner),
    Stable (Scanner.digitLoop fuel sc) (Scanner.digitLoop (fuel + 1) sc)
  | 0, sc => fun h => absurd rfl h
  | fuel + 1, sc => by
    rw [Scanner.digitLoop, Scanner.digitLoop]
    refine Stable.ite (Stable.unchanged _) (Stable.bind (Stable.unchanged _) ?_)
    intro c
    refine Stable.ite (Stable.bind (Stable.unchanged _) ?_) (Stable.ite (Stable.bind (Stable.unchanged _) ?_)
      (Stable.unchanged _))
    · rintro ⟨c, e, s⟩
      exact digitLoop_stable fuel s
    · intro n
      refine Stable.ite (Stable.bind (Stable.unchanged _) ?_) (Stable.unchanged _)
      rintro ⟨c, e, s⟩
      exact digitFraction_stable fuel s

theorem digit_stable (fuel : Nat) (sc : Scanner) :
    Stable (Scanner.digit fuel sc) (Scanner.digit (fuel + 1) sc) := by
  rw [Scanner.digit, Scanner.digit]
  exact Stable.bind (digitLoop_stable fuel sc) (fun _ => Stable.unchanged _)

theorem consumeString_stable : ∀ (fuel : Nat) (sc : Scanner),
    Stable (Scanner.consumeString fuel sc) (Scanner.consumeString (fuel + 1) sc)
  | 0, sc => fun h => absurd rfl h
  | fuel + 1, sc => by
    rw [Scanner.consumeString, Scanner.consumeString]
    refine Stable.bind (Stable.unchanged _) ?_
    rintro ⟨c, e, s⟩
    exact Stable.ite (Stable.unchanged _) (Stable.ite (Stable.unchanged _)
      (Stable.ite (consumeString_stable fuel _) (consumeString_stable fuel _)))

theorem identifierLoop_stable : ∀ (fuel : Nat) (sc : Scanner),
    Stable (Scanner.identifierLoop fuel sc) (Scanner.identifierLoop (fuel + 1) sc)
  | 0, sc => fun h => absurd rfl h
  | fuel + 1, sc => by
    rw [Scanner.identifierLoop, Scanner.identifierLoop]
    refine Stable.bind (Stable.unchanged _) ?_
    intro c
    refine Stable.ite (Stable.unchanged _) (Stable.bind (Stable.unchanged _) ?_)
    rintro ⟨c, e, s⟩
    exact identifierLoop_stable fuel s

theorem identifier_stable (fuel : Nat) (sc : Scanner) :
    Stable (Scanner.identifier fuel sc) (Scanner.identifier (fuel + 1) sc) := by
  rw [Scanner.identifier, Scanner.identifier]
  exact Stable.bind (identifierLoop_stable fuel sc) (fun _ => Stable.unchanged _)

theorem scanSwitch_stable (fuel : Nat) (c : Char) (sc : Scanner) :
    Stable (Scanner.scanSwitch fuel c sc) (Scanner.scanSwitch (fuel + 1) c sc) := by
  unfold Scanner.scanSwitch
  iterate 15 refine Stable.ite (Stable.unchanged _) ?_
  refine Stable.ite (Stable.bind (consumeString_stable fuel sc) (fun _ => Stable.unchanged _)) ?_
  refine Stable.ite (Stable.bind (Stable.unchanged _) ?_) ?_
  · rintro ⟨m, s⟩
    exact Stable.ite (comment_stable fuel s) (Stable.unchanged _)
  refine Stable.ite (identifier_stable fuel sc) ?_
  exact Stable.ite (Stable.bind (digit_stable fuel sc) (fun _ => Stable.unchanged _)) (Stable.unchanged _)

theorem scanStep_stable (fuel : Nat) (sc : Scanner) :
    Stable (Scanner.scanStep fuel sc) (Scanner.scanStep (fuel + 1) sc) := by
  rw [Scanner.scanStep, Scanner.scanStep]
  refine Stable.bind (Stable.unchanged _) ?_
  rintro ⟨c, e, s⟩
  exact Stable.ite (Stable.unchanged _) (Stable.bind (scanSwitch_stable fuel c s) (fun _ => Stable.unchanged _))

theorem scanLoop_stable : ∀ (fuel : Nat) (sc : Scanner),
    Stable (Scanner.scanLoop fuel sc) (Scanner.scanLoop (fuel + 1) sc)
  | 0, sc => fun h => absurd rfl h
  | fuel + 1, sc => by
    rw [Scanner.scanLoop, Scanner.scanLoop]
    refine Stable.bind (scanStep_stable fuel sc) ?_
    rintro ⟨stop, s⟩
    exact Stable.ite (Stable.unchanged _) (scanLoop_stable fuel s)

theorem scanSource_stable (fuel : Nat) (source : List Char) :
    Stable (scanSource fuel source) (scanSource (fuel + 1) source) := by
  intro h
  unfold scanSource Scanner.Scan at h ⊢
  have hs := scanLoop_stable fuel (NewScanner source)
  cases hl : Scanner.scanLoop fuel (NewScanner source) with
  | error e =>
    have he : e ≠ .outOfFuel := by
      rintro rfl
      apply h
      simp [hl, bind, Except.bind, Except.map]
    rw [hs (by simpa [hl] using he), hl]
  | ok s => rw [hs (by simp [hl]), hl]

/-- Once `Scan` has an outcome other than running out of fuel, any larger fuel
gives the same outcome. -/
theorem scanSource_fuel (source : List Char) (n : Nat) (r : Except Fault (List Token × List GoError))
    (h : scanSource n source = r) (hr : r ≠ .error .outOfFuel) :
    ∀ k, scanSource (n + k) source = r
  | 0 => h
  | k + 1 => by
    have ih := scanSource_fuel source n r h hr k
    have := scanSource_stable (n + k) source (by rw [ih]; exact hr)
    rw [← Nat.add_assoc, this, ih]

/-! ## Running the Scanner on a source of a known shape -/

theorem getElem?_of_drop {s : List Char} {i : Nat} {c : Char} {r : List Char}
    (h : s.drop i = c :: r) : s[i]? = some c := by
  rw [← List.head?_drop, h]
  rfl

theorem drop_succ_of_drop {s : List Char} {i : Nat} {c : Char} {r : List Char}
    (h : s.drop i = c :: r) : s.drop (i + 1) = r := by
  rw [← List.tail_drop, h]
  rfl

theorem getElem?_of_drop_nil {s : List Char} {i : Nat} (h : s.drop i = []) : s[i]? = none := by
  rw [← List.head?_drop, h]
  rfl

theorem scanStep_some {fuel : Nat} {sc : Scanner} {c : Char}
    (hc : sc.source[sc.cursor]? = some c) :
    Scanner.scanStep fuel sc =
      (Scanner.scanSwitch fuel c { sc with start := sc.cursor, cursor := sc.cursor + 1 }).map
        (fun s => (false, s)) := by
  rw [Scanner.scanStep, advance_eq]
  simp only [hc, bind, Except.bind, Option.isSome_none, Bool.false_eq_true, if_false]
  cases Scanner.scanSwitch fuel c { sc with start := sc.cursor, cursor := sc.cursor + 1 } <;> rfl

theorem scanStep_none {fuel : Nat} {sc : Scanner} (hc : sc.cursor = sc.source.length) :
    Scanner.scanStep fuel sc = .ok (true, { sc with start := sc.cursor, tokens := sc.tokens ++
      [{ tokenType := EOF, lexeme := [], literal := .str [], line := sc.line }] }) := by
  have hn : sc.source[sc.cursor]? = none := by simp [hc]
  rw [Scanner.scanStep, advance_eq]
  simp only [hn, bind, Except.bind, Option.isSome_some, if_true, addToken_eq]
  simp [hc, pure, Except.pure]

/-- An iteration of the loop that does not stop hands over to the rest of the loop. -/
theorem scanLoop_some {fuel : Nat} {sc s1 : Scanner} {c : Char}
    (hc : sc.source[sc.cursor]? = some c)
    (hs : Scanner.scanSwitch fuel c { sc with start := sc.cursor, cursor := sc.cursor + 1 } = .ok s1) :
    Scanner.scanLoop (fuel + 1) sc = Scanner.scanLoop fuel s1 := by
  rw [Scanner.scanLoop, scanStep_some hc, hs]
  rfl

/-- At the end of the source the loop appends `EOF` and returns. -/
theorem scanLoop_none {fuel : Nat} {sc : Scanner} (hc : sc.cursor = sc.source.length) :
    Scanner.scanLoop (fuel + 1) sc = .ok { sc with start := sc.cursor, tokens := sc.tokens ++
      [{ tokenType := EOF, lexeme := [], literal := .str [], line := sc.line }] } := by
  rw [Scanner.scanLoop, scanStep_none hc]
  rfl

theorem scanSource_eq (fuel : Nat) (source : List Char) :
    scanSource fuel source =
      (Scanner.scanLoop fuel (NewScanner source)).map (fun s => (s.tokens, s.Errors)) := by
  unfold scanSource Scanner.Scan
  cases Scanner.scanLoop fuel (NewScanner source) <;> rfl

theorem scanSource_ok {fuel : Nat} {source : List Char} {toks : List Token}
    {errs : List GoError} (h : scanSource fuel source = .ok (toks, errs)) :
    ∃ s, Scanner.scanLoop fuel (NewScanner source) = .ok s ∧ toks = s.tokens ∧ errs = s.Errors := by
  rw [scanSource_eq] at h
  cases hl : Scanner.scanLoop fuel (NewScanner source) with
  | error e => simp [hl, Except.map] at h
  | ok s =>
    simp only [hl, Except.map, Except.ok.injEq, Prod.mk.injEq] at h
    exact ⟨s, rfl, h.1.symm, h.2.symm⟩

/-- What `Scan` returns on a fresh Scanner, when it returns: no errors, and
tokens lying in the source one after the other followed by one `EOF` token
with empty lexeme, whose line is one plus the number of newlines of the source. -/
theorem scanSource_spec {fuel : Nat} {source : List Char} {toks : List Token}
    {errs : List GoError} (h : scanSource fuel source = .ok (toks, errs)) :
    errs = [] ∧ ∃ mid, Lexed source 1 0 mid ∧ toks = mid ++
      [{ tokenType := EOF, lexeme := [], literal := .str [], line := 1 + source.count '\n' }] := by
  obtain ⟨s, hl, rfl, rfl⟩ := scanSource_ok h
  obtain ⟨-, h₂, -, -, -, h₅, mid, hmid, htok⟩ :=
    scanLoop_spec 1 fuel (NewScanner source) s (by simp [NewScanner]) hl
  refine ⟨h₂, mid, hmid, ?_⟩
  rw [htok, h₅]
  simp [NewScanner]

theorem Lexed.not_EOF {src : List Char} {base p : Nat} {toks : List Token}
    (h : Lexed src base p toks) : ∀ t ∈ toks, t.tokenType ≠ EOF := by
  induction h with
  | nil => simp
  | cons p i j ty lit rest _ _ _ hty _ _ ih =>
    intro t ht
    rcases List.mem_cons.1 ht with rfl | ht
    · exact hty
    · exact ih t ht

/-- The method `consumeString` on a text without a closing quote: it reads to the end of
the source, counts the newlines and returns `errUnterminatedString`. -/
theorem consumeString_unterminated : ∀ (s : List Char) (fuel : Nat) (sc : Scanner),
    sc.source.drop sc.cursor = s → '"' ∉ s → s.length < fuel →
    Scanner.consumeString fuel sc = .ok (some .errUnterminatedString,
      { sc with cursor := sc.cursor + s.length, line := sc.line + s.count '\n' })
  | [], fuel, sc, hd, _, hf => by
    obtain ⟨f, rfl⟩ : ∃ f, fuel = f + 1 := ⟨fuel - 1, by simp at hf; omega⟩
    rw [Scanner.consumeString, advance_eq, getElem?_of_drop_nil hd]
    rfl
  | c :: s, fuel, sc, hd, hq, hf => by
    obtain ⟨f, rfl⟩ : ∃ f, fuel = f + 1 := ⟨fuel - 1, by simp at hf; omega⟩
    have hc : c ≠ '"' := fun h => hq (by simp [h])
    have hq' : '"' ∉ s := fun h => hq (List.mem_cons_of_mem _ h)
    have hf' : s.length < f := by simp at hf; omega
    rw [Scanner.consumeString, advance_eq, getElem?_of_drop hd]
    simp only [bind, Except.bind, Option.isSome_none, Bool.false_eq_true, if_false, hc]
    by_cases hn : c = '\n'
    · subst hn
      rw [if_pos rfl, consumeString_unterminated s f _ (drop_succ_of_drop hd) hq' hf']
      simp only [List.length_cons, List.count_cons_self, Except.ok.injEq, Prod.mk.injEq,
        Scanner.mk.injEq, true_and, and_true]
      omega
    · rw [if_neg hn, consumeString_unterminated s f _ (drop_succ_of_drop hd) hq' hf']
      simp only [List.length_cons, List.count_cons_of_ne (Ne.symm hn), Except.ok.injEq,
        Prod.mk.injEq, Scanner.mk.injEq, true_and, and_true]
      omega

/-- The method `consumeString` on a text that holds a closing quote: it reads up to and
including the first quote, counts the newlines before it, and appends the
`STRING` token. -/
theorem consumeString_closed : ∀ (s post : List Char) (fuel : Nat) (sc : Scanner),
    sc.source.drop sc.cursor = s ++ '"' :: post → '"' ∉ s → s.length < fuel →
    Scanner.consumeString fuel sc = (do
      let text ← slice sc.source (sc.start + 1) (sc.cursor + s.length)
      let s2 ← Scanner.addToken
        { sc with cursor := sc.cursor + s.length + 1, line := sc.line + s.count '\n' }
        STRING (.str text)
      pure (none, s2))
  | [], post, fuel, sc, hd, _, hf => by
    obtain ⟨f, rfl⟩ : ∃ f, fuel = f + 1 := ⟨fuel - 1, by simp at hf; omega⟩
    rw [Scanner.consumeString, advance_eq, getElem?_of_drop hd]
    simp only [bind, Except.bind, Option.isSome_none, Bool.false_eq_true, if_false, if_true]
    rfl
  | c :: s, post, fuel, sc, hd, hq, hf => by
    obtain ⟨f, rfl⟩ : ∃ f, fuel = f + 1 := ⟨fuel - 1, by simp at hf; omega⟩
    have hc : c ≠ '"' := fun h => hq (by simp [h])
    have hq' : '"' ∉ s := fun h => hq (List.mem_cons_of_mem _ h)
    have hf' : s.length < f := by simp at hf; omega
    rw [Scanner.consumeString, advance_eq, getElem?_of_drop hd]
    simp only [bind, Except.bind, Option.isSome_none, Bool.false_eq_true, if_false, hc]
    have e₁ : sc.cursor + 1 + s.length = sc.cursor + (c :: s).length := by
      simp only [List.length_cons]; omega
    by_cases hn : c = '\n'
    · subst hn
      rw [if_pos rfl, consumeString_closed s post f _ (drop_succ_of_drop hd) hq' hf']
      have e₂ : sc.line + 1 + s.count '\n' = sc.line + ('\n' :: s).count '\n' := by
        simp only [List.count_cons_self]; omega
      simp only [e₁, e₂, bind, Except.bind]
    · rw [if_neg hn, consumeString_closed s post f _ (drop_succ_of_drop hd) hq' hf']
      have e₂ : s.count '\n' = (c :: s).count '\n' := by
        rw [List.count_cons_of_ne (Ne.symm hn)]
      simp only [e₁, e₂, bind, Except.bind]

/-- The method `comment` at the end of the source: `advance` keeps returning the rune 0,
which is not a newline, so the loop never ends. -/
theorem comment_atEnd : ∀ (fuel : Nat) (sc : Scanner), sc.source.length ≤ sc.cursor →
    Scanner.comment fuel sc = .error .outOfFuel
  | 0, _, _ => rfl
  | fuel + 1, sc, h => by
    rw [Scanner.comment, advance_eq, List.getElem?_eq_none h]
    simp only [bind, Except.bind]
    rw [if_neg (by decide)]
    exact comment_atEnd fuel sc h

/-- The result of `scanSource` is a function of the source alone: two runs that return,
with whatever fuel, return the same pair. -/
theorem scanSource_unique {source : List Char} {n m : Nat}
    {r₁ r₂ : List Token × List GoError}
    (h₁ : scanSource n source = .ok r₁) (h₂ : scanSource m source = .ok r₂) : r₁ = r₂ := by
  have e₁ := scanSource_fuel source n _ h₁ (by simp) m
  have e₂ := scanSource_fuel source m _ h₂ (by simp) n
  rw [Nat.add_comm] at e₂
  rw [e₁] at e₂
  exact Except.ok.inj e₂

/-- The loop of `identifier` over a run of letters, digits and underscores. -/
theorem identifierLoop_run_over : ∀ (w post : List Char) (fuel : Nat) (sc : Scanner),
    sc.source.drop sc.cursor = w ++ post → (∀ c ∈ w, isAlphaNum c = true) →
    Scanner.identifierLoop (fuel + w.length) sc =
      Scanner.identifierLoop fuel { sc with cursor := sc.cursor + w.length }
  | [], _, _, _, _, _ => rfl
  | c :: w, post, fuel, sc, hd, hw => by
    have hc : isAlphaNum c = true := hw c (List.mem_cons_self _ _)
    have hget := getElem?_of_drop hd
    rw [List.length_cons, ← Nat.add_assoc, Scanner.identifierLoop, peek_eq, advance_eq, hget]
    simp only [bind, Except.bind, isAtEnd_of_some hget, Option.getD_some, hc, Bool.not_true,
      Bool.or_self, Bool.false_eq_true, if_false]
    rw [identifierLoop_run_over w post fuel _ (drop_succ_of_drop hd)
      (fun x hx => hw x (List.mem_cons_of_mem _ hx))]
    simp only [Nat.add_assoc, Nat.add_comm 1]

/-- The loop of `identifier` stops at the end of the source and at a character
that is no letter, digit or underscore. -/
theorem identifierLoop_stop {post : List Char} {fuel : Nat} {sc : Scanner}
    (hd : sc.source.drop sc.cursor = post)
    (hp : ∀ c, post.head? = some c → isAlphaNum c = false) :
    Scanner.identifierLoop (fuel + 1) sc = .ok sc := by
  rw [Scanner.identifierLoop, peek_eq]
  cases post with
  | nil =>
    have hget := getElem?_of_drop_nil hd
    simp [bind, Except.bind, isAtEnd_of_none hget, pure, Except.pure]
  | cons c r =>
    have hget := getElem?_of_drop hd
    have hc := hp c rfl
    simp [bind, Except.bind, isAtEnd_of_some hget, hget, hc, pure, Except.pure]

/-- The outer loop of `digit` over a run of digits. -/
theorem digitLoop_run_over : ∀ (d post : List Char) (fuel : Nat) (sc : Scanner),
    sc.source.drop sc.cursor = d ++ post → (∀ c ∈ d, isDigit c = true) →
    Scanner.digitLoop (fuel + d.length) sc =
      Scanner.digitLoop fuel { sc with cursor := sc.cursor + d.length }
  | [], _, _, _, _, _ => rfl
  | c :: d, post, fuel, sc, hd, hw => by
    have hc : isDigit c = true := hw c (List.mem_cons_self _ _)
    have hget := getElem?_of_drop hd
    rw [List.length_cons, ← Nat.add_assoc, Scanner.digitLoop, peek_eq, advance_eq, hget]
    simp only [bind, Except.bind, isAtEnd_of_some hget, Option.getD_some, hc,
      Bool.false_eq_true, if_false, if_true]
    rw [digitLoop_run_over d post fuel _ (drop_succ_of_drop hd)
      (fun x hx => hw x (List.mem_cons_of_mem _ hx))]
    simp only [Nat.add_assoc, Nat.add_comm 1]

/-- The outer loop of `digit` stops at the end of the source. -/
theorem digitLoop_stop_end {fuel : Nat} {sc : Scanner}
    (hd : sc.source.drop sc.cursor = []) : Scanner.digitLoop (fuel + 1) sc = .ok sc := by
  rw [Scanner.digitLoop, isAtEnd_of_none (getElem?_of_drop_nil hd)]
  rfl

/-- The outer loop of `digit` stops at a character that is neither a digit nor a dot. -/
theorem digitLoop_stop_other {c : Char} {r : List Char} {fuel : Nat} {sc : Scanner}
    (hd : sc.source.drop sc.cursor = c :: r) (hc : isDigit c = false) (hdot : c ≠ '.') :
    Scanner.digitLoop (fuel + 1) sc = .ok sc := by
  have hget := getElem?_of_drop hd
  rw [Scanner.digitLoop, peek_eq, isAtEnd_of_some hget, hget]
  simp [bind, Except.bind, hc, hdot, pure, Except.pure]

/-- The outer loop of `digit` stops at a dot that a character other than a
digit follows. -/
theorem digitLoop_stop_dot {c : Char} {r : List Char} {fuel : Nat} {sc : Scanner}
    (hd : sc.source.drop sc.cursor = '.' :: c :: r) (hc : isDigit c = false) :
    Scanner.digitLoop (fuel + 1) sc = .ok sc := by
  have hget := getElem?_of_drop hd
  have hget2 : sc.source[sc.cursor + 1]? = some c := getElem?_of_drop (drop_succ_of_drop hd)
  have hlt : ¬ sc.source.length ≤ sc.cursor := by
    have := (List.getElem?_eq_some.1 hget).1
    omega
  have hdot : isDigit '.' = false := by decide
  rw [Scanner.digitLoop, peek_eq, peekNext_eq, isAtEnd_of_some hget, hget, if_neg hlt,
    index_eq_ok hget2]
  simp [bind, Except.bind, hc, hdot, pure, Except.pure]

/-- The outer loop of `digit` at a dot that is the last character of the
source: `peekNext` indexes the source one past its end. -/
theorem digitLoop_panic_dot {fuel : Nat} {sc : Scanner}
    (hd : sc.source.drop sc.cursor = ['.']) :
    Scanner.digitLoop (fuel + 1) sc = .error .indexOutOfRange := by
  have hget := getElem?_of_drop hd
  have hnil : sc.source.drop (sc.cursor + 1) = [] := drop_succ_of_drop hd
  have hlen : sc.source.length ≤ sc.cursor + 1 := List.drop_eq_nil_iff.1 hnil
  have hlt : ¬ sc.source.length ≤ sc.cursor := by
    have := (List.getElem?_eq_some.1 hget).1
    omega
  have hdot : isDigit '.' = false := by decide
  rw [Scanner.digitLoop, peek_eq, peekNext_eq, isAtEnd_of_some hget, hget, if_neg hlt,
    index_eq_error hlen]
  simp [bind, Except.bind, hdot]

theorem scanSwitch_quote (fuel : Nat) (sc : Scanner) :
    Scanner.scanSwitch fuel '"' sc = (Scanner.consumeString fuel sc).map Prod.snd := by
  simp only [Scanner.scanSwitch]
  cases Scanner.consumeString fuel sc <;> rfl

theorem scanSwitch_dot (fuel : Nat) (sc : Scanner) :
    Scanner.scanSwitch fuel '.' sc = sc.addToken DOT (.str []) := rfl

theorem isAlpha_ne {c d : Char} (hc : isAlpha c = true) (hd : isAlpha d = false) : c ≠ d := by
  rintro rfl
  rw [hc] at hd
  cases hd

theorem isDigit_ne {c d : Char} (hc : isDigit c = true) (hd : isDigit d = false) : c ≠ d := by
  rintro rfl
  rw [hc] at hd
  cases hd

/-- A letter or underscore reaches the `default` case of the switch and starts
an identifier. -/
theorem scanSwitch_alpha {fuel : Nat} {c : Char} {sc : Scanner} (hc : isAlpha c = true) :
    Scanner.scanSwitch fuel c sc = Scanner.identifier fuel sc := by
  have h₀ : ¬ (c = ' ' ∨ c = '\t' ∨ c = '\r') := by
    rintro (h | h | h) <;> exact isAlpha_ne hc (by decide) h
  unfold Scanner.scanSwitch
  rw [if_neg h₀, if_neg (isAlpha_ne hc (by decide)), if_neg (isAlpha_ne hc (by decide)),
    if_neg (isAlpha_ne hc (by decide)), if_neg (isAlpha_ne hc (by decide)),
    if_neg (isAlpha_ne hc (by decide)), if_neg (isAlpha_ne hc (by decide)),
    if_neg (isAlpha_ne hc (by decide)), if_neg (isAlpha_ne hc (by decide)),
    if_neg (isAlpha_ne hc (by decide)), if_neg (isAlpha_ne hc (by decide)),
    if_neg (isAlpha_ne hc (by decide)), if_neg (isAlpha_ne hc (by decide)),
    if_neg (isAlpha_ne hc (by decide)), if_neg (isAlpha_ne hc (by decide)),
    if_neg (isAlpha_ne hc (by decide)), if_neg (isAlpha_ne hc (by decide)), if_pos hc]

/-- A digit reaches the `default` case of the switch and starts a number. -/
theorem scanSwitch_digit {fuel : Nat} {c : Char} {sc : Scanner} (hc : isDigit c = true) :
    Scanner.scanSwitch fuel c sc = (Scanner.digit fuel sc).map Prod.snd := by
  have h₀ : ¬ (c = ' ' ∨ c = '\t' ∨ c = '\r') := by
    rintro (h | h | h) <;> exact isDigit_ne hc (by decide) h
  have ha : ¬ isAlpha c = true := by
    unfold isDigit at hc
    unfold isAlpha
    simp only [Bool.and_eq_true, decide_eq_true_eq, Bool.or_eq_true, beq_iff_eq] at hc ⊢
    rintro ((h | h) | h)
    · exact absurd (Char.le_trans h.1 hc.2) (by decide)
    · exact absurd (Char.le_trans h.1 hc.2) (by decide)
    · subst h
      exact absurd hc.2 (by decide)
  unfold Scanner.scanSwitch
  rw [if_neg h₀, if_neg (isDigit_ne hc (by decide)), if_neg (isDigit_ne hc (by decide)),
    if_neg (isDigit_ne hc (by decide)), if_neg (isDigit_ne hc (by decide)),
    if_neg (isDigit_ne hc (by decide)), if_neg (isDigit_ne hc (by decide)),
    if_neg (isDigit_ne hc (by decide)), if_neg (isDigit_ne hc (by decide)),
    if_neg (isDigit_ne hc (by decide)), if_neg (isDigit_ne hc (by decide)),
    if_neg (isDigit_ne hc (by decide)), if_neg (isDigit_ne hc (by decide)),
    if_neg (isDigit_ne hc (by decide)), if_neg (isDigit_ne hc (by decide)),
    if_neg (isDigit_ne hc (by decide)), if_neg (isDigit_ne hc (by decide)), if_neg ha, if_pos hc]
  cases Scanner.digit fuel sc <;> rfl

theorem scanSwitch_slash (fuel : Nat) (sc : Scanner) :
    Scanner.scanSwitch fuel '/' sc = (do
      let (m, sc) ← sc.matchAdvance '/'
      if m then Scanner.comment fuel sc
      else do
        let (m, sc) ← sc.matchAdvance '*'
        if m then pure sc
        else sc.addToken SLASH (.str [])) := rfl

/-- The method `comment` on a text without a newline never ends. -/
theorem comment_no_newline : ∀ (s : List Char) (fuel : Nat) (sc : Scanner),
    sc.source.drop sc.cursor = s → '\n' ∉ s → Scanner.comment fuel sc = .error .outOfFuel
  | [], fuel, sc, hd, _ => comment_atEnd fuel sc (List.drop_eq_nil_iff.1 hd)
  | _ :: _, 0, _, _, _ => rfl
  | c :: s, fuel + 1, sc, hd, hn => by
    have hc : c ≠ '\n' := fun h => hn (by simp [h])
    rw [Scanner.comment, advance_eq, getElem?_of_drop hd]
    simp only [bind, Except.bind, hc, if_false]
    exact comment_no_newline s fuel _ (drop_succ_of_drop hd)
      (fun h => hn (List.mem_cons_of_mem _ h))

theorem map_false_bind (x : Except Fault Scanner) (g : Scanner → Except Fault Scanner) :
    (do
      let r ← Except.map (fun s => (false, s)) x
      if r.1 = true then pure r.2 else g r.2) = x >>= g := by
  cases x <;> rfl

/-- The first iteration of the loop of `Scan` on a fresh Scanner whose source
begins with `c`. -/
theorem scanLoop_fresh (fuel : Nat) (c : Char) (rest : List Char) :
    Scanner.scanLoop (fuel + 1) (NewScanner (c :: rest)) =
      Scanner.scanSwitch fuel c { source := c :: rest, line := 1, start := 0, cursor := 1,
                                  tokens := [], Errors := [] } >>= Scanner.scanLoop fuel := by
  have hc : (NewScanner (c :: rest)).source[(NewScanner (c :: rest)).cursor]? = some c := by
    simp [NewScanner]
  rw [Scanner.scanLoop, scanStep_some hc]
  exact map_false_bind _ _

/-- After the cursor has reached the end of the source, the loop of `Scan`
appends `EOF` and returns. -/
theorem scanLoop_atEnd (fuel : Nat) (src : List Char) (line start : Nat) (toks : List Token)
    (errs : List GoError) :
    Scanner.scanLoop (fuel + 1)
        { source := src, line := line, start := start, cursor := src.length, tokens := toks,
          Errors := errs } =
      .ok { source := src, line := line, start := src.length, cursor := src.length,
            tokens := toks ++ [{ tokenType := EOF, lexeme := [], literal := .str [], line := line }],
            Errors := errs } :=
  scanLoop_none rfl

theorem count_take_split (src : List Char) {i j : Nat} (h : i ≤ j) (x : Char) :
    (src.take j).count x = (src.take i).count x + ((src.drop i).take (j - i)).count x := by
  have e : j = i + (j - i) := by omega
  conv_lhs => rw [e, List.take_add, List.count_append]

/-- The tokens of a `Lexed` list, followed by the `EOF` token, paired with the
ranges of the source they come from. -/
theorem Lexed.spans {src : List Char} {p : Nat} {toks : List Token}
    (h : Lexed src 1 p toks) (hp : p ≤ src.length) :
    ∃ spans : List (Nat × Nat),
      List.Forall₂ (fun (t : Token) (ij : Nat × Nat) =>
        ij.1 ≤ ij.2 ∧ ij.2 ≤ src.length ∧ t.lexeme = (src.drop ij.1).take (ij.2 - ij.1) ∧
        t.line = 1 + (src.take ij.2).count '\n' ∧
        ('\n' ∉ t.lexeme → t.line = 1 + (src.take ij.1).count '\n'))
        (toks ++ [{ tokenType := EOF, lexeme := [], literal := .str [],
                    line := 1 + src.count '\n' }]) spans ∧
      spans.Chain' (fun a b => a.2 ≤ b.1) ∧ ∀ ij, spans.head? = some ij → p ≤ ij.1 := by
  induction h with
  | nil p =>
    refine ⟨[(src.length, src.length)], ?_, List.chain'_singleton _, ?_⟩
    · refine List.Forall₂.cons ⟨Nat.le_refl _, Nat.le_refl _, by simp, by simp, ?_⟩ List.Forall₂.nil
      intro _
      simp
    · intro ij hij
      simp only [List.head?_cons, Option.some.injEq] at hij
      subst hij
      exact hp
  | cons p i j ty lit rest hpi hij hj _ _ _ ih =>
    obtain ⟨spans, hf, hc, hh⟩ := ih hj
    refine ⟨(i, j) :: spans, ?_, ?_, ?_⟩
    · refine List.Forall₂.cons ⟨hij, hj, rfl, rfl, ?_⟩ hf
      intro hn
      have hz : ((src.drop i).take (j - i)).count '\n' = 0 := List.count_eq_zero.2 hn
      show 1 + (src.take j).count '\n' = 1 + (src.take i).count '\n'
      rw [count_take_split src hij, hz]
      rfl
    · cases spans with
      | nil => exact List.chain'_singleton _
      | cons a l => exact List.Chain'.cons (hh a rfl) hc
    · intro ij hij
      simp only [List.head?_cons, Option.some.injEq] at hij
      subst hij
      exact hpi

theorem scanStep_fuel {n : Nat} {sc : Scanner} {r : Bool × Scanner}
    (h : Scanner.scanStep n sc = .ok r) : ∀ k, Scanner.scanStep (n + k) sc = .ok r
  | 0 => h
  | k + 1 => by
    have ih := scanStep_fuel h k
    have := scanStep_stable (n + k) sc (by rw [ih]; simp)
    rw [← Nat.add_assoc, this, ih]

theorem scanStep_unique {n m : Nat} {sc : Scanner} {r₁ r₂ : Bool × Scanner}
    (h₁ : Scanner.scanStep n sc = .ok r₁) (h₂ : Scanner.scanStep m sc = .ok r₂) : r₁ = r₂ := by
  have e₁ := scanStep_fuel h₁ m
  have e₂ := scanStep_fuel h₂ n
  rw [Nat.add_comm] at e₂
  rw [e₁] at e₂
  exact Except.ok.inj e₂

/-- When an iteration of the loop of `Scan` goes from `sc` to `s1` without
stopping, every run of the loop from `sc` that returns is that iteration
followed by a run of the loop from `s1`. -/
theorem scanLoop_after_step {n fuel : Nat} {sc s1 s : Scanner}
    (hstep : Scanner.scanStep n sc = .ok (false, s1))
    (h : Scanner.scanLoop fuel sc = .ok s) :
    ∃ f, fuel = f + 1 ∧ Scanner.scanLoop f s1 = .ok s := by
  cases fuel with
  | zero => simp [Scanner.scanLoop] at h
  | succ f =>
    refine ⟨f, rfl, ?_⟩
    rw [Scanner.scanLoop] at h
    cases hs : Scanner.scanStep f sc with
    | error e => simp [hs, bind, Except.bind] at h
    | ok r =>
      have hr : r = (false, s1) := scanStep_unique hs hstep
      subst hr
      simpa [hs, bind, Except.bind] using h

/-- An iteration of the loop of `Scan` keeps the line counter equal to `base`
plus the number of newlines before the cursor. -/
theorem scanStep_line {n base : Nat} {sc s1 : Scanner}
    (hstep : Scanner.scanStep n sc = .ok (false, s1))
    (hline : sc.line = base + (sc.source.take sc.cursor).count '\n') :
    s1.line = base + (s1.source.take s1.cursor).count '\n' := by
  rcases scanStep_spec hstep with ⟨hstop, -, -⟩ | ⟨-, ⟨new, hrun, -⟩, -⟩
  · cases hstop
  · have := hrun.line
    simp only at this
    rw [hrun.source]
    show s1.line = base + (sc.source.take s1.cursor).count '\n'
    omega

/-- The tokens a run of the loop of `Scan` returns begin with the tokens the
Scanner held when the run started. -/
theorem scanLoop_tokens_prefix {base fuel : Nat} {sc s : Scanner}
    (hline : sc.line = base + (sc.source.take sc.cursor).count '\n')
    (h : Scanner.scanLoop fuel sc = .ok s) : ∃ more, s.tokens = sc.tokens ++ more := by
  obtain ⟨-, -, -, -, -, -, mid, -, htok⟩ := scanLoop_spec base fuel sc s hline h
  exact ⟨mid ++ [_], by rw [htok, List.append_assoc]⟩

/-- The first iteration of the loop of `Scan` when the source begins with a
character whose case in the switch is `matchAdvance('=')` and that an `=` follows. -/
theorem scanStep_two_char (fuel : Nat) (c : Char) (rest : List Char) (ty₁ ty₂ : Nat)
    (hsw : ∀ sc : Scanner, Scanner.scanSwitch fuel c sc = (do
      let (m, sc) ← sc.matchAdvance '='
      if m then sc.addToken ty₁ (.str []) else sc.addToken ty₂ (.str []))) :
    Scanner.scanStep fuel (NewScanner (c :: '=' :: rest)) =
      .ok (false, { source := c :: '=' :: rest, line := 1, start := 0, cursor := 2,
                    tokens := [{ tokenType := ty₁, lexeme := [c, '='], literal := .str [],
                                 line := 1 }],
                    Errors := [] }) := by
  have hc : (NewScanner (c :: '=' :: rest)).source[(NewScanner (c :: '=' :: rest)).cursor]?
      = some c := by simp [NewScanner]
  rw [scanStep_some hc, hsw, matchAdvance_eq]
  simp [NewScanner, addToken_eq, bind, Except.bind, Except.map]

theorem keywordTable_lookup_range (text : List Char) (k : Nat)
    (h : List.lookup text keywordTable = some k) : AND ≤ k ∧ k ≤ WHILE := by
  unfold keywordTable at h
  simp only [List.lookup] at h
  repeat' split at h
  all_goals cases h
  all_goals decide

theorem keywords_of_lookup_some {text : List Char} {k : Nat}
    (h : List.lookup text keywordTable = some k) : keywords text = k ∧ k ≠ 0 := by
  have hr := keywordTable_lookup_range text k h
  refine ⟨by simp [keywords, h], ?_⟩
  have : 23 ≤ k := hr.1
  omega

theorem keywords_of_lookup_none {text : List Char}
    (h : List.lookup text keywordTable = none) : keywords text = 0 := by
  simp [keywords, h]

/-- The call `ParseFloat` on a non-empty run of digits: a range error when the value
reaches `float64Overflow`, the number otherwise. -/
theorem ParseFloat_digits {d : List Char} (hne : d ≠ []) (hd : ∀ c ∈ d, isDigit c = true) :
    ParseFloat d = if float64Overflow ≤ natOfDigits d then .error .errRange
      else .ok (.num d) := by
  have ht : d.takeWhile isDigit = d := List.takeWhile_eq_self_iff.2 hd
  have hdw : d.dropWhile isDigit = [] := List.dropWhile_eq_nil_iff.2 hd
  have he : d.isEmpty = false := by
    cases d with
    | nil => exact absurd rfl hne
    | cons _ _ => rfl
  unfold ParseFloat
  simp only [ht, hdw, he, List.all_nil, Bool.not_true, Bool.false_and, Bool.or_self,
    Bool.false_eq_true, if_false]

/-- The first iteration of the loop of `Scan` on a source that begins with a
run of digits `c :: d` followed by a dot and a character `r` that is no digit:
`digit` reads the run and stops before the dot; it appends the `NUMBER` token
unless `ParseFloat` reports an error. -/
theorem scanStep_digits_dot (fuel : Nat) (c r : Char) (d rest : List Char)
    (hc : isDigit c = true) (hd : ∀ x ∈ d, isDigit x = true) (hr : isDigit r = false) :
    Scanner.scanStep (fuel + (c :: d).length) (NewScanner (c :: d ++ '.' :: r :: rest)) =
      .ok (false,
        { source := c :: d ++ '.' :: r :: rest, line := 1, start := 0,
          cursor := (c :: d).length,
          tokens := if float64Overflow ≤ natOfDigits (c :: d) then []
            else [{ tokenType := NUMBER, lexeme := c :: d, literal := .num (c :: d), line := 1 }],
          Errors := [] }) := by
  have hget : (NewScanner (c :: d ++ '.' :: r :: rest)).source[
      (NewScanner (c :: d ++ '.' :: r :: rest)).cursor]? = some c := by simp [NewScanner]
  have e : fuel + (c :: d).length = (fuel + 1) + d.length := by
    simp only [List.length_cons]; omega
  have hall : ∀ x ∈ c :: d, isDigit x = true := by
    intro x hx
    rcases List.mem_cons.1 hx with rfl | hx
    · exact hc
    · exact hd x hx
  rw [scanStep_some hget, scanSwitch_digit hc, Scanner.digit, e,
    digitLoop_run_over d ('.' :: r :: rest) (fuel + 1) _ (by simp [NewScanner]) hd,
    digitLoop_stop_dot (c := r) (r := rest) (by simp [NewScanner, Nat.add_comm 1]) hr]
  have hsl : slice (c :: (d ++ '.' :: r :: rest)) 0 (1 + d.length) = .ok (c :: d) := by
    have := slice_append [] (c :: d) ('.' :: r :: rest)
    simpa [Nat.add_comm] using this
  have hlen : 1 + d.length ≤ (d ++ '.' :: r :: rest).length + 1 := by simp; omega
  simp only [NewScanner, bind, Except.bind, List.cons_append, Nat.zero_add, hsl,
    ParseFloat_digits (List.cons_ne_nil c d) hall]
  by_cases hov : float64Overflow ≤ natOfDigits (c :: d)
  · simp [hov, Except.map, pure, Except.pure, Nat.add_comm 1]
  · have hsl' : List.take (1 + d.length) (c :: (d ++ '.' :: r :: rest)) = c :: d := by
      simp [Nat.add_comm 1]
    simp [hov, Except.map, pure, Except.pure, addToken_eq, hlen, hsl', Nat.add_comm 1]

set_option exponentiation.threshold 2000 in
/-- The number `10^309` is beyond the range of a `float64`. -/
theorem float64Overflow_le : float64Overflow ≤ 10 ^ 309 := by
  unfold float64Overflow
  norm_num

set_option exponentiation.threshold 2000 in
theorem float64Overflow_ge : 1000 ≤ float64Overflow := by
  unfold float64Overflow
  norm_num

theorem getElem?_after (a : List Char) (x : Char) (b : List Char) :
    (a ++ x :: b)[a.length]? = some x := by
  rw [List.getElem?_append_right (Nat.le_refl _)]
  simp

theorem getElem?_after_succ (a : List Char) (x y : Char) (b : List Char) :
    (a ++ x :: y :: b)[a.length + 1]? = some y := by
  rw [List.getElem?_append_right (Nat.le_succ _)]
  simp

/-- The value of the digits `1` followed by `k` zeros. -/
theorem natOfDigits_one_zeros (k : Nat) : natOfDigits ('1' :: List.replicate k '0') = 10 ^ k := by
  have h : ∀ (k n : Nat), List.foldl (fun n c => 10 * n + (c.toNat - '0'.toNat)) n
      (List.replicate k '0') = n * 10 ^ k := by
    intro k
    induction k with
    | zero => intro n; simp
    | succ k ih =>
      intro n
      rw [List.replicate_succ, List.foldl_cons, ih]
      simp [Nat.pow_succ]
      ring
  unfold natOfDigits
  rw [List.foldl_cons, h]
  simp

/-- An iteration of the loop of `Scan` at a dot appends a `DOT` token. -/
theorem scanStep_dot (fuel : Nat) (sc : Scanner) (hc : sc.source[sc.cursor]? = some '.') :
    Scanner.scanStep fuel sc = .ok (false,
      { sc with start := sc.cursor, cursor := sc.cursor + 1, tokens := sc.tokens ++
          [{ tokenType := DOT, lexeme := ['.'], literal := .str [], line := sc.line }] }) := by
  obtain ⟨hlt, hget⟩ := List.getElem?_eq_some.1 hc
  have hlex : List.take 1 (List.drop sc.cursor sc.source) = ['.'] := by
    rw [List.drop_eq_getElem_cons hlt, hget]
    rfl
  rw [scanStep_some hc, scanSwitch_dot, addToken_eq]
  have hle : sc.cursor + 1 ≤ sc.source.length := hlt
  simp [hle, hlex, Except.map]

/-- An iteration of the loop of `Scan` at a space moves over it. -/
theorem scanStep_space (fuel : Nat) (sc : Scanner) (hc : sc.source[sc.cursor]? = some ' ') :
    Scanner.scanStep fuel sc = .ok (false,
      { sc with start := sc.cursor, cursor := sc.cursor + 1 }) := by
  rw [scanStep_some hc]
  rfl

theorem scanLoop_of_step {fuel : Nat} {sc s1 : Scanner}
    (h : Scanner.scanStep fuel sc = .ok (false, s1)) :
    Scanner.scanLoop (fuel + 1) sc = Scanner.scanLoop fuel s1 := by
  rw [Scanner.scanLoop, h]
  rfl

/-- The method `Scan` on a run of digits whose value overflows a `float64`, followed by a
dot and a space: `digit` drops the number, and the tokens are `DOT` and `EOF`. -/
theorem scanSource_overflow (c : Char) (d : List Char) (hc : isDigit c = true)
    (hd : ∀ x ∈ d, isDigit x = true) (hov : float64Overflow ≤ natOfDigits (c :: d)) (fuel : Nat) :
    scanSource (fuel + (c :: d).length + 3) (c :: d ++ ['.', ' ']) =
      .ok ([{ tokenType := DOT, lexeme := ['.'], literal := .str [], line := 1 },
            { tokenType := EOF, lexeme := [], literal := .str [], line := 1 }], []) := by
  have h₁ := scanStep_digits_dot (fuel + 2) c ' ' d [] hc hd (by decide)
  have e : fuel + (c :: d).length + 3 = (fuel + 2 + (c :: d).length) + 1 := by omega
  rw [if_pos hov] at h₁
  rw [scanSource_eq, e, scanLoop_of_step h₁]
  have e₂ : fuel + 2 + (c :: d).length = (fuel + 1 + (c :: d).length) + 1 := by omega
  rw [e₂, scanLoop_of_step (scanStep_dot _ _ (getElem?_after (c :: d) '.' [' ']))]
  have e₃ : fuel + 1 + (c :: d).length = (fuel + (c :: d).length) + 1 := by omega
  rw [e₃, scanLoop_of_step (scanStep_space _ _ (getElem?_after_succ (c :: d) '.' ' ' []))]
  have hlen : (c :: d).length + 1 + 1 = (c :: d ++ ['.', ' ']).length := by simp
  have e₄ : fuel + (c :: d).length = (fuel + d.length) + 1 := by
    simp only [List.length_cons]; omega
  simp only [hlen, e₄, scanLoop_atEnd]
  simp [Except.map]

/-! ## Sources that end with a newline: `Scan` returns -/

/-- In a source whose last character is a newline, a character other than a
newline is not the last one. -/
theorem not_last_of_ne_newline {src : List Char} (hlast : src.getLast? = some '\n')
    {i : Nat} {c : Char} (hc : src[i]? = some c) (hne : c ≠ '\n') : i + 1 < src.length := by
  have hlt := (List.getElem?_eq_some.1 hc).1
  by_contra hcon
  have hi : i = src.length - 1 := by omega
  rw [List.getLast?_eq_getElem?, ← hi, hc] at hlast
  exact hne (Option.some.inj hlast)

theorem identifierLoop_total : ∀ (n : Nat) (sc : Scanner),
    sc.source.length - sc.cursor < n → ∃ s1, Scanner.identifierLoop n sc = .ok s1
  | 0, _, h => absurd h (Nat.not_lt_zero _)
  | n + 1, sc, h => by
    rw [Scanner.identifierLoop, peek_eq, advance_eq]
    cases hc : sc.source[sc.cursor]? with
    | none => exact ⟨sc, by simp [bind, Except.bind, isAtEnd_of_none hc, pure, Except.pure]⟩
    | some c =>
      have hlt := (List.getElem?_eq_some.1 hc).1
      simp only [bind, Except.bind, isAtEnd_of_some hc, Option.getD_some, Bool.false_or]
      by_cases ha : isAlphaNum c = true
      · simp only [ha, Bool.not_true, Bool.false_eq_true, if_false]
        exact identifierLoop_total n _ (by simp only; omega)
      · exact ⟨sc, by simp [ha, pure, Except.pure]⟩

theorem digitFraction_total : ∀ (n : Nat) (sc : Scanner),
    sc.source.length - sc.cursor < n → ∃ s1, Scanner.digitFraction n sc = .ok s1
  | 0, _, h => absurd h (Nat.not_lt_zero _)
  | n + 1, sc, h => by
    rw [Scanner.digitFraction, peek_eq, advance_eq]
    cases hc : sc.source[sc.cursor]? with
    | none =>
      have h0 : isDigit (Char.ofNat 0) = false := by decide
      exact ⟨sc, by simp [bind, Except.bind, h0, pure, Except.pure]⟩
    | some c =>
      have hlt := (List.getElem?_eq_some.1 hc).1
      simp only [bind, Except.bind, Option.getD_some]
      by_cases hd : isDigit c = true
      · simp only [hd, if_true]
        exact digitFraction_total n _ (by simp only; omega)
      · exact ⟨sc, by simp [hd, pure, Except.pure]⟩

theorem digitLoop_total : ∀ (n : Nat) (sc : Scanner), sc.source.getLast? = some '\n' →
    sc.source.length - sc.cursor < n → ∃ s1, Scanner.digitLoop n sc = .ok s1
  | 0, _, _, h => absurd h (Nat.not_lt_zero _)
  | n + 1, sc, hlast, h => by
    rw [Scanner.digitLoop, peek_eq, advance_eq]
    cases hc : sc.source[sc.cursor]? with
    | none => exact ⟨sc, by simp [isAtEnd_of_none hc, pure, Except.pure]⟩
    | some c =>
      have hlt := (List.getElem?_eq_some.1 hc).1
      simp only [bind, Except.bind, isAtEnd_of_some hc, Option.getD_some, Bool.false_eq_true,
        if_false]
      by_cases hd : isDigit c = true
      · simp only [hd, if_true]
        exact digitLoop_total n _ hlast (by simp only; omega)
      · simp only [hd, Bool.false_eq_true, if_false]
        by_cases hdot : c = '.'
        · subst hdot
          have hnext := not_last_of_ne_newline hlast hc (by decide)
          rw [if_pos rfl, peekNext_eq, if_neg (Nat.not_le.2 hlt),
            index_eq_ok (List.getElem?_eq_getElem hnext)]
          simp only
          by_cases hnd : isDigit sc.source[sc.cursor + 1] = true
          · simp only [hnd, if_true]
            exact digitFraction_total n _ (by simp only; omega)
          · exact ⟨sc, by simp [hnd, pure, Except.pure]⟩
        · exact ⟨sc, by simp [hdot, pure, Except.pure]⟩

theorem addToken_total (sc : Scanner) (ty : Nat) (lit : Literal) (h₁ : sc.start ≤ sc.cursor)
    (h₂ : sc.cursor ≤ sc.source.length) : ∃ s1, sc.addToken ty lit = .ok s1 := by
  rw [addToken_eq, if_pos ⟨h₁, h₂⟩]
  exact ⟨_, rfl⟩

theorem consumeString_total : ∀ (n : Nat) (sc : Scanner), sc.start + 1 ≤ sc.cursor →
    sc.source.length - sc.cursor < n → ∃ r, Scanner.consumeString n sc = .ok r
  | 0, _, _, h => absurd h (Nat.not_lt_zero _)
  | n + 1, sc, hs, h => by
    rw [Scanner.consumeString, advance_eq]
    cases hc : sc.source[sc.cursor]? with
    | none => exact ⟨_, rfl⟩
    | some c =>
      have hlt := (List.getElem?_eq_some.1 hc).1
      simp only [bind, Except.bind, Option.isSome_none, Bool.false_eq_true, if_false]
      by_cases hq : c = '"'
      · rw [if_pos hq]
        simp only [Nat.add_sub_cancel]
        rw [slice_eq_ok hs (Nat.le_of_lt hlt)]
        obtain ⟨s1, h1⟩ := addToken_total { sc with cursor := sc.cursor + 1 } STRING
          (.str ((sc.source.drop (sc.start + 1)).take (sc.cursor - (sc.start + 1))))
          (by simp only; omega) hlt
        simp only [h1]
        exact ⟨_, rfl⟩
      · rw [if_neg hq]
        by_cases hn : c = '\n'
        · rw [if_pos hn]
          exact consumeString_total n _ (by simp only; omega) (by simp only; omega)
        · rw [if_neg hn]
          exact consumeString_total n _ (by simp only; omega) (by simp only; omega)

theorem comment_total : ∀ (n : Nat) (sc : Scanner), sc.source.getLast? = some '\n' →
    sc.cursor < sc.source.length → sc.source.length - sc.cursor < n →
    ∃ s1, Scanner.comment n sc = .ok s1
  | 0, _, _, _, h => absurd h (Nat.not_lt_zero _)
  | n + 1, sc, hlast, hlt, h => by
    rw [Scanner.comment, advance_eq, List.getElem?_eq_getElem hlt]
    simp only [bind, Except.bind]
    by_cases hn : sc.source[sc.cursor] = '\n'
    · rw [if_pos hn]
      exact ⟨_, rfl⟩
    · rw [if_neg hn]
      have hnext := not_last_of_ne_newline hlast (List.getElem?_eq_getElem hlt) hn
      exact comment_total n _ hlast hnext (by simp only; omega)

theorem matchToken_total (sc : Scanner) (d : Char) (ty₁ ty₂ : Nat) (h₁ : sc.start ≤ sc.cursor)
    (h₂ : sc.cursor ≤ sc.source.length) :
    ∃ s1, (do
      let (m, sc) ← sc.matchAdvance d
      if m then sc.addToken ty₁ (.str []) else sc.addToken ty₂ (.str [])) = .ok s1 := by
  rw [matchAdvance_eq]
  by_cases hm : sc.source[sc.cursor]? = some d
  · have hlt := (List.getElem?_eq_some.1 hm).1
    simp only [hm, if_true, bind, Except.bind]
    exact addToken_total _ _ _ (by simp only; omega) hlt
  · simp only [hm, if_false, bind, Except.bind, Bool.false_eq_true]
    exact addToken_total _ _ _ h₁ h₂

theorem identifier_total (n : Nat) (sc : Scanner) (h₁ : sc.start ≤ sc.cursor)
    (h₂ : sc.cursor ≤ sc.source.length) (hf : sc.source.length - sc.cursor < n) :
    ∃ s1, Scanner.identifier n sc = .ok s1 := by
  obtain ⟨s', hs'⟩ := identifierLoop_total n sc hf
  have hr := identifierLoop_run n sc s' hs'
  have hb := hr.cursor_bound h₂
  have hle := hr.cursor_le
  rw [Scanner.identifier, hs']
  simp only [bind, Except.bind]
  rw [slice_eq_ok (by rw [hr.start]; omega) (by rw [hr.source]; exact hb)]
  simp only
  by_cases hk : keywords ((s'.source.drop s'.start).take (s'.cursor - s'.start)) ≠ 0
  · rw [if_pos hk]
    exact addToken_total _ _ _ (by rw [hr.start]; omega) (by rw [hr.source]; exact hb)
  · rw [if_neg hk]
    exact addToken_total _ _ _ (by rw [hr.start]; omega) (by rw [hr.source]; exact hb)

theorem digit_total (n : Nat) (sc : Scanner) (hlast : sc.source.getLast? = some '\n')
    (h₁ : sc.start ≤ sc.cursor) (h₂ : sc.cursor ≤ sc.source.length)
    (hf : sc.source.length - sc.cursor < n) : ∃ r, Scanner.digit n sc = .ok r := by
  obtain ⟨s', hs'⟩ := digitLoop_total n sc hlast hf
  have hr := digitLoop_run n sc s' hs'
  have hb := hr.cursor_bound h₂
  have hle := hr.cursor_le
  rw [Scanner.digit, hs']
  simp only [bind, Except.bind]
  rw [slice_eq_ok (by rw [hr.start]; omega) (by rw [hr.source]; exact hb)]
  simp only
  cases ParseFloat ((s'.source.drop s'.start).take (s'.cursor - s'.start)) with
  | error e => exact ⟨_, rfl⟩
  | ok v =>
    obtain ⟨s2, h2⟩ := addToken_total s' NUMBER v (by rw [hr.start]; omega)
      (by rw [hr.source]; exact hb)
    simp only [h2]
    exact ⟨_, rfl⟩

/-- In a source that ends with a newline, the `switch` of `Scan` returns once
the fuel exceeds the number of characters left. -/
theorem scanSwitch_total (n : Nat) (c : Char) (s0 : Scanner)
    (hlast : s0.source.getLast? = some '\n') (hc : s0.source[s0.cursor]? = some c)
    (hf : s0.source.length - (s0.cursor + 1) < n) :
    ∃ s2, Scanner.scanSwitch n c { s0 with start := s0.cursor, cursor := s0.cursor + 1 }
      = .ok s2 := by
  have hlt : s0.cursor < s0.source.length := (List.getElem?_eq_some.1 hc).1
  have hst : ({ s0 with start := s0.cursor, cursor := s0.cursor + 1 } : Scanner).start ≤
      ({ s0 with start := s0.cursor, cursor := s0.cursor + 1 } : Scanner).cursor := Nat.le_succ _
  have hcur : ({ s0 with start := s0.cursor, cursor := s0.cursor + 1 } : Scanner).cursor ≤
      ({ s0 with start := s0.cursor, cursor := s0.cursor + 1 } : Scanner).source.length := hlt
  unfold Scanner.scanSwitch
  by_cases h : c = ' ' ∨ c = '\t' ∨ c = '\r'
  · rw [if_pos h]
    exact ⟨_, rfl⟩
  rw [if_neg h]
  clear h
  by_cases h : c = '\n'
  · rw [if_pos h]
    exact ⟨_, rfl⟩
  rw [if_neg h]
  clear h
  by_cases h : c = '('
  · rw [if_pos h]
    exact addToken_total _ _ _ hst hcur
  rw [if_neg h]
  clear h
  by_cases h : c = ')'
  · rw [if_pos h]
    exact addToken_total _ _ _ hst hcur
  rw [if_neg h]
  clear h
  by_cases h : c = '{'
  · rw [if_pos h]
    exact addToken_total _ _ _ hst hcur
  rw [if_neg h]
  clear h
  by_cases h : c = '}'
  · rw [if_pos h]
    exact addToken_total _ _ _ hst hcur
  rw [if_neg h]
  clear h
  by_cases h : c = ';'
  · rw [if_pos h]
    exact addToken_total _ _ _ hst hcur
  rw [if_neg h]
  clear h
  by_cases h : c = '.'
  · rw [if_pos h]
    exact addToken_total _ _ _ hst hcur
  rw [if_neg h]
  clear h
  by_cases h : c = '+'
  · rw [if_pos h]
    exact addToken_total _ _ _ hst hcur
  rw [if_neg h]
  clear h
  by_cases h : c = '-'
  · rw [if_pos h]
    exact addToken_total _ _ _ hst hcur
  rw [if_neg h]
  clear h
  by_cases h : c = '*'
  · rw [if_pos h]
    exact addToken_total _ _ _ hst hcur
  rw [if_neg h]
  clear h
  by_cases h : c = '='
  · rw [if_pos h]
    exact matchToken_total _ _ _ _ hst hcur
  rw [if_neg h]
  clear h
  by_cases h : c = '!'
  · rw [if_pos h]
    exact matchToken_total _ _ _ _ hst hcur
  rw [if_neg h]
  clear h
  by_cases h : c = '>'
  · rw [if_pos h]
    exact matchToken_total _ _ _ _ hst hcur
  rw [if_neg h]
  clear h
  by_cases h : c = '<'
  · rw [if_pos h]
    exact matchToken_total _ _ _ _ hst hcur
  rw [if_neg h]
  clear h
  by_cases h : c = '"'
  · rw [if_pos h]
    obtain ⟨r, hr⟩ := consumeString_total n
      { s0 with start := s0.cursor, cursor := s0.cursor + 1 } (Nat.le_refl _) hf
    simp only [hr, bind, Except.bind]
    exact ⟨_, rfl⟩
  rw [if_neg h]
  clear h
  by_cases h : c = '/'
  · rw [if_pos h, matchAdvance_eq]
    by_cases hm : ({ s0 with start := s0.cursor, cursor := s0.cursor + 1 } : Scanner).source[
        ({ s0 with start := s0.cursor, cursor := s0.cursor + 1 } : Scanner).cursor]? = some '/'
    · have hnext := not_last_of_ne_newline hlast hm (by decide)
      simp only [hm, if_true, bind, Except.bind]
      exact comment_total n _ hlast hnext (by simp only; omega)
    · simp only [hm, if_false, bind, Except.bind, Bool.false_eq_true]
      rw [matchAdvance_eq]
      by_cases hm2 : ({ s0 with start := s0.cursor, cursor := s0.cursor + 1 } : Scanner).source[
          ({ s0 with start := s0.cursor, cursor := s0.cursor + 1 } : Scanner).cursor]? = some '*'
      · simp only [hm2, if_true]
        exact ⟨_, rfl⟩
      · simp only [hm2, if_false, Bool.false_eq_true]
        exact addToken_total _ _ _ hst hcur
  rw [if_neg h]
  clear h
  by_cases h : isAlpha c = true
  · rw [if_pos h]
    exact identifier_total n _ hst hcur hf
  rw [if_neg h]
  clear h
  by_cases h : isDigit c = true
  · rw [if_pos h]
    obtain ⟨r, hr⟩ := digit_total n { s0 with start := s0.cursor, cursor := s0.cursor + 1 }
      hlast hst hcur hf
    simp only [hr, bind, Except.bind]
    exact ⟨_, rfl⟩
  rw [if_neg h]
  exact ⟨_, rfl⟩

/-- In a source that ends with a newline, the loop of `Scan` returns once the
fuel exceeds the number of characters left by one. -/
theorem scanLoop_total : ∀ (n : Nat) (sc : Scanner), sc.source.getLast? = some '\n' →
    sc.cursor ≤ sc.source.length → sc.source.length - sc.cursor < n →
    ∃ s, Scanner.scanLoop n sc = .ok s
  | 0, _, _, _, h => absurd h (Nat.not_lt_zero _)
  | n + 1, sc, hlast, hle, hf => by
    cases hc : sc.source[sc.cursor]? with
    | none =>
      have hlen : sc.source.length ≤ sc.cursor := List.getElem?_eq_none_iff.1 hc
      exact ⟨_, scanLoop_none (Nat.le_antisymm hle hlen)⟩
    | some c =>
      have hlt : sc.cursor < sc.source.length := (List.getElem?_eq_some.1 hc).1
      obtain ⟨s2, hs2⟩ := scanSwitch_total n c sc hlast hc (by omega)
      have hstep : Scanner.scanStep n sc = .ok (false, s2) := by
        rw [scanStep_some hc, hs2]
        rfl
      rw [scanLoop_of_step hstep]
      rcases scanStep_spec hstep with ⟨hstop, -, -⟩ | ⟨-, ⟨new, hrun, -⟩, hprog⟩
      · cases hstop
      · have hsrc : s2.source = sc.source := hrun.source
        have hb : s2.cursor ≤ sc.source.length := hrun.cursor_bound hle
        exact scanLoop_total n s2 (by rw [hsrc]; exact hlast) (by rw [hsrc]; exact hb)
          (by rw [hsrc]; omega)

/-- On a source that ends with a newline `Scan` returns, with any fuel above
the length of the source. -/
theorem scanSource_total (source : List Char) (hlast : source.getLast? = some '\n') :
    ∃ r, ∀ fuel, scanSource (fuel + source.length + 1) source = .ok r := by
  obtain ⟨s, hs⟩ := scanLoop_total (source.length + 1) (NewScanner source) hlast
    (Nat.zero_le _) (by simp [NewScanner])
  have h0 : scanSource (source.length + 1) source = .ok (s.tokens, s.Errors) := by
    rw [scanSource_eq, hs]
    rfl
  refine ⟨(s.tokens, s.Errors), fun fuel => ?_⟩
  have := scanSource_fuel source _ _ h0 (by simp) fuel
  have e : fuel + source.length + 1 = source.length + 1 + fuel := by omega
  rw [e]
  exact this

/-! ## Further facts about the tokens of a returned run -/

theorem Lexed.litOK {src : List Char} {base p : Nat} {toks : List Token}
    (h : Lexed src base p toks) : ∀ t ∈ toks, LitOK t.tokenType t.lexeme t.literal := by
  induction h with
  | nil => simp
  | cons p i j ty lit rest _ _ _ _ hlit _ ih =>
    intro t ht
    rcases List.mem_cons.1 ht with rfl | ht
    · exact hlit
    · exact ih t ht

/-- The lexemes of a `Lexed` list, one after the other, are a subsequence of
the source from offset `p` on. -/
theorem Lexed.flatten_sublist {src : List Char} {base p : Nat} {toks : List Token}
    (h : Lexed src base p toks) : ((toks.map Token.lexeme).flatten).Sublist (src.drop p) := by
  induction h with
  | nil p => simp
  | cons p i j ty lit rest hpi hij _ _ _ _ ih =>
    have hsplit : src.drop i = (src.drop i).take (j - i) ++ src.drop j := by
      have h₁ := (List.take_append_drop (j - i) (src.drop i)).symm
      rw [List.drop_drop] at h₁
      have e : i + (j - i) = j := by omega
      rwa [e] at h₁
    have hsub : (((src.drop i).take (j - i)) ++ (rest.map Token.lexeme).flatten).Sublist
        (src.drop i) := by
      conv_rhs => rw [hsplit]
      exact List.Sublist.append (List.Sublist.refl _) ih
    simpa using hsub.trans (List.drop_sublist_drop_left src hpi)

/-- The method `comment` on a text that a newline ends: it reads up to and
including the newline and counts it. -/
theorem comment_to_newline : ∀ (s post : List Char) (fuel : Nat) (sc : Scanner),
    sc.source.drop sc.cursor = s ++ '\n' :: post → '\n' ∉ s →
    Scanner.comment (fuel + s.length + 1) sc =
      .ok { sc with cursor := sc.cursor + s.length + 1, line := sc.line + 1 }
  | [], post, fuel, sc, hd, _ => by
    rw [Scanner.comment, advance_eq, getElem?_of_drop hd]
    rfl
  | c :: s, post, fuel, sc, hd, hn => by
    have hc : c ≠ '\n' := fun h => hn (by simp [h])
    have e : fuel + (c :: s).length + 1 = (fuel + s.length + 1) + 1 := by
      simp only [List.length_cons]; omega
    rw [e, Scanner.comment, advance_eq, getElem?_of_drop hd]
    simp only [bind, Except.bind, hc, if_false]
    rw [comment_to_newline s post fuel _ (drop_succ_of_drop hd)
      (fun h => hn (List.mem_cons_of_mem _ h))]
    simp only [List.length_cons, Except.ok.injEq, Scanner.mk.injEq, true_and, and_true]
    omega

theorem Scan_ok {fuel : Nat} {sc s1 : Scanner} {r : List Token × List GoError}
    (h : Scanner.Scan fuel sc = .ok (r, s1)) :
    Scanner.scanLoop fuel sc = .ok s1 ∧ r = (s1.tokens, s1.Errors) := by
  unfold Scanner.Scan at h
  cases hl : Scanner.scanLoop fuel sc with
  | error e => simp [hl, bind, Except.bind] at h
  | ok s =>
    simp only [hl, bind, Except.bind, pure, Except.pure, Except.ok.injEq, Prod.mk.injEq] at h
    obtain ⟨h₁, h₂⟩ := h
    subst h₂
    exact ⟨rfl, h₁.symm⟩

/-! ## Numbers with a fractional part -/

/-- The inner loop of `digit` over a run of digits. -/
theorem digitFraction_run_over : ∀ (d post : List Char) (fuel : Nat) (sc : Scanner),
    sc.source.drop sc.cursor = d ++ post → (∀ c ∈ d, isDigit c = true) →
    Scanner.digitFraction (fuel + d.length) sc =
      Scanner.digitFraction fuel { sc with cursor := sc.cursor + d.length }
  | [], _, _, _, _, _ => rfl
  | c :: d, post, fuel, sc, hd, hw => by
    have hc : isDigit c = true := hw c (List.mem_cons_self _ _)
    have hget := getElem?_of_drop hd
    rw [List.length_cons, ← Nat.add_assoc, Scanner.digitFraction, peek_eq, advance_eq, hget]
    simp only [bind, Except.bind, Option.getD_some, hc, if_true]
    rw [digitFraction_run_over d post fuel _ (drop_succ_of_drop hd)
      (fun x hx => hw x (List.mem_cons_of_mem _ hx))]
    simp only [Nat.add_assoc, Nat.add_comm 1]

/-- The inner loop of `digit` stops at the end of the source and at a
character that is no digit. -/
theorem digitFraction_stop {post : List Char} {fuel : Nat} {sc : Scanner}
    (hd : sc.source.drop sc.cursor = post)
    (hp : ∀ c, post.head? = some c → isDigit c = false) :
    Scanner.digitFraction (fuel + 1) sc = .ok sc := by
  rw [Scanner.digitFraction, peek_eq]
  cases post with
  | nil =>
    have hget := getElem?_of_drop_nil hd
    have h0 : isDigit (Char.ofNat 0) = false := by decide
    simp [bind, Except.bind, hget, h0, pure, Except.pure]
  | cons c r =>
    have hget := getElem?_of_drop hd
    have hc := hp c rfl
    simp [bind, Except.bind, hget, hc, pure, Except.pure]

/-- The outer loop of `digit` at a dot that a digit follows: it steps over the
dot and enters the inner loop. -/
theorem digitLoop_dot_digit {c : Char} {r : List Char} {fuel : Nat} {sc : Scanner}
    (hd : sc.source.drop sc.cursor = '.' :: c :: r) (hc : isDigit c = true) :
    Scanner.digitLoop (fuel + 1) sc =
      Scanner.digitFraction fuel { sc with cursor := sc.cursor + 1 } := by
  have hget := getElem?_of_drop hd
  have hget2 : sc.source[sc.cursor + 1]? = some c := getElem?_of_drop (drop_succ_of_drop hd)
  have hlt : ¬ sc.source.length ≤ sc.cursor := by
    have := (List.getElem?_eq_some.1 hget).1
    omega
  have hdot : isDigit '.' = false := by decide
  rw [Scanner.digitLoop, peek_eq, peekNext_eq, advance_eq, isAtEnd_of_some hget, hget,
    if_neg hlt, index_eq_ok hget2]
  simp [bind, Except.bind, hc, hdot]

theorem takeWhile_digits_append (d : List Char) (x : Char) (r : List Char)
    (hd : ∀ c ∈ d, isDigit c = true) (hx : isDigit x = false) :
    (d ++ x :: r).takeWhile isDigit = d ∧ (d ++ x :: r).dropWhile isDigit = x :: r := by
  induction d with
  | nil => simp [List.takeWhile, List.dropWhile, hx]
  | cons c d ih =>
    have hc : isDigit c = true := hd c (List.mem_cons_self _ _)
    have := ih (fun y hy => hd y (List.mem_cons_of_mem _ hy))
    simp [List.takeWhile, List.dropWhile, hc, this.1, this.2]

/-- The call `ParseFloat` on digits, a dot and digits: a range error when the
integer part reaches `float64Overflow`, the number otherwise. -/
theorem ParseFloat_fraction {d₁ d₂ : List Char} (hne : d₁ ≠ [])
    (h₁ : ∀ c ∈ d₁, isDigit c = true) (h₂ : ∀ c ∈ d₂, isDigit c = true) :
    ParseFloat (d₁ ++ '.' :: d₂) = if float64Overflow ≤ natOfDigits d₁ then .error .errRange
      else .ok (.num (d₁ ++ '.' :: d₂)) := by
  obtain ⟨ht, hdw⟩ := takeWhile_digits_append d₁ '.' d₂ h₁ (by decide)
  have he : d₁.isEmpty = false := by
    cases d₁ with
    | nil => exact absurd rfl hne
    | cons _ _ => rfl
  have hall : d₂.all isDigit = true := List.all_eq_true.2 h₂
  unfold ParseFloat
  simp only [ht, hdw, he, hall, Bool.not_true, Bool.false_and, Bool.or_self,
    Bool.false_eq_true, if_false]

theorem slice_of_drop {s : List Char} {i : Nat} {t r : List Char} (h : s.drop i = t ++ r)
    (ht : t ≠ []) : slice s i (i + t.length) = .ok t ∧ i + t.length ≤ s.length := by
  have hlen : s.length - i = t.length + r.length := by
    rw [← List.length_drop, h, List.length_append]
  have hpos : 0 < t.length := List.length_pos.2 ht
  have hle : i + t.length ≤ s.length := by omega
  refine ⟨?_, hle⟩
  rw [slice_eq_ok (Nat.le_add_right _ _) hle, h, Nat.add_sub_cancel_left, List.take_left' rfl]

/-- An iteration of the loop of `Scan` with the cursor at a number: a run of
digits `c :: d₁`, a dot, a non-empty run of digits `d₂`, then a text that
does not begin with a digit.  The cursor stops right after `d₂`; the `NUMBER`
token is appended unless `ParseFloat` reports a range error. -/
theorem scanStep_number_fraction (fuel : Nat) (sc : Scanner) (c : Char)
    (d₁ d₂ rest : List Char)
    (hsrc : sc.source.drop sc.cursor = (c :: d₁ ++ '.' :: d₂) ++ rest)
    (hc : isDigit c = true) (h₁ : ∀ x ∈ d₁, isDigit x = true)
    (h₂ : ∀ x ∈ d₂, isDigit x = true) (hne : d₂ ≠ [])
    (hrest : ∀ x, rest.head? = some x → isDigit x = false) :
    Scanner.scanStep (fuel + (c :: d₁).length + d₂.length + 1) sc =
      .ok (false,
        { sc with
          start := sc.cursor
          cursor := sc.cursor + (c :: d₁ ++ '.' :: d₂).length
          tokens := sc.tokens ++
            if float64Overflow ≤ natOfDigits (c :: d₁) then []
            else [{ tokenType := NUMBER, lexeme := c :: d₁ ++ '.' :: d₂,
                    literal := .num (c :: d₁ ++ '.' :: d₂), line := sc.line }] }) := by
  obtain ⟨x, d₂', rfl⟩ := List.exists_cons_of_ne_nil hne
  have hx : isDigit x = true := h₂ x (List.mem_cons_self _ _)
  have hget : sc.source[sc.cursor]? = some c := getElem?_of_drop hsrc
  have hd1 : sc.source.drop (sc.cursor + 1) = d₁ ++ ('.' :: x :: (d₂' ++ rest)) := by
    rw [drop_succ_of_drop hsrc]
    simp
  have hall : ∀ y ∈ c :: d₁, isDigit y = true := by
    intro y hy
    rcases List.mem_cons.1 hy with rfl | hy
    · exact hc
    · exact h₁ y hy
  obtain ⟨hsl, hle⟩ := slice_of_drop hsrc (by simp)
  have e : fuel + (c :: d₁).length + (x :: d₂').length + 1
      = (fuel + 1 + (x :: d₂').length + 1) + d₁.length := by
    simp only [List.length_cons]; omega
  have hd2 : List.drop (sc.cursor + 1 + d₁.length) sc.source = '.' :: x :: (d₂' ++ rest) := by
    rw [← List.drop_drop, hd1]
    exact List.drop_left _ _
  have hd3 : List.drop (sc.cursor + 1 + d₁.length + 1) sc.source
      = (x :: d₂') ++ rest := by
    rw [drop_succ_of_drop hd2]
    rfl
  have hd4 : List.drop (sc.cursor + 1 + d₁.length + 1 + (x :: d₂').length) sc.source = rest := by
    rw [← List.drop_drop, hd3]
    exact List.drop_left _ _
  have hcur : sc.cursor + 1 + d₁.length + 1 + (x :: d₂').length
      = sc.cursor + (c :: d₁ ++ '.' :: x :: d₂').length := by
    simp only [List.length_cons, List.length_append]; omega
  rw [scanStep_some hget, scanSwitch_digit hc, Scanner.digit, e,
    digitLoop_run_over d₁ _ _ _ hd1 h₁,
    digitLoop_dot_digit (c := x) (r := d₂' ++ rest) hd2 hx,
    digitFraction_run_over (x :: d₂') rest (fuel + 1) _ hd3 h₂,
    @digitFraction_stop rest _ _ hd4 hrest]
  simp only [bind, Except.bind, hcur, hsl,
    ParseFloat_fraction (List.cons_ne_nil c d₁) hall h₂]
  by_cases hov : float64Overflow ≤ natOfDigits (c :: d₁)
  · simp [hov, Except.map, pure, Except.pure]
  · have htake : List.take ((c :: d₁ ++ '.' :: x :: d₂').length) (List.drop sc.cursor sc.source)
        = c :: d₁ ++ '.' :: x :: d₂' := by
      rw [hsrc]
      exact List.take_left' rfl
    simp only [hov, if_false, addToken_eq, Nat.le_add_right, hle, and_self, if_true,
      Nat.add_sub_cancel_left, htake, Except.map, pure, Except.pure]

/-- The method `Scan` on a source that is one run of digits: the `NUMBER` token
and `EOF`, or `EOF` alone when `ParseFloat` reports a range error. -/
theorem scanSource_digits (c : Char) (d : List Char) (hc : isDigit c = true)
    (hd : ∀ x ∈ d, isDigit x = true) (fuel : Nat) :
    scanSource (fuel + (c :: d).length + 1) (c :: d) =
      .ok ((if float64Overflow ≤ natOfDigits (c :: d) then []
            else [{ tokenType := NUMBER, lexeme := c :: d, literal := .num (c :: d),
                    line := 1 }]) ++
           [{ tokenType := EOF, lexeme := [], literal := .str [], line := 1 }], []) := by
  have hall : ∀ y ∈ c :: d, isDigit y = true := by
    intro y hy
    rcases List.mem_cons.1 hy with rfl | hy
    · exact hc
    · exact hd y hy
  have e : fuel + (c :: d).length + 1 = ((fuel + d.length) + 1) + 1 := by
    simp only [List.length_cons]; omega
  have e' : fuel + d.length + 1 = (fuel + 1) + d.length := by omega
  rw [scanSource_eq, e, scanLoop_fresh, scanSwitch_digit hc, Scanner.digit]
  conv_lhs => rw [e', digitLoop_run_over d [] (fuel + 1) _ (by simp) hd]
  rw [digitLoop_stop_end (by simp [Nat.add_comm 1])]
  have hsl : slice (c :: d) 0 (1 + d.length) = .ok (c :: d) := by
    rw [slice_eq_ok (Nat.zero_le _) (by simp [Nat.add_comm])]
    simp [Nat.add_comm 1]
  have hlen : 1 + d.length = (c :: d).length := by simp [Nat.add_comm]
  simp only [bind, Except.bind, hsl, ParseFloat_digits (List.cons_ne_nil c d) hall]
  by_cases hov : float64Overflow ≤ natOfDigits (c :: d)
  · simp only [hov, if_true, pure, Except.pure, Except.map, hlen, ← e', scanLoop_atEnd]
  · simp only [hov, if_false, addToken_eq]
    simp only [hlen, Nat.zero_le, Nat.le_refl, and_self, if_true, pure, Except.pure, Except.map,
      ← e', scanLoop_atEnd]
    simp

/-! ## The root-level scanner on upper-case letters -/

theorem upper_ne {c d : Char} (hlo : 'A' ≤ c) (hhi : c < 'Z') (hd : d < 'A' ∨ 'Z' ≤ d) :
    c ≠ d := by
  rintro rfl
  have h1 : 65 ≤ c.toNat := hlo
  have h2 : c.toNat < 90 := hhi
  have h3 : c.toNat < 65 ∨ 90 ≤ c.toNat := hd
  omega

theorem Root_isAlpha_upper {c : Char} (hlo : 'A' ≤ c) (hhi : c < 'Z') :
    Root.isAlpha c = false ∧ isAlpha c = true := by
  have h1 : 65 ≤ c.toNat := hlo
  have h2 : c.toNat < 90 := hhi
  have e1 : ('a' ≤ c) = (97 ≤ c.toNat) := rfl
  have e2 : ('Z' ≤ c) = (90 ≤ c.toNat) := rfl
  have e3 : ('A' ≤ c) = (65 ≤ c.toNat) := rfl
  have e4 : (c ≤ 'Z') = (c.toNat ≤ 90) := rfl
  have e5 : (c ≤ 'z') = (c.toNat ≤ 122) := rfl
  have hu : c ≠ '_' := upper_ne hlo hhi (Or.inr (by decide))
  constructor
  · simp only [Root.isAlpha, e1, e2, e4, e5, Bool.or_eq_false_iff, Bool.and_eq_false_iff,
      decide_eq_false_iff_not, beq_eq_false_iff_ne]
    exact ⟨⟨by omega, by omega⟩, hu⟩
  · simp only [isAlpha, e1, e3, e4, e5, Bool.or_eq_true, Bool.and_eq_true, decide_eq_true_eq]
    omega

/-- On an upper-case letter before `Z` no case of the `switch` of `ScanToken`
applies and the `default` case does nothing. -/
theorem Root_scanSwitch_upper {c : Char} (hlo : 'A' ≤ c) (hhi : c < 'Z') (fuel : Nat)
    (sc : Root.scanner) : Root.scanner.scanSwitch fuel c sc = .ok sc := by
  have ne : ∀ d : Char, (d < 'A' ∨ 'Z' ≤ d) → c ≠ d := fun d hd => upper_ne hlo hhi hd
  unfold Root.scanner.scanSwitch
  rw [if_neg (by
    rintro (h | h | h)
    · exact ne _ (by decide) h
    · exact ne _ (by decide) h
    · exact ne _ (by decide) h)]
  iterate 17 rw [if_neg (ne _ (by decide))]
  rw [(Root_isAlpha_upper hlo hhi).1]
  rfl

/-! ## A Scanner behind a prefix

What the Scanner does from a cursor depends on the text from the cursor on,
not on the text before it: every method commutes with `Scanner.shift`. -/

theorem bind_map_eq {α β γ : Type} (f : α → β) (x : Except Fault α) (g : β → Except Fault γ) :
    (x.map f >>= g) = x >>= fun a => g (f a) := by
  cases x <;> rfl

theorem map_bind_eq {α β γ : Type} (f : β → γ) (x : Except Fault α) (g : α → Except Fault β) :
    (x >>= g).map f = x >>= fun a => (g a).map f := by
  cases x <;> rfl

theorem bind_congr_ok {α β : Type} (x : Except Fault α) {f g : α → Except Fault β}
    (h : ∀ a, f a = g a) : x >>= f = x >>= g := by
  cases x
  · rfl
  · exact h _

theorem index_shift (pre s : List Char) (i : Nat) :
    index (pre ++ s) (pre.length + i) = index s i := by
  unfold index
  rw [List.getElem?_append_right (Nat.le_add_right _ _), Nat.add_sub_cancel_left]

theorem getElem?_shift (pre s : List Char) (i : Nat) :
    (pre ++ s)[pre.length + i]? = s[i]? := by
  rw [List.getElem?_append_right (Nat.le_add_right _ _), Nat.add_sub_cancel_left]

theorem slice_shift (pre s : List Char) (lo hi : Nat) :
    slice (pre ++ s) (pre.length + lo) (pre.length + hi) = slice s lo hi := by
  unfold slice
  have e : (pre.length + lo ≤ pre.length + hi ∧ pre.length + hi ≤ (pre ++ s).length) ↔
      (lo ≤ hi ∧ hi ≤ s.length) := by
    rw [List.length_append]
    omega
  simp only [e, List.drop_append, Nat.add_sub_add_left]

theorem advance_shift (pre : List Char) (b : Scanner) :
    (b.shift pre).advance = b.advance.map (fun r => (r.1, r.2.1, r.2.2.shift pre)) := by
  rw [advance_eq, advance_eq]
  simp only [Scanner.shift, getElem?_shift]
  cases b.source[b.cursor]? <;> rfl

theorem peek_shift (pre : List Char) (b : Scanner) : (b.shift pre).peek = b.peek := by
  rw [peek_eq, peek_eq]
  simp only [Scanner.shift, getElem?_shift]

theorem isAtEnd_shift (pre : List Char) (b : Scanner) : (b.shift pre).isAtEnd = b.isAtEnd := by
  simp [Scanner.isAtEnd, Scanner.shift]

theorem peekNext_shift (pre : List Char) (b : Scanner) : (b.shift pre).peekNext = b.peekNext := by
  rw [peekNext_eq, peekNext_eq]
  simp only [Scanner.shift, List.length_append, Nat.add_le_add_iff_left, Nat.add_assoc, index_shift]

theorem matchAdvance_shift (pre : List Char) (b : Scanner) (c : Char) :
    (b.shift pre).matchAdvance c = (b.matchAdvance c).map (fun r => (r.1, r.2.shift pre)) := by
  rw [matchAdvance_eq, matchAdvance_eq]
  simp only [Scanner.shift, getElem?_shift]
  split_ifs <;> rfl

theorem addToken_shift (pre : List Char) (b : Scanner) (ty : Nat) (lit : Literal) :
    (b.shift pre).addToken ty lit = (b.addToken ty lit).map (Scanner.shift pre) := by
  unfold Scanner.addToken
  simp only [Scanner.shift, slice_shift]
  cases slice b.source b.start b.cursor <;> rfl

theorem comment_shift (pre : List Char) : ∀ (fuel : Nat) (b : Scanner),
    Scanner.comment fuel (b.shift pre) = (Scanner.comment fuel b).map (Scanner.shift pre)
  | 0, _ => rfl
  | fuel + 1, b => by
    simp only [Scanner.comment]
    rw [advance_shift, map_bind_eq, bind_map_eq]
    refine bind_congr_ok _ ?_
    rintro ⟨c, e, s⟩
    dsimp only
    split_ifs
    · rfl
    · exact comment_shift pre fuel s

theorem digitFraction_shift (pre : List Char) : ∀ (fuel : Nat) (b : Scanner),
    Scanner.digitFraction fuel (b.shift pre) =
      (Scanner.digitFraction fuel b).map (Scanner.shift pre)
  | 0, _ => rfl
  | fuel + 1, b => by
    simp only [Scanner.digitFraction]
    rw [peek_shift, map_bind_eq]
    refine bind_congr_ok _ ?_
    intro c
    split_ifs
    · rw [advance_shift, map_bind_eq, bind_map_eq]
      refine bind_congr_ok _ ?_
      rintro ⟨c, e, s⟩
      exact digitFraction_shift pre fuel s
    · rfl

theorem digitLoop_shift (pre : List Char) : ∀ (fuel : Nat) (b : Scanner),
    Scanner.digitLoop fuel (b.shift pre) = (Scanner.digitLoop fuel b).map (Scanner.shift pre)
  | 0, _ => rfl
  | fuel + 1, b => by
    simp only [Scanner.digitLoop]
    rw [isAtEnd_shift]
    split_ifs
    · rfl
    · rw [peek_shift, map_bind_eq]
      refine bind_congr_ok _ ?_
      intro c
      split_ifs
      · rw [advance_shift, map_bind_eq, bind_map_eq]
        refine bind_congr_ok _ ?_
        rintro ⟨c, e, s⟩
        exact digitLoop_shift pre fuel s
      · rw [peekNext_shift, map_bind_eq]
        refine bind_congr_ok _ ?_
        intro n
        split_ifs
        · rw [advance_shift, map_bind_eq, bind_map_eq]
          refine bind_congr_ok _ ?_
          rintro ⟨c, e, s⟩
          exact digitFraction_shift pre fuel s
        · rfl
      · rfl

theorem digit_shift (pre : List Char) (fuel : Nat) (b : Scanner) :
    Scanner.digit fuel (b.shift pre) =
      (Scanner.digit fuel b).map (fun r => (r.1, r.2.shift pre)) := by
  unfold Scanner.digit
  rw [digitLoop_shift, map_bind_eq, bind_map_eq]
  refine bind_congr_ok _ ?_
  intro s
  have e : slice (s.shift pre).source (s.shift pre).start (s.shift pre).cursor
      = slice s.source s.start s.cursor := slice_shift pre s.source s.start s.cursor
  rw [e, map_bind_eq]
  refine bind_congr_ok _ ?_
  intro text
  cases ParseFloat text with
  | error err => rfl
  | ok n =>
    dsimp only
    rw [addToken_shift, map_bind_eq, bind_map_eq]
    refine bind_congr_ok _ ?_
    intro s2
    rfl

theorem ok_bind {α β : Type} (a : α) (f : α → Except Fault β) :
    ((Except.ok a : Except Fault α) >>= f) = f a := rfl

theorem slice_shift_string (pre : List Char) (s : Scanner) (h : 1 ≤ s.cursor) :
    slice (s.shift pre).source ((s.shift pre).start + 1) ((s.shift pre).cursor - 1)
      = slice s.source (s.start + 1) (s.cursor - 1) := by
  show slice (pre ++ s.source) (pre.length + s.start + 1) (pre.length + s.cursor - 1) = _
  rw [show pre.length + s.cursor - 1 = pre.length + (s.cursor - 1) by omega, Nat.add_assoc]
  exact slice_shift pre s.source (s.start + 1) (s.cursor - 1)

theorem consumeString_shift (pre : List Char) : ∀ (fuel : Nat) (b : Scanner),
    Scanner.consumeString fuel (b.shift pre) =
      (Scanner.consumeString fuel b).map (fun r => (r.1, r.2.shift pre))
  | 0, _ => rfl
  | fuel + 1, b => by
    simp only [Scanner.consumeString]
    rw [advance_shift, map_bind_eq, bind_map_eq, advance_eq]
    cases b.source[b.cursor]? with
    | none => rfl
    | some c =>
      simp only [ok_bind, Option.isSome_none, Bool.false_eq_true, if_false]
      split_ifs
      · rw [slice_shift_string pre _ (Nat.le_add_left 1 b.cursor), map_bind_eq]
        refine bind_congr_ok _ ?_
        intro text
        rw [addToken_shift, map_bind_eq, bind_map_eq]
        refine bind_congr_ok _ ?_
        intro s2
        rfl
      · exact consumeString_shift pre fuel { b with cursor := b.cursor + 1, line := b.line + 1 }
      · exact consumeString_shift pre fuel { b with cursor := b.cursor + 1 }

theorem identifierLoop_shift (pre : List Char) : ∀ (fuel : Nat) (b : Scanner),
    Scanner.identifierLoop fuel (b.shift pre) =
      (Scanner.identifierLoop fuel b).map (Scanner.shift pre)
  | 0, _ => rfl
  | fuel + 1, b => by
    simp only [Scanner.identifierLoop]
    rw [peek_shift, isAtEnd_shift, map_bind_eq]
    refine bind_congr_ok _ ?_
    intro c
    split_ifs
    · rfl
    · rw [advance_shift, map_bind_eq, bind_map_eq]
      refine bind_congr_ok _ ?_
      rintro ⟨c, e, s⟩
      exact identifierLoop_shift pre fuel s

theorem identifier_shift (pre : List Char) (fuel : Nat) (b : Scanner) :
    Scanner.identifier fuel (b.shift pre) =
      (Scanner.identifier fuel b).map (Scanner.shift pre) := by
  unfold Scanner.identifier
  rw [identifierLoop_shift, map_bind_eq, bind_map_eq]
  refine bind_congr_ok _ ?_
  intro s
  have e : slice (s.shift pre).source (s.shift pre).start (s.shift pre).cursor
      = slice s.source s.start s.cursor := slice_shift pre s.source s.start s.cursor
  rw [e, map_bind_eq]
  refine bind_congr_ok _ ?_
  intro text
  dsimp only
  split_ifs
  · exact addToken_shift pre s _ _
  · exact addToken_shift pre s _ _

theorem matchToken_shift (pre : List Char) (b : Scanner) (d : Char) (ty₁ ty₂ : Nat) :
    (do
      let (m, sc) ← (b.shift pre).matchAdvance d
      if m then sc.addToken ty₁ (.str [])
      else sc.addToken ty₂ (.str [])) =
    Except.map (Scanner.shift pre) (do
      let (m, sc) ← b.matchAdvance d
      if m then sc.addToken ty₁ (.str [])
      else sc.addToken ty₂ (.str [])) := by
  rw [matchAdvance_shift, map_bind_eq, bind_map_eq]
  refine bind_congr_ok _ ?_
  rintro ⟨m, s⟩
  dsimp only
  split_ifs
  · exact addToken_shift pre s _ _
  · exact addToken_shift pre s _ _

theorem ite_map {α β : Type} (f : α → β) {p : Prop} [Decidable p] {a b : Except Fault β}
    {a' b' : Except Fault α} (ha : a = a'.map f) (hb : b = b'.map f) :
    (if p then a else b) = (if p then a' else b').map f := by
  split_ifs <;> assumption

theorem scanSwitch_shift (pre : List Char) (fuel : Nat) (c : Char) (b : Scanner) :
    Scanner.scanSwitch fuel c (b.shift pre) =
      (Scanner.scanSwitch fuel c b).map (Scanner.shift pre) := by
  unfold Scanner.scanSwitch
  refine ite_map _ rfl ?_
  refine ite_map _ rfl ?_
  iterate 9 refine ite_map _ (addToken_shift pre b _ _) ?_
  iterate 4 refine ite_map _ (matchToken_shift pre b _ _ _) ?_
  refine ite_map _ ?_ ?_
  · rw [consumeString_shift, map_bind_eq, bind_map_eq]
    refine bind_congr_ok _ ?_
    intro r
    rfl
  refine ite_map _ ?_ ?_
  · rw [matchAdvance_shift, map_bind_eq, bind_map_eq]
    refine bind_congr_ok _ ?_
    rintro ⟨m, s⟩
    dsimp only
    refine ite_map _ (comment_shift pre fuel s) ?_
    rw [matchAdvance_shift, map_bind_eq, bind_map_eq]
    refine bind_congr_ok _ ?_
    rintro ⟨m, s⟩
    dsimp only
    exact ite_map _ rfl (addToken_shift pre s _ _)
  refine ite_map _ (identifier_shift pre fuel b) ?_
  refine ite_map _ ?_ rfl
  rw [digit_shift, map_bind_eq, bind_map_eq]
  refine bind_congr_ok _ ?_
  intro r
  rfl

theorem scanStep_shift (pre : List Char) (fuel : Nat) (b : Scanner) :
    Scanner.scanStep fuel (b.shift pre) =
      (Scanner.scanStep fuel b).map (fun r => (r.1, r.2.shift pre)) := by
  unfold Scanner.scanStep
  have e : ({ b.shift pre with start := (b.shift pre).cursor } : Scanner)
      = Scanner.shift pre { b with start := b.cursor } := rfl
  simp only [e]
  rw [advance_shift, map_bind_eq, bind_map_eq]
  refine bind_congr_ok _ ?_
  rintro ⟨c, err, s⟩
  dsimp only
  split_ifs
  · rw [addToken_shift, map_bind_eq, bind_map_eq]
    refine bind_congr_ok _ ?_
    intro s2
    rfl
  · rw [scanSwitch_shift, map_bind_eq, bind_map_eq]
    refine bind_congr_ok _ ?_
    intro s2
    rfl

theorem scanLoop_shift (pre : List Char) : ∀ (fuel : Nat) (b : Scanner),
    Scanner.scanLoop fuel (b.shift pre) = (Scanner.scanLoop fuel b).map (Scanner.shift pre)
  | 0, _ => rfl
  | fuel + 1, b => by
    simp only [Scanner.scanLoop]
    rw [scanStep_shift, map_bind_eq, bind_map_eq]
    refine bind_congr_ok _ ?_
    rintro ⟨stop, s⟩
    dsimp only
    split_ifs
    · rfl
    · exact scanLoop_shift pre fuel s

/-- The loop of `Scan` does not read `start`: each iteration sets it first. -/
theorem scanLoop_start (x : Nat) : ∀ (fuel : Nat) (sc : Scanner),
    Scanner.scanLoop fuel { sc with start := x } = Scanner.scanLoop fuel sc
  | 0, _ => rfl
  | _ + 1, _ => rfl

theorem scanSource_block_comment (fuel : Nat) (rest : List Char) :
    scanSource (fuel + 1) ('/' :: '*' :: rest) = scanSource fuel rest := by
  have hstep : Scanner.scanStep fuel (NewScanner ('/' :: '*' :: rest)) =
      .ok (false, { NewScanner ('/' :: '*' :: rest) with cursor := 2 }) := by
    rw [@scanStep_some fuel (NewScanner ('/' :: '*' :: rest)) '/' rfl, scanSwitch_slash]
    simp [matchAdvance_eq, NewScanner, bind, Except.bind, Except.map, pure, Except.pure]
  rw [scanSource_eq, scanSource_eq, scanLoop_of_step hstep]
  have e : ({ NewScanner ('/' :: '*' :: rest) with cursor := 2 } : Scanner)
      = { Scanner.shift ['/', '*'] (NewScanner rest) with start := 0 } := rfl
  rw [e, scanLoop_start, scanLoop_shift]
  cases Scanner.scanLoop fuel (NewScanner rest) <;> rfl

/-! ## Plain sources: every character ends up in a lexeme or is whitespace -/

theorem addToken_over {sc : Scanner} {L rest : List Char}
    (hsrc : sc.source.drop sc.cursor = L ++ rest) (hL : L ≠ []) (ty : Nat) (lit : Literal)
    (ln : Nat) :
    Scanner.addToken
        { sc with start := sc.cursor, cursor := sc.cursor + L.length, line := ln } ty lit =
      .ok { sc with
            start := sc.cursor
            cursor := sc.cursor + L.length
            line := ln
            tokens := sc.tokens ++
              [{ tokenType := ty, lexeme := L, literal := lit, line := ln }] } := by
  obtain ⟨-, hle⟩ := slice_of_drop hsrc hL
  have htake : List.take L.length (List.drop sc.cursor sc.source) = L := by
    rw [hsrc]
    exact List.take_left' rfl
  rw [addToken_eq]
  simp only [Nat.le_add_right, hle, and_self, if_true, Nat.add_sub_cancel_left, htake]

theorem StepOver.of_step {sc : Scanner} {L : List Char} {new : List Token} (n ln : Nat)
    (h : Scanner.scanStep n sc = .ok (false,
      { sc with
        start := sc.cursor
        cursor := sc.cursor + L.length
        line := ln
        tokens := sc.tokens ++ new })) : StepOver sc L new :=
  ⟨n, _, h, rfl, rfl, rfl⟩

theorem StepOver_whitespace {sc : Scanner} {c : Char} {rest : List Char}
    (hsrc : sc.source.drop sc.cursor = c :: rest) (hc : isWhitespace c = true) :
    StepOver sc [c] [] := by
  have hget := getElem?_of_drop hsrc
  simp only [isWhitespace, Bool.or_eq_true, beq_iff_eq] at hc
  rcases hc with ((rfl | rfl) | rfl) | rfl
  · exact StepOver.of_step 0 sc.line (by rw [scanStep_some hget]; simp; rfl)
  · exact StepOver.of_step 0 sc.line (by rw [scanStep_some hget]; simp; rfl)
  · exact StepOver.of_step 0 sc.line (by rw [scanStep_some hget]; simp; rfl)
  · exact StepOver.of_step 0 (sc.line + 1) (by rw [scanStep_some hget]; simp; rfl)

theorem StepOver_single {sc : Scanner} {c : Char} {rest : List Char} (ty : Nat)
    (hsrc : sc.source.drop sc.cursor = c :: rest)
    (hsw : ∀ s : Scanner, Scanner.scanSwitch 0 c s = s.addToken ty (.str [])) :
    StepOver sc [c] [{ tokenType := ty, lexeme := [c], literal := .str [], line := sc.line }] := by
  have hget := getElem?_of_drop hsrc
  have hadd := @addToken_over sc [c] rest hsrc (by simp) ty (.str []) sc.line
  refine StepOver.of_step 0 sc.line ?_
  rw [scanStep_some hget, hsw]
  exact congrArg (Except.map _) hadd

theorem StepOver_two_char {sc : Scanner} {c : Char} {rest : List Char} (ty₁ ty₂ : Nat)
    (hsrc : sc.source.drop sc.cursor = c :: rest)
    (hsw : ∀ s : Scanner, Scanner.scanSwitch 0 c s = (do
      let (m, s) ← s.matchAdvance '='
      if m then s.addToken ty₁ (.str []) else s.addToken ty₂ (.str []))) :
    (∃ r, rest = '=' :: r ∧ StepOver sc [c, '=']
      [{ tokenType := ty₁, lexeme := [c, '='], literal := .str [], line := sc.line }]) ∨
    StepOver sc [c] [{ tokenType := ty₂, lexeme := [c], literal := .str [], line := sc.line }] := by
  have hget := getElem?_of_drop hsrc
  have hrest := drop_succ_of_drop hsrc
  by_cases hn : sc.source[sc.cursor + 1]? = some '='
  · left
    obtain ⟨r, rfl⟩ : ∃ r, rest = '=' :: r := by
      cases rest with
      | nil =>
        rw [getElem?_of_drop_nil hrest] at hn
        cases hn
      | cons x r =>
        rw [getElem?_of_drop hrest] at hn
        cases hn
        exact ⟨r, rfl⟩
    refine ⟨r, rfl, ?_⟩
    have hadd := @addToken_over sc [c, '='] r hsrc (by simp) ty₁ (.str []) sc.line
    refine StepOver.of_step 0 sc.line ?_
    rw [scanStep_some hget, hsw, matchAdvance_eq, if_pos hn]
    exact congrArg (Except.map _) hadd
  · right
    have hadd := @addToken_over sc [c] rest hsrc (by simp) ty₂ (.str []) sc.line
    refine StepOver.of_step 0 sc.line ?_
    rw [scanStep_some hget, hsw, matchAdvance_eq, if_neg hn]
    exact congrArg (Except.map _) hadd

theorem StepOver_slash {sc : Scanner} {rest : List Char}
    (hsrc : sc.source.drop sc.cursor = '/' :: rest)
    (h₁ : rest.head? ≠ some '/') (h₂ : rest.head? ≠ some '*') :
    StepOver sc ['/']
      [{ tokenType := SLASH, lexeme := ['/'], literal := .str [], line := sc.line }] := by
  have hget := getElem?_of_drop hsrc
  have hrest := drop_succ_of_drop hsrc
  have hnext : sc.source[sc.cursor + 1]? = rest.head? := by
    cases rest with
    | nil => exact getElem?_of_drop_nil hrest
    | cons x r => exact getElem?_of_drop hrest
  have hadd := @addToken_over sc ['/'] rest hsrc (by simp) SLASH (.str []) sc.line
  refine StepOver.of_step 0 sc.line ?_
  rw [scanStep_some hget, scanSwitch_slash, matchAdvance_eq, if_neg (by rw [hnext]; exact h₁)]
  show Except.map _ (Scanner.matchAdvance _ '*' >>= _) = _
  rw [matchAdvance_eq, if_neg (by rw [hnext]; exact h₂)]
  exact congrArg (Except.map _) hadd

theorem StepOver_identifier {sc : Scanner} {c : Char} {w post : List Char}
    (hsrc : sc.source.drop sc.cursor = (c :: w) ++ post) (hc : isAlpha c = true)
    (hw : ∀ x ∈ w, isAlphaNum x = true)
    (hpost : ∀ x, post.head? = some x → isAlphaNum x = false) :
    ∃ t : Token, t.lexeme = c :: w ∧ StepOver sc (c :: w) [t] := by
  have hget : sc.source[sc.cursor]? = some c := getElem?_of_drop hsrc
  have hd1 : sc.source.drop (sc.cursor + 1) = w ++ post := drop_succ_of_drop hsrc
  have hd2 : List.drop (sc.cursor + 1 + w.length) sc.source = post := by
    rw [← List.drop_drop, hd1]
    exact List.drop_left _ _
  obtain ⟨hsl, hle⟩ := slice_of_drop hsrc (List.cons_ne_nil c w)
  have hcur : sc.cursor + 1 + w.length = sc.cursor + (c :: w).length := by
    simp only [List.length_cons]; omega
  have hstep : ∀ ty lit, (if keywords (c :: w) ≠ 0 then (keywords (c :: w), Literal.str [])
        else (IDENTIFIER, Literal.str (c :: w))) = (ty, lit) →
      Scanner.scanStep (0 + 1 + w.length) sc = .ok (false,
        { sc with
          start := sc.cursor
          cursor := sc.cursor + (c :: w).length
          line := sc.line
          tokens := sc.tokens ++
            [{ tokenType := ty, lexeme := c :: w, literal := lit, line := sc.line }] }) := by
    intro ty lit hty
    have hadd := @addToken_over sc (c :: w) post hsrc (List.cons_ne_nil c w) ty lit sc.line
    rw [scanStep_some hget, scanSwitch_alpha hc, Scanner.identifier,
      identifierLoop_run_over w post (0 + 1) _ hd1 hw,
      @identifierLoop_stop post _ _ hd2 hpost]
    simp only [bind, Except.bind, hcur, hsl]
    split_ifs at hty ⊢ with hk
    · cases hty
      exact congrArg (Except.map _) hadd
    · cases hty
      exact congrArg (Except.map _) hadd
  exact ⟨_, rfl, StepOver.of_step _ sc.line (hstep _ _ rfl)⟩

theorem StepOver_number_plain {sc : Scanner} {c : Char} {d post : List Char}
    (hsrc : sc.source.drop sc.cursor = (c :: d) ++ post) (hc : isDigit c = true)
    (hd : ∀ x ∈ d, isDigit x = true)
    (hstop : ∀ s : Scanner, s.source.drop s.cursor = post → Scanner.digitLoop (0 + 1) s = .ok s)
    (hv : natOfDigits (c :: d) < float64Overflow) :
    StepOver sc (c :: d)
      [{ tokenType := NUMBER, lexeme := c :: d, literal := .num (c :: d), line := sc.line }] := by
  have hget : sc.source[sc.cursor]? = some c := getElem?_of_drop hsrc
  have hd1 : sc.source.drop (sc.cursor + 1) = d ++ post := drop_succ_of_drop hsrc
  have hd2 : List.drop (sc.cursor + 1 + d.length) sc.source = post := by
    rw [← List.drop_drop, hd1]
    exact List.drop_left _ _
  have hall : ∀ y ∈ c :: d, isDigit y = true := by
    intro y hy
    rcases List.mem_cons.1 hy with rfl | hy
    · exact hc
    · exact hd y hy
  obtain ⟨hsl, hle⟩ := slice_of_drop hsrc (List.cons_ne_nil c d)
  have hcur : sc.cursor + 1 + d.length = sc.cursor + (c :: d).length := by
    simp only [List.length_cons]; omega
  have hadd := @addToken_over sc (c :: d) post hsrc (List.cons_ne_nil c d) NUMBER
    (.num (c :: d)) sc.line
  refine StepOver.of_step (0 + 1 + d.length) sc.line ?_
  rw [scanStep_some hget, scanSwitch_digit hc, Scanner.digit,
    digitLoop_run_over d post (0 + 1) _ hd1 hd, hstop _ hd2]
  simp only [bind, Except.bind, hcur, hsl, ParseFloat_digits (List.cons_ne_nil c d) hall,
    if_neg (Nat.not_le.2 hv)]
  rw [hadd]
  rfl

theorem scanStep_number_panic {sc : Scanner} {c : Char} {d : List Char}
    (hsrc : sc.source.drop sc.cursor = (c :: d) ++ ['.']) (hc : isDigit c = true)
    (hd : ∀ x ∈ d, isDigit x = true) :
    Scanner.scanStep (0 + 1 + d.length) sc = .error .indexOutOfRange := by
  have hget : sc.source[sc.cursor]? = some c := getElem?_of_drop hsrc
  have hd1 : sc.source.drop (sc.cursor + 1) = d ++ ['.'] := drop_succ_of_drop hsrc
  have hd2 : List.drop (sc.cursor + 1 + d.length) sc.source = ['.'] := by
    rw [← List.drop_drop, hd1]
    exact List.drop_left _ _
  rw [scanStep_some hget, scanSwitch_digit hc, Scanner.digit,
    digitLoop_run_over d ['.'] (0 + 1) _ hd1 hd, digitLoop_panic_dot hd2]
  rfl

theorem scanStep_fuel_error {n : Nat} {sc : Scanner}
    (h : Scanner.scanStep n sc = .error .indexOutOfRange) :
    ∀ k, Scanner.scanStep (n + k) sc = .error .indexOutOfRange
  | 0 => h
  | k + 1 => by
    have ih := scanStep_fuel_error h k
    have := scanStep_stable (n + k) sc (by rw [ih]; simp)
    rw [← Nat.add_assoc, this, ih]

/-- When an iteration panics, the loop does not return. -/
theorem scanLoop_of_panic {n : Nat} {sc : Scanner}
    (hstep : Scanner.scanStep n sc = .error .indexOutOfRange) (fuel : Nat) (s : Scanner) :
    Scanner.scanLoop fuel sc ≠ .ok s := by
  intro h
  cases fuel with
  | zero => simp [Scanner.scanLoop] at h
  | succ f =>
    rw [Scanner.scanLoop] at h
    cases hs : Scanner.scanStep f sc with
    | error e => simp [hs, bind, Except.bind] at h
    | ok r =>
      have e₁ := scanStep_fuel hs n
      have e₂ := scanStep_fuel_error hstep f
      rw [Nat.add_comm, e₁] at e₂
      cases e₂

theorem StepOver_string {sc : Scanner} {s post : List Char}
    (hsrc : sc.source.drop sc.cursor = ('"' :: s ++ ['"']) ++ post) (hq : '"' ∉ s) :
    StepOver sc ('"' :: s ++ ['"'])
      [{ tokenType := STRING, lexeme := '"' :: s ++ ['"'], literal := .str s,
         line := sc.line + s.count '\n' }] := by
  have hget : sc.source[sc.cursor]? = some '"' := getElem?_of_drop hsrc
  have hd1 : sc.source.drop (sc.cursor + 1) = s ++ '"' :: post := by
    rw [drop_succ_of_drop hsrc]
    simp
  obtain ⟨-, hle⟩ := slice_of_drop hsrc (List.cons_ne_nil _ _)
  have hlen : ('"' :: s ++ ['"']).length = s.length + 2 := by simp
  have hsl : slice sc.source (sc.cursor + 1) (sc.cursor + 1 + s.length) = .ok s := by
    rw [slice_eq_ok (Nat.le_add_right _ _) (by omega), hd1, Nat.add_sub_cancel_left,
      List.take_left' rfl]
  have hcur : sc.cursor + 1 + s.length + 1 = sc.cursor + ('"' :: s ++ ['"']).length := by
    omega
  have hadd := @addToken_over sc ('"' :: s ++ ['"']) post hsrc (List.cons_ne_nil _ _) STRING
    (.str s) (sc.line + s.count '\n')
  refine StepOver.of_step (s.length + 1) (sc.line + s.count '\n') ?_
  rw [scanStep_some hget, scanSwitch_quote,
    consumeString_closed s post (s.length + 1) _ hd1 hq (Nat.lt_succ_self _)]
  simp only [bind, Except.bind, hcur, hsl]
  rw [hadd]
  rfl

theorem Plain.drop {L text : List Char} (h : Plain (L ++ text))
    (hq : L.count '"' % 2 = 0) : Plain text where
  chars := fun c hc => h.chars c (List.mem_append_right _ hc)
  noLineComment := fun hi => h.noLineComment (hi.trans (List.suffix_append _ _).isInfix)
  noBlockComment := fun hi => h.noBlockComment (hi.trans (List.suffix_append _ _).isInfix)
  numbers := fun d hd => h.numbers d (hd.trans (List.suffix_append _ _).isInfix)
  quotes := by
    have := h.quotes
    rw [List.count_append] at this
    omega

theorem count_quote_zero {L : List Char} (h : ∀ c ∈ L, c ≠ '"') : L.count '"' % 2 = 0 := by
  rw [List.count_eq_zero_of_not_mem (fun hm => h _ hm rfl)]

theorem head?_dropWhile_false (p : Char → Bool) : ∀ (l : List Char) (x : Char),
    (l.dropWhile p).head? = some x → p x = false
  | [], _, h => by cases h
  | a :: l, x, h => by
    by_cases ha : p a = true
    · rw [List.dropWhile_cons_of_pos ha] at h
      exact head?_dropWhile_false p l x h
    · rw [List.dropWhile_cons_of_neg ha] at h
      cases h
      simpa using ha

theorem outsideStrings_cons {c : Char} (rest : List Char) (hc : c ≠ '"') :
    outsideStrings false (c :: rest) = c :: outsideStrings false rest := by
  have : (c == '"') = false := by simpa using hc
  rw [outsideStrings, this]

theorem outsideStrings_append : ∀ (L rest : List Char), (∀ c ∈ L, c ≠ '"') →
    outsideStrings false (L ++ rest) = L ++ outsideStrings false rest
  | [], _, _ => rfl
  | c :: L, rest, h => by
    rw [List.cons_append, outsideStrings_cons _ (h c (List.mem_cons_self _ _)),
      outsideStrings_append L rest (fun x hx => h x (List.mem_cons_of_mem _ hx))]
    rfl

theorem outsideStrings_inside : ∀ (s post : List Char), '"' ∉ s →
    outsideStrings true (s ++ '"' :: post) = '"' :: outsideStrings false post
  | [], _, _ => by simp [outsideStrings]
  | c :: s, post, h => by
    have hc : c ≠ '"' := fun e => h (by simp [e])
    rw [List.cons_append, outsideStrings, if_neg hc]
    exact outsideStrings_inside s post (fun hm => h (List.mem_cons_of_mem _ hm))

theorem outsideStrings_unterminated : ∀ (s : List Char), '"' ∉ s →
    outsideStrings true s = []
  | [], _ => rfl
  | c :: s, h => by
    have hc : c ≠ '"' := fun e => h (by simp [e])
    rw [outsideStrings, if_neg hc]
    exact outsideStrings_unterminated s (fun hm => h (List.mem_cons_of_mem _ hm))

theorem outsideStrings_string (s post : List Char) (h : '"' ∉ s) :
    outsideStrings false (('"' :: s ++ ['"']) ++ post)
      = ['"', '"'] ++ outsideStrings false post := by
  have e : ('"' :: s ++ ['"']) ++ post = '"' :: (s ++ '"' :: post) := by simp
  rw [e, outsideStrings]
  simp only [beq_self_eq_true]
  rw [outsideStrings_inside s post h]
  rfl

theorem outsideStrings_head? (rest : List Char) :
    (outsideStrings false rest).head? = rest.head? := by
  cases rest <;> rfl

theorem Advances.of_token {sc : Scanner} {text L rest : List Char} {t : Token}
    (htext : text = L ++ rest) (hp : Plain (outsideStrings false text)) (hne : L ≠ [])
    (hstep : StepOver sc L [t]) (hlex : t.lexeme = L) (hq : ∀ c ∈ L, c ≠ '"') :
    Advances sc text := by
  subst htext
  rw [outsideStrings_append L rest hq] at hp
  refine ⟨L, rest, [t], rfl, hne, hstep, hp.drop (count_quote_zero hq), fun toks h => ?_⟩
  rw [← hlex]
  exact Tiled.token t rest toks h

theorem Tiled.length_eq {text : List Char} {toks : List Token} (h : Tiled text toks) :
    text.length + lexemeSpaces toks = lexemeChars toks + text.countP isWhitespace ∧
      lexemeSpaces toks ≤ text.countP isWhitespace := by
  induction h with
  | nil => exact ⟨rfl, Nat.le_refl _⟩
  | space c text toks hc _ ih =>
    simp only [List.length_cons, List.countP_cons_of_pos _ _ hc]
    omega
  | token t text toks _ ih =>
    simp only [List.length_append, List.countP_append, lexemeSpaces, lexemeChars, List.map_cons,
      List.sum_cons] at ih ⊢
    omega

theorem plain_step_operator {sc : Scanner} {c : Char} {rest : List Char}
    (hsrc : sc.source.drop sc.cursor = c :: rest)
    (hp : Plain (outsideStrings false (c :: rest)))
    (hc : isOperator c = true) : Advances sc (c :: rest) := by
  simp only [isOperator, Bool.or_eq_true, beq_iff_eq] at hc
  rcases hc with (((((((((((((rfl | rfl) | rfl) | rfl) | rfl) | rfl) | rfl) | rfl) | rfl) | rfl) |
    rfl) | rfl) | rfl) | rfl)
  · exact Advances.of_token (L := ['(']) rfl hp (by simp)
      (StepOver_single LEFT_PAREN hsrc (fun _ => rfl)) rfl (by decide)
  · exact Advances.of_token (L := [')']) rfl hp (by simp)
      (StepOver_single RIGHT_PAREN hsrc (fun _ => rfl)) rfl (by decide)
  · exact Advances.of_token (L := ['{']) rfl hp (by simp)
      (StepOver_single LEFT_BRACE hsrc (fun _ => rfl)) rfl (by decide)
  · exact Advances.of_token (L := ['}']) rfl hp (by simp)
      (StepOver_single RIGHT_BRACE hsrc (fun _ => rfl)) rfl (by decide)
  · exact Advances.of_token (L := [';']) rfl hp (by simp)
      (StepOver_single SEMICOLON hsrc (fun _ => rfl)) rfl (by decide)
  · exact Advances.of_token (L := ['.']) rfl hp (by simp)
      (StepOver_single DOT hsrc (fun _ => rfl)) rfl (by decide)
  · exact Advances.of_token (L := ['+']) rfl hp (by simp)
      (StepOver_single PLUS hsrc (fun _ => rfl)) rfl (by decide)
  · exact Advances.of_token (L := ['-']) rfl hp (by simp)
      (StepOver_single MINUS hsrc (fun _ => rfl)) rfl (by decide)
  · exact Advances.of_token (L := ['*']) rfl hp (by simp)
      (StepOver_single STAR hsrc (fun _ => rfl)) rfl (by decide)
  · rcases StepOver_two_char EQUAL_EQUAL EQUAL hsrc (fun _ => rfl) with ⟨r, rfl, h⟩ | h
    · exact Advances.of_token (L := ['=', '=']) rfl hp (by simp) h rfl (by decide)
    · exact Advances.of_token (L := ['=']) rfl hp (by simp) h rfl (by decide)
  · rcases StepOver_two_char BANG_EQUAL BANG hsrc (fun _ => rfl) with ⟨r, rfl, h⟩ | h
    · exact Advances.of_token (L := ['!', '=']) rfl hp (by simp) h rfl (by decide)
    · exact Advances.of_token (L := ['!']) rfl hp (by simp) h rfl (by decide)
  · rcases StepOver_two_char GREATER_EQUAL GREATER hsrc (fun _ => rfl) with ⟨r, rfl, h⟩ | h
    · exact Advances.of_token (L := ['>', '=']) rfl hp (by simp) h rfl (by decide)
    · exact Advances.of_token (L := ['>']) rfl hp (by simp) h rfl (by decide)
  · rcases StepOver_two_char LESS_EQUAL LESS hsrc (fun _ => rfl) with ⟨r, rfl, h⟩ | h
    · exact Advances.of_token (L := ['<', '=']) rfl hp (by simp) h rfl (by decide)
    · exact Advances.of_token (L := ['<']) rfl hp (by simp) h rfl (by decide)
  · have h₁ : rest.head? ≠ some '/' := by
      intro h
      cases rest with
      | nil => cases h
      | cons x r =>
        cases h
        exact hp.noLineComment ⟨[], outsideStrings false r, rfl⟩
    have h₂ : rest.head? ≠ some '*' := by
      intro h
      cases rest with
      | nil => cases h
      | cons x r =>
        cases h
        exact hp.noBlockComment ⟨[], outsideStrings false r, rfl⟩
    exact Advances.of_token (L := ['/']) rfl hp (by simp) (StepOver_slash hsrc h₁ h₂) rfl
      (by decide)

theorem plain_step_string {sc : Scanner} {rest : List Char}
    (hsrc : sc.source.drop sc.cursor = '"' :: rest)
    (hp : Plain (outsideStrings false ('"' :: rest))) :
    Advances sc ('"' :: rest) := by
  have hm : '"' ∈ rest := by
    by_contra hn
    have hq := hp.quotes
    rw [outsideStrings] at hq
    simp only [beq_self_eq_true] at hq
    rw [outsideStrings_unterminated rest hn] at hq
    cases hq
  obtain ⟨s, post, rfl, hns⟩ := List.eq_append_cons_of_mem hm
  have htext : '"' :: (s ++ '"' :: post) = ('"' :: s ++ ['"']) ++ post := by simp
  rw [htext] at hsrc hp
  rw [outsideStrings_string s post hns] at hp
  refine ⟨'"' :: s ++ ['"'], post, _, htext, by simp, StepOver_string hsrc hns,
    hp.drop (by decide), fun toks h => ?_⟩
  rw [htext]
  exact Tiled.token
    { tokenType := STRING, lexeme := '"' :: s ++ ['"'], literal := .str s,
      line := sc.line + s.count '\n' } post toks h

theorem plain_step_identifier {sc : Scanner} {c : Char} {rest : List Char}
    (hsrc : sc.source.drop sc.cursor = c :: rest)
    (hp : Plain (outsideStrings false (c :: rest)))
    (hc : isAlpha c = true) : Advances sc (c :: rest) := by
  have hsplit : c :: rest = (c :: rest.takeWhile isAlphaNum) ++ rest.dropWhile isAlphaNum := by
    simp [List.takeWhile_append_dropWhile]
  have hw : ∀ x ∈ rest.takeWhile isAlphaNum, isAlphaNum x = true :=
    fun x hx => List.mem_takeWhile_imp hx
  rw [hsplit] at hsrc
  obtain ⟨t, hlex, hstep⟩ := StepOver_identifier hsrc hc hw
    (head?_dropWhile_false isAlphaNum rest)
  refine Advances.of_token hsplit hp (List.cons_ne_nil _ _) hstep hlex ?_
  intro x hx
  rcases List.mem_cons.1 hx with rfl | hx
  · rintro rfl
    exact absurd hc (by decide)
  · rintro rfl
    exact absurd (hw _ hx) (by decide)

theorem plain_step_number {sc : Scanner} {c : Char} {rest : List Char}
    (hsrc : sc.source.drop sc.cursor = c :: rest)
    (hp : Plain (outsideStrings false (c :: rest)))
    (hc : isDigit c = true) :
    Advances sc (c :: rest) ∨
      ((∃ n, Scanner.scanStep n sc = .error .indexOutOfRange) ∧
        (c :: rest).getLast? = some '.') := by
  have hsplit : c :: rest = (c :: rest.takeWhile isDigit) ++ rest.dropWhile isDigit := by
    simp [List.takeWhile_append_dropWhile]
  have hd : ∀ x ∈ rest.takeWhile isDigit, isDigit x = true :=
    fun x hx => List.mem_takeWhile_imp hx
  have hall : ∀ x ∈ c :: rest.takeWhile isDigit, isDigit x = true := by
    intro x hx
    rcases List.mem_cons.1 hx with rfl | hx
    · exact hc
    · exact hd x hx
  have hnq : ∀ x ∈ c :: rest.takeWhile isDigit, x ≠ '"' := by
    intro x hx
    rintro rfl
    exact absurd (hall _ hx) (by decide)
  have hpost := head?_dropWhile_false isDigit rest
  have hv : natOfDigits (c :: rest.takeWhile isDigit) < float64Overflow := by
    refine hp.numbers _ ⟨[], outsideStrings false (rest.dropWhile isDigit), ?_⟩ hall
    rw [List.nil_append, ← outsideStrings_append _ _ hnq, ← hsplit]
  have plain : (∀ s : Scanner, s.source.drop s.cursor = rest.dropWhile isDigit →
      Scanner.digitLoop (0 + 1) s = .ok s) → Advances sc (c :: rest) := by
    intro hstop
    rw [hsplit] at hsrc
    exact Advances.of_token hsplit hp (List.cons_ne_nil _ _)
      (StepOver_number_plain hsrc hc hd hstop hv) rfl hnq
  cases hpd : rest.dropWhile isDigit with
  | nil =>
    left
    exact plain (fun s hs => digitLoop_stop_end (hpd ▸ hs))
  | cons y r =>
    have hy : isDigit y = false := hpost y (by rw [hpd]; rfl)
    by_cases hdot : y = '.'
    · subst hdot
      cases r with
      | nil =>
        right
        rw [hsplit, hpd] at hsrc
        refine ⟨⟨_, scanStep_number_panic hsrc hc hd⟩, ?_⟩
        rw [hsplit, hpd]
        exact List.getLast?_concat _
      | cons x r' =>
        by_cases hx : isDigit x = true
        · left
          have h₂ : ∀ z ∈ x :: r'.takeWhile isDigit, isDigit z = true := by
            intro z hz
            rcases List.mem_cons.1 hz with rfl | hz
            · exact hx
            · exact List.mem_takeWhile_imp hz
          have htext : c :: rest = (c :: rest.takeWhile isDigit ++ '.' ::
              (x :: r'.takeWhile isDigit)) ++ r'.dropWhile isDigit := by
            rw [hsplit, hpd]
            simp [List.takeWhile_append_dropWhile]
          have hsrc' := hsrc
          rw [htext] at hsrc'
          have hstep := scanStep_number_fraction 0 sc c (rest.takeWhile isDigit)
            (x :: r'.takeWhile isDigit) (r'.dropWhile isDigit) hsrc' hc hd h₂
            (List.cons_ne_nil _ _) (head?_dropWhile_false isDigit r')
          rw [if_neg (Nat.not_le.2 hv)] at hstep
          refine Advances.of_token htext hp (by simp) (StepOver.of_step _ sc.line hstep) rfl ?_
          intro z hz
          rintro rfl
          rcases List.mem_append.1 hz with hz | hz
          · exact absurd (hall _ hz) (by decide)
          · rcases List.mem_cons.1 hz with hz | hz
            · cases hz
            · exact absurd (h₂ _ hz) (by decide)
        · left
          have hx' : isDigit x = false := by simpa using hx
          exact plain (fun s hs => digitLoop_stop_dot (hpd ▸ hs) hx')
    · left
      exact plain (fun s hs => digitLoop_stop_other (hpd ▸ hs) hy hdot)

/-- What an iteration of the loop of `Scan` does at the beginning of a text
that is plain outside its string literals: it moves over whitespace or over
the lexeme of the token it appends, or the text ends with a dot and the
iteration panics. -/
theorem plain_step {sc : Scanner} {c : Char} {rest : List Char}
    (hsrc : sc.source.drop sc.cursor = c :: rest)
    (hp : Plain (outsideStrings false (c :: rest))) :
    Advances sc (c :: rest) ∨
      ((∃ n, Scanner.scanStep n sc = .error .indexOutOfRange) ∧
        (c :: rest).getLast? = some '.') := by
  have hmem : c ∈ outsideStrings false (c :: rest) := by
    rw [outsideStrings]
    exact List.mem_cons_self _ _
  rcases hp.chars c hmem with hc | hc | rfl | hc | hc
  · left
    have hnq : ∀ x ∈ [c], x ≠ '"' := by
      intro x hx
      rw [List.mem_singleton.1 hx]
      rintro rfl
      exact absurd hc (by decide)
    have hp' := hp
    rw [show c :: rest = [c] ++ rest from rfl, outsideStrings_append [c] rest hnq] at hp'
    exact ⟨[c], rest, [], rfl, by simp, StepOver_whitespace hsrc hc,
      hp'.drop (count_quote_zero hnq), fun toks h => Tiled.space c rest toks hc h⟩
  · exact Or.inl (plain_step_operator hsrc hp hc)
  · exact Or.inl (plain_step_string hsrc hp)
  · exact Or.inl (plain_step_identifier hsrc hp hc)
  · exact plain_step_number hsrc hp hc

/-- On a text that is plain outside its string literals every run of the loop
of `Scan` that returns has appended tokens whose lexemes, with whitespace
between them, make up the text, and then the `EOF` token. -/
theorem scanLoop_tiled : ∀ (fuel : Nat) (sc s1 : Scanner) (text : List Char),
    sc.source.drop sc.cursor = text → sc.cursor ≤ sc.source.length →
    Plain (outsideStrings false text) →
    Scanner.scanLoop fuel sc = .ok s1 →
    ∃ mid, s1.tokens = sc.tokens ++ mid ++
        [{ tokenType := EOF, lexeme := [], literal := .str [], line := s1.line }] ∧
      Tiled text mid
  | 0, _, _, _, _, _, _, h => by simp [Scanner.scanLoop] at h
  | fuel + 1, sc, s1, [], hsrc, hle, _, h => by
    have hc : sc.cursor = sc.source.length := by
      have := List.drop_eq_nil_iff.1 hsrc
      omega
    rw [scanLoop_none hc] at h
    cases h
    exact ⟨[], by simp, Tiled.nil⟩
  | fuel + 1, sc, s1, c :: rest, hsrc, hle, hp, h => by
    rcases plain_step hsrc hp with ⟨L, text', new, htext, hne, ⟨n, s', hstep, hs, hcur, htok⟩,
      hp', htiled⟩ | ⟨⟨n, hpanic⟩, -⟩
    · obtain ⟨f, hf, hloop⟩ := scanLoop_after_step hstep h
      cases hf
      have hsrc' : s'.source.drop s'.cursor = text' := by
        rw [hs, hcur, ← List.drop_drop, hsrc, htext]
        exact List.drop_left _ _
      have hle' : s'.cursor ≤ s'.source.length := by
        rw [htext] at hsrc
        have := (slice_of_drop hsrc hne).2
        rw [hs, hcur]
        exact this
      obtain ⟨mid, hmid, ht⟩ := scanLoop_tiled fuel s' s1 text' hsrc' hle' hp' hloop
      refine ⟨new ++ mid, ?_, htiled mid ht⟩
      rw [hmid, htok]
      simp only [List.append_assoc]
    · exact absurd h (scanLoop_of_panic hpanic _ _)

theorem scanLoop_fuel {n : Nat} {sc s : Scanner}
    (h : Scanner.scanLoop n sc = .ok s) : ∀ k, Scanner.scanLoop (n + k) sc = .ok s
  | 0 => h
  | k + 1 => by
    have ih := scanLoop_fuel h k
    have := scanLoop_stable (n + k) sc (by rw [ih]; simp)
    rw [← Nat.add_assoc, this, ih]

/-- On a text that is plain outside its string literals and does not end with
a dot, the loop of `Scan` returns when it is given enough fuel. -/
theorem scanLoop_returns : ∀ (m : Nat) (sc : Scanner) (text : List Char),
    text.length ≤ m → sc.source.drop sc.cursor = text → sc.cursor ≤ sc.source.length →
    Plain (outsideStrings false text) → text.getLast? ≠ some '.' →
    ∃ fuel s1, Scanner.scanLoop fuel sc = .ok s1
  | _, sc, [], _, hsrc, hle, _, _ => by
    have hc : sc.cursor = sc.source.length := by
      have := List.drop_eq_nil_iff.1 hsrc
      omega
    exact ⟨0 + 1, _, scanLoop_none hc⟩
  | 0, _, c :: rest, hm, _, _, _, _ => by simp at hm
  | m + 1, sc, c :: rest, hm, hsrc, hle, hp, hlast => by
    rcases plain_step hsrc hp with ⟨L, text', new, htext, hne, ⟨n, s', hstep, hs, hcur, -⟩,
      hp', -⟩ | ⟨-, hdot⟩
    · have hsrc' : s'.source.drop s'.cursor = text' := by
        rw [hs, hcur, ← List.drop_drop, hsrc, htext]
        exact List.drop_left _ _
      have hle' : s'.cursor ≤ s'.source.length := by
        rw [htext] at hsrc
        have := (slice_of_drop hsrc hne).2
        rw [hs, hcur]
        exact this
      have hlen : text'.length ≤ m := by
        have h1 : (c :: rest).length = L.length + text'.length := by
          rw [htext, List.length_append]
        have h2 : 0 < L.length := List.length_pos.2 hne
        omega
      have hlast' : text'.getLast? ≠ some '.' := by
        intro h
        apply hlast
        rw [htext]
        cases text' with
        | nil => cases h
        | cons a b => rw [List.getLast?_append_cons]; exact h
      obtain ⟨f, s1, hloop⟩ := scanLoop_returns m s' text' hlen hsrc' hle' hp' hlast'
      refine ⟨(n + f) + 1, s1, ?_⟩
      rw [Scanner.scanLoop, scanStep_fuel hstep f]
      have := scanLoop_fuel hloop n
      rw [Nat.add_comm] at this
      exact this
    · exact absurd hdot hlast

theorem scanSource_tiled {fuel : Nat} {source : List Char} {toks : List Token}
    {errs : List GoError} (hp : Plain (outsideStrings false source))
    (h : scanSource fuel source = .ok (toks, errs)) :
    ∃ mid eof, toks = mid ++ [eof] ∧ eof.tokenType = EOF ∧ eof.lexeme = [] ∧
      Tiled source mid := by
  rw [scanSource_eq] at h
  cases hl : Scanner.scanLoop fuel (NewScanner source) with
  | error e => simp [hl, Except.map] at h
  | ok s1 =>
    obtain ⟨mid, hmid, ht⟩ := scanLoop_tiled fuel (NewScanner source) s1 source rfl
      (Nat.zero_le _) hp hl
    rw [hl] at h
    cases h
    exact ⟨mid, _, by rw [hmid]; rfl, rfl, rfl, ht⟩

theorem scanSource_returns {source : List Char} (hp : Plain (outsideStrings false source))
    (hlast : source.getLast? ≠ some '.') :
    ∃ fuel toks errs, scanSource fuel source = .ok (toks, errs) := by
  obtain ⟨fuel, s1, h⟩ := scanLoop_returns source.length (NewScanner source) source
    (Nat.le_refl _) rfl (Nat.zero_le _) hp hlast
  exact ⟨fuel, s1.tokens, s1.Errors, by rw [scanSource_eq, h]; rfl⟩

theorem lexemeChars_append_empty (mid : List Token) (eof : Token) (h : eof.lexeme = []) :
    lexemeChars (mid ++ [eof]) = lexemeChars mid ∧
      lexemeSpaces (mid ++ [eof]) = lexemeSpaces mid := by
  simp [lexemeChars, lexemeSpaces, h]

theorem isDigit_value {c : Char} (h : isDigit c = true) : c.toNat - '0'.toNat ≤ 9 := by
  simp only [isDigit, Bool.and_eq_true, decide_eq_true_eq] at h
  have h2 : c.toNat ≤ 57 := h.2
  have h3 : '0'.toNat = 48 := rfl
  omega

theorem foldl_digits_lt : ∀ (d : List Char) (a : Nat), (∀ c ∈ d, isDigit c = true) →
    d.foldl (fun n c => 10 * n + (c.toNat - '0'.toNat)) a + 1 ≤ (a + 1) * 10 ^ d.length
  | [], a, _ => by simp
  | c :: d, a, h => by
    have hc := isDigit_value (h c (List.mem_cons_self _ _))
    have ih := foldl_digits_lt d (10 * a + (c.toNat - '0'.toNat))
      (fun x hx => h x (List.mem_cons_of_mem _ hx))
    rw [List.foldl_cons, List.length_cons, Nat.pow_succ]
    calc _ ≤ (10 * a + (c.toNat - '0'.toNat) + 1) * 10 ^ d.length := ih
      _ ≤ ((a + 1) * 10) * 10 ^ d.length := Nat.mul_le_mul_right _ (by omega)
      _ = (a + 1) * (10 ^ d.length * 10) := by ring

theorem natOfDigits_lt {d : List Char} (h : ∀ c ∈ d, isDigit c = true) :
    natOfDigits d < 10 ^ d.length := by
  have := foldl_digits_lt d 0 h
  simp only [Nat.zero_add, Nat.one_mul] at this
  exact this

set_option exponentiation.threshold 2000 in
theorem float64Overflow_ge_pow : 10 ^ 308 ≤ float64Overflow := by
  unfold float64Overflow
  norm_num

set_option exponentiation.threshold 2000 in
/-- A source of at most 308 characters has no run of digits whose value
reaches `float64Overflow`. -/
theorem numbers_of_length {source : List Char} (hlen : source.length ≤ 308) (d : List Char)
    (hd : d <:+: source) (hall : ∀ c ∈ d, isDigit c = true) :
    natOfDigits d < float64Overflow :=
  calc natOfDigits d < 10 ^ d.length := natOfDigits_lt hall
    _ ≤ 10 ^ 308 := Nat.pow_le_pow_right (by decide) (Nat.le_trans hd.length_le hlen)
    _ ≤ float64Overflow := float64Overflow_ge_pow

/-! ## The keyword table against the specification -/

theorem lookup_cons_eq (w k : List Char) (v : Nat) (es : List (List Char × Nat)) :
    List.lookup w ((k, v) :: es) = if w = k then some v else List.lookup w es := by
  by_cases h : w = k
  · subst h
    simp [List.lookup]
  · have : (w == k) = false := by simpa using h
    simp [List.lookup, this, h]

theorem lookup_keywordTable (w : List Char) :
    List.lookup w keywordTable = specKeywordKind w := by
  unfold keywordTable specKeywordKind
  simp only [lookup_cons_eq, List.lookup_nil]

/-! ## Numbers in and out of range, and runs that do not return -/

theorem scanStep_number_plain (sc : Scanner) (c : Char) (d post : List Char)
    (hsrc : sc.source.drop sc.cursor = (c :: d) ++ post) (hc : isDigit c = true)
    (hd : ∀ x ∈ d, isDigit x = true)
    (hstop : ∀ s : Scanner, s.source.drop s.cursor = post →
      Scanner.digitLoop (0 + 1) s = .ok s) :
    Scanner.scanStep (0 + 1 + d.length) sc =
      .ok (false,
        { sc with
          start := sc.cursor
          cursor := sc.cursor + (c :: d).length
          tokens := sc.tokens ++
            if float64Overflow ≤ natOfDigits (c :: d) then []
            else [{ tokenType := NUMBER, lexeme := c :: d, literal := .num (c :: d),
                    line := sc.line }] }) := by
  have hget : sc.source[sc.cursor]? = some c := getElem?_of_drop hsrc
  have hd1 : sc.source.drop (sc.cursor + 1) = d ++ post := drop_succ_of_drop hsrc
  have hd2 : List.drop (sc.cursor + 1 + d.length) sc.source = post := by
    rw [← List.drop_drop, hd1]
    exact List.drop_left _ _
  have hall : ∀ y ∈ c :: d, isDigit y = true := by
    intro y hy
    rcases List.mem_cons.1 hy with rfl | hy
    · exact hc
    · exact hd y hy
  obtain ⟨hsl, hle⟩ := slice_of_drop hsrc (List.cons_ne_nil c d)
  have hcur : sc.cursor + 1 + d.length = sc.cursor + (c :: d).length := by
    simp only [List.length_cons]; omega
  have hadd := @addToken_over sc (c :: d) post hsrc (List.cons_ne_nil c d) NUMBER
    (.num (c :: d)) sc.line
  rw [scanStep_some hget, scanSwitch_digit hc, Scanner.digit,
    digitLoop_run_over d post (0 + 1) _ hd1 hd, hstop _ hd2]
  simp only [bind, Except.bind, hcur, hsl, ParseFloat_digits (List.cons_ne_nil c d) hall]
  by_cases hov : float64Overflow ≤ natOfDigits (c :: d)
  · simp only [if_pos hov, List.append_nil]
    rfl
  · simp only [if_neg hov]
    rw [hadd]
    rfl

/-- The outer loop of `digit` stops where the number grammar does not go on:
at the end of the source, at a character that is neither a digit nor a dot,
and at a dot that is followed by a character that is not a digit. -/
theorem digitLoop_stop_of {post : List Char}
    (hpost : post = [] ∨ ∃ y r, post = y :: r ∧ isDigit y = false ∧
      (y = '.' → ∃ x r', r = x :: r' ∧ isDigit x = false))
    (s : Scanner) (hs : s.source.drop s.cursor = post) :
    Scanner.digitLoop (0 + 1) s = .ok s := by
  rcases hpost with rfl | ⟨y, r, rfl, hy, hdot⟩
  · exact digitLoop_stop_end hs
  · by_cases h : y = '.'
    · obtain ⟨x, r', rfl, hx⟩ := hdot h
      subst h
      exact digitLoop_stop_dot hs hx
    · exact digitLoop_stop_other hs hy h

theorem scanLoop_not_ok_of_step {n : Nat} {sc s1 : Scanner}
    (hstep : Scanner.scanStep n sc = .ok (false, s1))
    (hnever : ∀ fuel s, Scanner.scanLoop fuel s1 ≠ .ok s) :
    ∀ fuel s, Scanner.scanLoop fuel sc ≠ .ok s := by
  intro fuel s h
  obtain ⟨f, -, hl⟩ := scanLoop_after_step hstep h
  exact hnever f s hl

theorem StepOver.unread {sc : Scanner} {L rest : List Char} {new : List Token}
    (hsrc : sc.source.drop sc.cursor = L ++ rest) (h : StepOver sc L new) :
    ∃ n s1, Scanner.scanStep n sc = .ok (false, s1) ∧ s1.source.drop s1.cursor = rest := by
  obtain ⟨n, s1, hstep, hs, hcur, -⟩ := h
  refine ⟨n, s1, hstep, ?_⟩
  rw [hs, hcur, ← List.drop_drop, hsrc]
  exact List.drop_left _ _

/-- The loop of `Scan` with the cursor at `//` and no newline after it never
returns: it is out of fuel with every fuel. -/
theorem scanLoop_line_comment {sc : Scanner} {s : List Char}
    (hsrc : sc.source.drop sc.cursor = '/' :: '/' :: s) (hs : '\n' ∉ s) :
    ∀ fuel, Scanner.scanLoop fuel sc = .error .outOfFuel
  | 0 => rfl
  | fuel + 1 => by
    have hget := getElem?_of_drop hsrc
    have hd1 := drop_succ_of_drop hsrc
    have hget1 : sc.source[sc.cursor + 1]? = some '/' := getElem?_of_drop hd1
    have hd2 : sc.source.drop (sc.cursor + 1 + 1) = s := drop_succ_of_drop hd1
    rw [Scanner.scanLoop, scanStep_some hget, scanSwitch_slash, matchAdvance_eq, if_pos hget1]
    simp only [bind, Except.bind]
    rw [comment_no_newline s fuel _ hd2 hs]
    rfl

/-- The method `Scan` on the word `x`, a space and a line comment that no
newline ends never returns. -/
theorem scanSource_word_then_comment (s : List Char) (hs : '\n' ∉ s) (fuel : Nat)
    (r : List Token × List GoError) :
    scanSource fuel ('x' :: ' ' :: '/' :: '/' :: s) ≠ .ok r := by
  intro h
  rw [scanSource_eq] at h
  cases hl : Scanner.scanLoop fuel (NewScanner ('x' :: ' ' :: '/' :: '/' :: s)) with
  | error e => simp [hl, Except.map] at h
  | ok s3 =>
    have h0 : (NewScanner ('x' :: ' ' :: '/' :: '/' :: s)).source.drop
        (NewScanner ('x' :: ' ' :: '/' :: '/' :: s)).cursor
        = ('x' :: []) ++ (' ' :: '/' :: '/' :: s) := rfl
    obtain ⟨t, -, hstep⟩ := StepOver_identifier h0 (by decide) (by simp) (by simp; decide)
    obtain ⟨n₁, s1, hs1, hd1⟩ := hstep.unread h0
    have h1 : s1.source.drop s1.cursor = [' '] ++ ('/' :: '/' :: s) := hd1
    obtain ⟨n₂, s2, hs2, hd2⟩ := (StepOver_whitespace hd1 (by decide)).unread h1
    refine scanLoop_not_ok_of_step hs1 (scanLoop_not_ok_of_step hs2 ?_) fuel s3 hl
    intro f s' h'
    rw [scanLoop_line_comment hd2 hs f] at h'
    cases h'

/-- The method `Scan` on the source `print 1.` never returns: the iteration at
the number panics. -/
theorem scanSource_print_number_dot (fuel : Nat) (r : List Token × List GoError) :
    scanSource fuel "print 1.".toList ≠ .ok r := by
  intro h
  rw [scanSource_eq] at h
  cases hl : Scanner.scanLoop fuel (NewScanner "print 1.".toList) with
  | error e =>
    rw [hl] at h
    cases h
  | ok s3 =>
    have h0 : (NewScanner "print 1.".toList).source.drop (NewScanner "print 1.".toList).cursor
        = "print".toList ++ " 1.".toList := rfl
    obtain ⟨t, -, hstep⟩ := StepOver_identifier (c := 'p') (w := "rint".toList) h0 (by decide)
      (by decide) (by simp; decide)
    obtain ⟨n₁, s1, hs1, hd1⟩ := hstep.unread h0
    have h1 : s1.source.drop s1.cursor = [' '] ++ "1.".toList := hd1
    obtain ⟨n₂, s2, hs2, hd2⟩ := (StepOver_whitespace hd1 (by decide)).unread h1
    have hp := @scanStep_number_panic s2 '1' [] hd2 (by decide) (by simp)
    exact scanLoop_not_ok_of_step hs1 (scanLoop_not_ok_of_step hs2
      (fun f s' => scanLoop_of_panic hp f s')) fuel s3 hl

/-- Whenever `Scan` on a fresh Scanner returns, the token sequence it returns
ends with an `EOF` token whose lexeme is empty, and no token before that one
has the kind `EOF`. -/
theorem tokens_end_with_the_only_EOF (source : List Char) (fuel : Nat)
    (toks : List Token) (errs : List GoError)
    (h : scanSource fuel source = .ok (toks, errs)) :
    ∃ init line, toks = init ++ [{ tokenType := EOF, lexeme := [], literal := .str [],
                                   line := line }] ∧
      ∀ t ∈ init, t.tokenType ≠ EOF := by
  obtain ⟨-, mid, hmid, htoks⟩ := scanSource_spec h
  exact ⟨mid, _, htoks, hmid.not_EOF⟩

/-! ## The claims -/

/-- C1 (the code breaks it): on a source that is a line comment `//` followed
by a text `s` without a newline, `Scan` does not terminate: with any fuel the
run is still in the loop of `comment`, which drops the error of `advance` and
waits for a newline that never comes. -/
theorem C1_unterminated_comment_never_returns (s : List Char) (hs : '\n' ∉ s) :
    ∀ fuel, scanSource fuel ('/' :: '/' :: s) = .error .outOfFuel := by
  intro fuel
  rw [scanSource_eq]
  cases fuel with
  | zero => rfl
  | succ f =>
    rw [scanLoop_fresh, scanSwitch_slash, matchAdvance_eq]
    simp only [List.getElem?_cons_succ, List.getElem?_cons_zero, if_true, bind, Except.bind]
    rw [comment_no_newline s f _ (by simp) hs]
    rfl

/-- C1, at the source `//`. -/
theorem C1_unterminated_comment_witness :
    '\n' ∉ ([] : List Char) ∧ ∀ fuel, scanSource fuel "//".toList = .error .outOfFuel :=
  ⟨by simp, C1_unterminated_comment_never_returns [] (by simp)⟩

/-- C2 (the code breaks it): on a source that is a non-empty run of digits `d`
followed by a dot that ends the source, `Scan` panics with an index out of
range: `digit` calls `peekNext` at the dot, and `peekNext` reads
`source[cursor+1]` after checking only that `cursor` is inside the source. -/
theorem C2_number_then_final_dot_panics (d : List Char) (hne : d ≠ [])
    (hd : ∀ c ∈ d, isDigit c = true) :
    ∀ fuel, scanSource (fuel + d.length + 1) (d ++ ['.']) = .error .indexOutOfRange := by
  intro fuel
  obtain ⟨c, d', rfl⟩ := List.exists_cons_of_ne_nil hne
  have hc : isDigit c = true := hd c (List.mem_cons_self _ _)
  have hd' : ∀ x ∈ d', isDigit x = true := fun x hx => hd x (List.mem_cons_of_mem _ hx)
  have e : fuel + (c :: d').length + 1 = (fuel + 1 + d'.length) + 1 := by
    simp only [List.length_cons]; omega
  rw [scanSource_eq, e, List.cons_append, scanLoop_fresh, scanSwitch_digit hc,
    Scanner.digit, digitLoop_run_over d' ['.'] (fuel + 1) _ (by simp) hd', digitLoop_panic_dot]
  · rfl
  · simp [Nat.add_comm 1]

/-- C2, at the source `1.`. -/
theorem C2_number_then_final_dot_witness :
    ['1'] ≠ [] ∧ (∀ c ∈ ['1'], isDigit c = true) ∧
      ∀ fuel, scanSource (fuel + 2) "1.".toList = .error .indexOutOfRange :=
  ⟨by simp, by decide, C2_number_then_final_dot_panics ['1'] (by simp) (by decide)⟩

/-- C3 (the code breaks it): on the source made of the word `x`, a space and a
line comment `//` that no newline ends, and on the source `print 1.`, `Scan`
returns no token sequence with any fuel, so no `EOF` token is produced: the
first run stays in the loop of `comment` for ever, the second panics in
`peekNext`. -/
theorem C3_no_EOF_when_Scan_does_not_return (s : List Char) (hs : '\n' ∉ s) :
    (∀ fuel toks errs, scanSource fuel ('x' :: ' ' :: '/' :: '/' :: s) ≠ .ok (toks, errs)) ∧
    (∀ fuel toks errs, scanSource fuel "print 1.".toList ≠ .ok (toks, errs)) :=
  ⟨fun fuel toks errs => scanSource_word_then_comment s hs fuel (toks, errs),
   fun fuel toks errs => scanSource_print_number_dot fuel (toks, errs)⟩

/-- C3, at the source `x // note`; with the fuel 50 the outcomes are "out of
fuel" and "index out of range". -/
theorem C3_no_EOF_witness :
    '\n' ∉ " note".toList ∧
    ((∀ fuel toks errs, scanSource fuel "x // note".toList ≠ .ok (toks, errs)) ∧
      (∀ fuel toks errs, scanSource fuel "print 1.".toList ≠ .ok (toks, errs))) ∧
    scanSource 50 "x // note".toList = .error .outOfFuel ∧
    scanSource 50 "print 1.".toList = .error .indexOutOfRange :=
  ⟨by decide, C3_no_EOF_when_Scan_does_not_return " note".toList (by decide), rfl, rfl⟩

/-- C4 (the code breaks it): on a source that is a double quote followed by a
text `s` without a double quote, `Scan` returns the token list that holds only
`EOF`, as the claim says, but its error list is empty: `consumeString` returns
`errUnterminatedString` and `Scan` drops that result instead of recording it. -/
theorem C4_unterminated_string_records_no_error (s : List Char) (hs : '"' ∉ s) :
    ∀ fuel, scanSource (fuel + s.length + 2) ('"' :: s) =
      .ok ([{ tokenType := EOF, lexeme := [], literal := .str [],
              line := 1 + s.count '\n' }], []) := by
  intro fuel
  have e : fuel + s.length + 2 = (fuel + s.length + 1) + 1 := by omega
  rw [scanSource_eq, e, scanLoop_fresh, scanSwitch_quote,
    consumeString_unterminated s (fuel + s.length + 1) _ (by simp) hs (by omega)]
  have hlen : 1 + s.length = ('"' :: s).length := by simp [Nat.add_comm]
  simp only [Except.map, bind, Except.bind, hlen]
  rw [scanLoop_atEnd]
  rfl

/-- C4, at the source `"abc`. -/
theorem C4_unterminated_string_witness :
    '"' ∉ "abc".toList ∧ ∀ fuel, scanSource (fuel + 3 + 2) "\"abc".toList =
      .ok ([{ tokenType := EOF, lexeme := [], literal := .str [], line := 1 }], []) :=
  ⟨by decide, C4_unterminated_string_records_no_error "abc".toList (by decide)⟩

/-- C5: on a source that is a text `s` without a double quote between two
double quotes, `Scan` returns two tokens and no error: a `STRING` token whose
lexeme is the whole source, whose literal is `s` unchanged and whose line is the
line of the closing quote, then `EOF`. -/
theorem C5_string_literal (s : List Char) (hs : '"' ∉ s) :
    ∀ fuel, scanSource (fuel + s.length + 2) ('"' :: s ++ ['"']) =
      .ok ([{ tokenType := STRING, lexeme := '"' :: s ++ ['"'], literal := .str s,
              line := 1 + s.count '\n' },
            { tokenType := EOF, lexeme := [], literal := .str [],
              line := 1 + s.count '\n' }], []) := by
  intro fuel
  have e : fuel + s.length + 2 = (fuel + s.length + 1) + 1 := by omega
  rw [scanSource_eq, e, List.cons_append, scanLoop_fresh, scanSwitch_quote,
    consumeString_closed s [] (fuel + s.length + 1) _ (by simp) hs (by omega)]
  have h₁ : slice ('"' :: (s ++ ['"'])) (0 + 1) (1 + s.length) = .ok s := by
    have := slice_append ['"'] s ['"']
    simpa [Nat.add_comm] using this
  have hlen : 1 + s.length + 1 = ('"' :: (s ++ ['"'])).length := by simp [Nat.add_comm]
  simp only [h₁, bind, Except.bind, addToken_eq, hlen]
  simp only [Nat.zero_le, Nat.le_refl, and_self, if_true, pure, Except.pure, Except.map]
  rw [scanLoop_atEnd]
  simp

/-- C5, at the source `"a` newline `b"`, a string over two lines. -/
theorem C5_string_literal_witness :
    '"' ∉ "a\nb".toList ∧ ∀ fuel, scanSource (fuel + 3 + 2) "\"a\nb\"".toList =
      .ok ([{ tokenType := STRING, lexeme := "\"a\nb\"".toList, literal := .str "a\nb".toList,
              line := 2 },
            { tokenType := EOF, lexeme := [], literal := .str [], line := 2 }], []) :=
  ⟨by decide, C5_string_literal "a\nb".toList (by decide)⟩

/-- C6 as stated fails: on the source made of a double quote, a newline and a
double quote, `Scan` returns a `STRING` token with line 2, although the only
place where its lexeme occurs in the source is offset 0, on line 1. -/
theorem C6_multiline_string_counterexample :
    ∃ toks errs, scanSource 3 "\"\n\"".toList = .ok (toks, errs) ∧
      ∃ t ∈ toks, t.tokenType = STRING ∧
        ∀ i, ("\"\n\"".toList.drop i).take t.lexeme.length = t.lexeme →
          t.line ≠ 1 + ("\"\n\"".toList.take i).count '\n' := by
  refine ⟨[⟨STRING, "\"\n\"".toList, .str ['\n'], 2⟩, ⟨EOF, [], .str [], 2⟩], [], rfl,
    ⟨STRING, "\"\n\"".toList, .str ['\n'], 2⟩, by simp, rfl, ?_⟩
  intro i hi
  cases i with
  | zero => decide
  | succ n =>
    have := congrArg List.length hi
    simp at this
    omega

/-- C6, amended: whenever `Scan` on a fresh Scanner returns, its tokens can be
paired, in order, with ranges `[i, j)` of the source that follow one another,
so that each token's lexeme is the text of its range and its line is one plus
the number of newlines before `j`, the end of the lexeme.  For a token whose
lexeme holds no newline this is the line on which the token starts. -/
theorem C6_token_line_is_line_at_lexeme_end (source : List Char) (fuel : Nat)
    (toks : List Token) (errs : List GoError)
    (h : scanSource fuel source = .ok (toks, errs)) :
    ∃ spans : List (Nat × Nat),
      List.Forall₂ (fun (t : Token) (ij : Nat × Nat) =>
        ij.1 ≤ ij.2 ∧ ij.2 ≤ source.length ∧
        t.lexeme = (source.drop ij.1).take (ij.2 - ij.1) ∧
        t.line = 1 + (source.take ij.2).count '\n' ∧
        ('\n' ∉ t.lexeme → t.line = 1 + (source.take ij.1).count '\n')) toks spans ∧
      spans.Chain' (fun a b => a.2 ≤ b.1) := by
  obtain ⟨-, mid, hmid, htoks⟩ := scanSource_spec h
  obtain ⟨spans, hf, hc, -⟩ := hmid.spans (Nat.zero_le _)
  rw [htoks]
  exact ⟨spans, hf, hc⟩

/-- C6 amended, at the source `(`, newline, `"a`, newline, `b"`. -/
theorem C6_token_line_witness :
    scanSource 8 "(\n\"a\nb\"".toList = .ok ([⟨LEFT_PAREN, ['('], .str [], 1⟩,
        ⟨STRING, "\"a\nb\"".toList, .str "a\nb".toList, 3⟩, ⟨EOF, [], .str [], 3⟩], []) ∧
    ∃ spans : List (Nat × Nat),
      List.Forall₂ (fun (t : Token) (ij : Nat × Nat) =>
        ij.1 ≤ ij.2 ∧ ij.2 ≤ "(\n\"a\nb\"".toList.length ∧
        t.lexeme = ("(\n\"a\nb\"".toList.drop ij.1).take (ij.2 - ij.1) ∧
        t.line = 1 + ("(\n\"a\nb\"".toList.take ij.2).count '\n' ∧
        ('\n' ∉ t.lexeme → t.line = 1 + ("(\n\"a\nb\"".toList.take ij.1).count '\n'))
        [⟨LEFT_PAREN, ['('], .str [], 1⟩,
          ⟨STRING, "\"a\nb\"".toList, .str "a\nb".toList, 3⟩, ⟨EOF, [], .str [], 3⟩] spans ∧
      spans.Chain' (fun a b => a.2 ≤ b.1) :=
  ⟨rfl, C6_token_line_is_line_at_lexeme_end "(\n\"a\nb\"".toList 8 _ [] rfl⟩

/-- C7 (the code breaks it): the `switch` of `Scan` has no case for the comma,
so on the source `,` no `COMMA` token is emitted: `Scan` returns the token list
that holds only `EOF`, and on `(,)` it returns `LEFT_PAREN`, `RIGHT_PAREN`, `EOF`. -/
theorem C7_comma_emits_no_token :
    (∀ fuel, scanSource (2 + fuel) ",".toList =
      .ok ([{ tokenType := EOF, lexeme := [], literal := .str [], line := 1 }], [])) ∧
    (∀ fuel, scanSource (4 + fuel) "(,)".toList =
      .ok ([⟨LEFT_PAREN, ['('], .str [], 1⟩, ⟨RIGHT_PAREN, [')'], .str [], 1⟩,
            ⟨EOF, [], .str [], 1⟩], [])) :=
  ⟨scanSource_fuel _ 2 _ rfl (by simp), scanSource_fuel _ 4 _ rfl (by simp)⟩

/-- C8: when the source begins with one of `!`, `=`, `<`, `>` followed by `=`,
the first iteration of the loop of `Scan` consumes both characters and appends
the two-character token; every token list `Scan` returns for such a source
begins with that token; and on `a != b` `Scan` returns `IDENTIFIER a`,
`BANG_EQUAL !=`, `IDENTIFIER b`, `EOF`. -/
theorem C8_two_character_operator (c : Char) (k : Nat) (rest : List Char)
    (hck : (c, k) ∈ [('!', BANG_EQUAL), ('=', EQUAL_EQUAL), ('<', LESS_EQUAL),
      ('>', GREATER_EQUAL)]) :
    (∀ fuel, Scanner.scanStep fuel (NewScanner (c :: '=' :: rest)) =
      .ok (false, { source := c :: '=' :: rest, line := 1, start := 0, cursor := 2,
                    tokens := [{ tokenType := k, lexeme := [c, '='], literal := .str [],
                                 line := 1 }],
                    Errors := [] })) ∧
    (∀ fuel toks errs, scanSource fuel (c :: '=' :: rest) = .ok (toks, errs) →
      toks.head? = some { tokenType := k, lexeme := [c, '='], literal := .str [], line := 1 }) ∧
    (∀ fuel, scanSource (7 + fuel) "a != b".toList =
      .ok ([⟨IDENTIFIER, ['a'], .str ['a'], 1⟩, ⟨BANG_EQUAL, ['!', '='], .str [], 1⟩,
            ⟨IDENTIFIER, ['b'], .str ['b'], 1⟩, ⟨EOF, [], .str [], 1⟩], [])) := by
  have hstep : ∀ fuel, Scanner.scanStep fuel (NewScanner (c :: '=' :: rest)) =
      .ok (false, { source := c :: '=' :: rest, line := 1, start := 0, cursor := 2,
                    tokens := [{ tokenType := k, lexeme := [c, '='], literal := .str [],
                                 line := 1 }],
                    Errors := [] }) := by
    intro fuel
    simp only [List.mem_cons, Prod.mk.injEq, List.mem_singleton, List.not_mem_nil, or_false] at hck
    rcases hck with ⟨rfl, rfl⟩ | ⟨rfl, rfl⟩ | ⟨rfl, rfl⟩ | ⟨rfl, rfl⟩
    · exact scanStep_two_char fuel '!' rest BANG_EQUAL BANG (fun _ => rfl)
    · exact scanStep_two_char fuel '=' rest EQUAL_EQUAL EQUAL (fun _ => rfl)
    · exact scanStep_two_char fuel '<' rest LESS_EQUAL LESS (fun _ => rfl)
    · exact scanStep_two_char fuel '>' rest GREATER_EQUAL GREATER (fun _ => rfl)
  refine ⟨hstep, ?_, scanSource_fuel _ 7 _ rfl (by simp)⟩
  intro fuel toks errs h
  obtain ⟨s, hl, rfl, -⟩ := scanSource_ok h
  obtain ⟨f, -, hl'⟩ := scanLoop_after_step (hstep 0) hl
  have hline := scanStep_line (hstep 0) (show (NewScanner (c :: '=' :: rest)).line = 1 + _ by simp [NewScanner])
  obtain ⟨more, hmore⟩ := scanLoop_tokens_prefix hline hl'
  rw [hmore]
  rfl

/-- C8, at the source `!= b`. -/
theorem C8_two_character_operator_witness :
    (∀ fuel, Scanner.scanStep fuel (NewScanner "!= b".toList) =
      .ok (false, { source := "!= b".toList, line := 1, start := 0, cursor := 2,
                    tokens := [{ tokenType := BANG_EQUAL, lexeme := ['!', '='],
                                 literal := .str [], line := 1 }],
                    Errors := [] })) ∧
    (∀ fuel toks errs, scanSource fuel "!= b".toList = .ok (toks, errs) →
      toks.head? = some { tokenType := BANG_EQUAL, lexeme := ['!', '='], literal := .str [],
                          line := 1 }) ∧
    (∀ fuel, scanSource (7 + fuel) "a != b".toList =
      .ok ([⟨IDENTIFIER, ['a'], .str ['a'], 1⟩, ⟨BANG_EQUAL, ['!', '='], .str [], 1⟩,
            ⟨IDENTIFIER, ['b'], .str ['b'], 1⟩, ⟨EOF, [], .str [], 1⟩], [])) :=
  C8_two_character_operator '!' BANG_EQUAL " b".toList (by simp)

/-- C9: on a source that is one word `w` of letters, digits and underscores
beginning with a letter or underscore, `Scan` returns two tokens and no error:
a token with lexeme `w`, of the keyword kind the specification names for `w`
when `w` is one of the sixteen keywords (`specKeywordKind`) and of kind
`IDENTIFIER` otherwise, then `EOF`.  (A keyword token carries the empty
literal, an identifier token carries `w` as literal.) -/
theorem C9_identifier_or_keyword (w : List Char) (hne : w ≠ [])
    (hhead : ∀ c, w.head? = some c → isAlpha c = true)
    (hall : ∀ c ∈ w, isAlphaNum c = true) :
    ∀ fuel, scanSource (fuel + w.length + 1) w =
      .ok ([match specKeywordKind w with
            | some k => { tokenType := k, lexeme := w, literal := .str [], line := 1 }
            | none => { tokenType := IDENTIFIER, lexeme := w, literal := .str w, line := 1 },
            { tokenType := EOF, lexeme := [], literal := .str [], line := 1 }], []) := by
  intro fuel
  obtain ⟨c, w', rfl⟩ := List.exists_cons_of_ne_nil hne
  have hc : isAlpha c = true := hhead c rfl
  have hw' : ∀ x ∈ w', isAlphaNum x = true := fun x hx => hall x (List.mem_cons_of_mem _ hx)
  have e : fuel + (c :: w').length + 1 = ((fuel + w'.length) + 1) + 1 := by
    simp only [List.length_cons]; omega
  have e' : fuel + w'.length + 1 = (fuel + 1) + w'.length := by omega
  rw [← lookup_keywordTable (c :: w'), scanSource_eq, e, scanLoop_fresh, scanSwitch_alpha hc,
    Scanner.identifier]
  conv_lhs => rw [e', identifierLoop_run_over w' [] (fuel + 1) _ (by simp) hw']
  rw [@identifierLoop_stop [] _ _ (by simp [Nat.add_comm 1]) (by simp)]
  have hsl : slice (c :: w') 0 (1 + w'.length) = .ok (c :: w') := by
    rw [slice_eq_ok (Nat.zero_le _) (by simp [Nat.add_comm])]
    simp [Nat.add_comm 1]
  have hlen : 1 + w'.length = (c :: w').length := by simp [Nat.add_comm]
  simp only [bind, Except.bind, hsl]
  cases hk : List.lookup (c :: w') keywordTable with
  | none =>
    simp only [keywords_of_lookup_none hk, ne_eq, not_true_eq_false, if_false, addToken_eq]
    simp only [hlen, Nat.zero_le, Nat.le_refl, and_self, if_true, ← e', scanLoop_atEnd]
    simp [Except.map]
  | some k =>
    obtain ⟨hkw, hk0⟩ := keywords_of_lookup_some hk
    simp only [hkw, ne_eq, hk0, not_false_eq_true, if_true, addToken_eq]
    simp only [hlen, Nat.zero_le, Nat.le_refl, and_self, if_true, ← e', scanLoop_atEnd]
    simp [Except.map]

/-- C9, at the sources `while` and `and` (keywords), `whilee` (an identifier
that begins with a keyword) and `While` (an identifier: the keywords are in
lower case). -/
theorem C9_identifier_or_keyword_witness :
    (∀ fuel, scanSource (fuel + 5 + 1) "while".toList =
      .ok ([{ tokenType := WHILE, lexeme := "while".toList, literal := .str [], line := 1 },
            { tokenType := EOF, lexeme := [], literal := .str [], line := 1 }], [])) ∧
    (∀ fuel, scanSource (fuel + 3 + 1) "and".toList =
      .ok ([{ tokenType := AND, lexeme := "and".toList, literal := .str [], line := 1 },
            { tokenType := EOF, lexeme := [], literal := .str [], line := 1 }], [])) ∧
    (∀ fuel, scanSource (fuel + 6 + 1) "whilee".toList =
      .ok ([{ tokenType := IDENTIFIER, lexeme := "whilee".toList,
              literal := .str "whilee".toList, line := 1 },
            { tokenType := EOF, lexeme := [], literal := .str [], line := 1 }], [])) ∧
    (∀ fuel, scanSource (fuel + 5 + 1) "While".toList =
      .ok ([{ tokenType := IDENTIFIER, lexeme := "While".toList,
              literal := .str "While".toList, line := 1 },
            { tokenType := EOF, lexeme := [], literal := .str [], line := 1 }], [])) :=
  ⟨C9_identifier_or_keyword "while".toList (by simp) (by decide) (by decide),
   C9_identifier_or_keyword "and".toList (by simp) (by decide) (by decide),
   C9_identifier_or_keyword "whilee".toList (by simp) (by decide) (by decide),
   C9_identifier_or_keyword "While".toList (by simp) (by decide) (by decide)⟩

set_option maxRecDepth 100000 in
/-- C10 as stated fails: on the source made of the digit 1, 309 zeros, a dot
and a space, the run of digits is followed by a dot and a character that is no
digit, but `Scan` emits no `NUMBER` token: `ParseFloat` reports a range error
for `10^309`, `digit` returns it without adding a token, and the tokens are
`DOT` and `EOF`. -/
theorem C10_overflowing_number_counterexample :
    scanSource 313 ('1' :: List.replicate 309 '0' ++ ['.', ' ']) =
      .ok ([{ tokenType := DOT, lexeme := ['.'], literal := .str [], line := 1 },
            { tokenType := EOF, lexeme := [], literal := .str [], line := 1 }], []) := by
  have hd : ∀ x ∈ List.replicate 309 '0', isDigit x = true := by
    intro x hx
    rw [(List.mem_replicate.1 hx).2]
    decide
  have hov : float64Overflow ≤ natOfDigits ('1' :: List.replicate 309 '0') := by
    rw [natOfDigits_one_zeros]
    exact float64Overflow_le
  exact scanSource_overflow '1' (List.replicate 309 '0') (by decide) hd hov 0

/-- C10, amended: when the source begins with a non-empty run of digits `d`
whose value is below `float64Overflow`, followed by a dot and a character `r`
that is no digit, the first iteration of the loop of `Scan` appends the
`NUMBER` token with lexeme `d`, the second appends the `DOT` token, and every
token list `Scan` returns for such a source begins with these two tokens. -/
theorem C10_number_then_dot (d : List Char) (r : Char) (rest : List Char) (hne : d ≠ [])
    (hd : ∀ c ∈ d, isDigit c = true) (hv : natOfDigits d < float64Overflow)
    (hr : isDigit r = false) :
    (∀ fuel, Scanner.scanStep (fuel + d.length) (NewScanner (d ++ '.' :: r :: rest)) =
      .ok (false, { source := d ++ '.' :: r :: rest, line := 1, start := 0, cursor := d.length,
                    tokens := [{ tokenType := NUMBER, lexeme := d, literal := .num d, line := 1 }],
                    Errors := [] })) ∧
    (∀ fuel, Scanner.scanStep fuel
        { source := d ++ '.' :: r :: rest, line := 1, start := 0, cursor := d.length,
          tokens := [{ tokenType := NUMBER, lexeme := d, literal := .num d, line := 1 }],
          Errors := [] } =
      .ok (false, { source := d ++ '.' :: r :: rest, line := 1, start := d.length,
                    cursor := d.length + 1,
                    tokens := [{ tokenType := NUMBER, lexeme := d, literal := .num d, line := 1 },
                               { tokenType := DOT, lexeme := ['.'], literal := .str [], line := 1 }],
                    Errors := [] })) ∧
    (∀ fuel toks errs, scanSource fuel (d ++ '.' :: r :: rest) = .ok (toks, errs) →
      toks.take 2 = [{ tokenType := NUMBER, lexeme := d, literal := .num d, line := 1 },
                     { tokenType := DOT, lexeme := ['.'], literal := .str [], line := 1 }]) := by
  obtain ⟨c, d', rfl⟩ := List.exists_cons_of_ne_nil hne
  have hc : isDigit c = true := hd c (List.mem_cons_self _ _)
  have hd' : ∀ x ∈ d', isDigit x = true := fun x hx => hd x (List.mem_cons_of_mem _ hx)
  have h₁ : ∀ fuel, Scanner.scanStep (fuel + (c :: d').length)
      (NewScanner (c :: d' ++ '.' :: r :: rest)) =
      .ok (false, { source := c :: d' ++ '.' :: r :: rest, line := 1, start := 0,
                    cursor := (c :: d').length,
                    tokens := [{ tokenType := NUMBER, lexeme := c :: d', literal := .num (c :: d'),
                                 line := 1 }],
                    Errors := [] }) := by
    intro fuel
    have := scanStep_digits_dot fuel c r d' rest hc hd' hr
    rwa [if_neg (Nat.not_le.2 hv)] at this
  have h₂ : ∀ fuel, Scanner.scanStep fuel
      { source := c :: d' ++ '.' :: r :: rest, line := 1, start := 0, cursor := (c :: d').length,
        tokens := [{ tokenType := NUMBER, lexeme := c :: d', literal := .num (c :: d'),
                     line := 1 }],
        Errors := [] } =
      .ok (false, { source := c :: d' ++ '.' :: r :: rest, line := 1, start := (c :: d').length,
                    cursor := (c :: d').length + 1,
                    tokens := [{ tokenType := NUMBER, lexeme := c :: d', literal := .num (c :: d'),
                                 line := 1 },
                               { tokenType := DOT, lexeme := ['.'], literal := .str [], line := 1 }],
                    Errors := [] }) := by
    intro fuel
    rw [scanStep_dot _ _ (getElem?_after (c :: d') '.' (r :: rest))]
    rfl
  refine ⟨h₁, h₂, ?_⟩
  intro fuel toks errs h
  obtain ⟨s, hl, rfl, -⟩ := scanSource_ok h
  obtain ⟨f₁, -, hl₁⟩ := scanLoop_after_step (h₁ 0) hl
  obtain ⟨f₂, -, hl₂⟩ := scanLoop_after_step (h₂ 0) hl₁
  have hline₁ := scanStep_line (h₁ 0)
    (show (NewScanner (c :: d' ++ '.' :: r :: rest)).line = 1 + _ by simp [NewScanner])
  have hline₂ := scanStep_line (h₂ 0) hline₁
  obtain ⟨more, hmore⟩ := scanLoop_tokens_prefix hline₂ hl₂
  rw [hmore]
  rfl

/-- C10 amended, at the source `123.x`. -/
theorem C10_number_then_dot_witness :
    (∀ fuel, Scanner.scanStep (fuel + 3) (NewScanner "123.x".toList) =
      .ok (false, { source := "123.x".toList, line := 1, start := 0, cursor := 3,
                    tokens := [{ tokenType := NUMBER, lexeme := "123".toList,
                                 literal := .num "123".toList, line := 1 }],
                    Errors := [] })) ∧
    (∀ fuel, Scanner.scanStep fuel
        { source := "123.x".toList, line := 1, start := 0, cursor := 3,
          tokens := [{ tokenType := NUMBER, lexeme := "123".toList,
                       literal := .num "123".toList, line := 1 }],
          Errors := [] } =
      .ok (false, { source := "123.x".toList, line := 1, start := 3, cursor := 3 + 1,
                    tokens := [{ tokenType := NUMBER, lexeme := "123".toList,
                                 literal := .num "123".toList, line := 1 },
                               { tokenType := DOT, lexeme := ['.'], literal := .str [], line := 1 }],
                    Errors := [] })) ∧
    (∀ fuel toks errs, scanSource fuel "123.x".toList = .ok (toks, errs) →
      toks.take 2 = [{ tokenType := NUMBER, lexeme := "123".toList,
                       literal := .num "123".toList, line := 1 },
                     { tokenType := DOT, lexeme := ['.'], literal := .str [], line := 1 }]) :=
  C10_number_then_dot "123".toList 'x' [] (by simp) (by decide)
    (Nat.lt_of_lt_of_le (by decide : natOfDigits "123".toList < 1000) float64Overflow_ge)
    (by decide)

/-- C11: when an iteration of the loop of `Scan` starts with the cursor at a
non-empty run of digits `d₁`, a dot, a non-empty run of digits `d₂` and then
a text `rest` that does not begin with a digit, `digit` stops with the cursor
exactly after `d₂`: the text from `start` to the cursor is `d₁.d₂`, nothing
of `rest` is consumed, and (when `ParseFloat` accepts the number) the token
appended is the `NUMBER` token with that lexeme. -/
theorem C11_number_with_fraction (sc : Scanner) (d₁ d₂ rest : List Char)
    (hsrc : sc.source.drop sc.cursor = (d₁ ++ '.' :: d₂) ++ rest)
    (hne₁ : d₁ ≠ []) (hne₂ : d₂ ≠ [])
    (h₁ : ∀ c ∈ d₁, isDigit c = true) (h₂ : ∀ c ∈ d₂, isDigit c = true)
    (hrest : ∀ c, rest.head? = some c → isDigit c = false) :
    ∀ fuel, ∃ s1, Scanner.scanStep (fuel + d₁.length + d₂.length + 1) sc = .ok (false, s1) ∧
      s1.start = sc.cursor ∧ s1.cursor = sc.cursor + (d₁ ++ '.' :: d₂).length ∧
      slice s1.source s1.start s1.cursor = .ok (d₁ ++ '.' :: d₂) ∧
      s1.source.drop s1.cursor = rest ∧
      (natOfDigits d₁ < float64Overflow →
        s1.tokens = sc.tokens ++ [{ tokenType := NUMBER, lexeme := d₁ ++ '.' :: d₂,
                                    literal := .num (d₁ ++ '.' :: d₂), line := sc.line }]) := by
  intro fuel
  obtain ⟨c, d, rfl⟩ := List.exists_cons_of_ne_nil hne₁
  have hc : isDigit c = true := h₁ c (List.mem_cons_self _ _)
  have hd : ∀ x ∈ d, isDigit x = true := fun x hx => h₁ x (List.mem_cons_of_mem _ hx)
  obtain ⟨hsl, -⟩ := slice_of_drop hsrc (by simp)
  refine ⟨_, scanStep_number_fraction fuel sc c d d₂ rest hsrc hc hd h₂ hne₂ hrest, rfl, rfl,
    hsl, ?_, ?_⟩
  · show List.drop (sc.cursor + (c :: d ++ '.' :: d₂).length) sc.source = rest
    rw [← List.drop_drop, hsrc]
    exact List.drop_left _ _
  · intro hv
    show sc.tokens ++ (if float64Overflow ≤ natOfDigits (c :: d) then [] else _) = _
    rw [if_neg (Nat.not_le.2 hv)]

/-- C11, at the source `12.50+` on a fresh Scanner. -/
theorem C11_number_with_fraction_witness :
    (NewScanner "12.50+".toList).source.drop (NewScanner "12.50+".toList).cursor
      = ("12".toList ++ '.' :: "50".toList) ++ ['+'] ∧
    ∀ fuel, ∃ s1, Scanner.scanStep (fuel + 2 + 2 + 1) (NewScanner "12.50+".toList)
        = .ok (false, s1) ∧
      s1.start = 0 ∧ s1.cursor = 0 + 5 ∧
      slice s1.source s1.start s1.cursor = .ok "12.50".toList ∧
      s1.source.drop s1.cursor = ['+'] ∧
      (natOfDigits "12".toList < float64Overflow →
        s1.tokens = [] ++ [{ tokenType := NUMBER, lexeme := "12.50".toList,
                             literal := .num "12.50".toList, line := 1 }]) :=
  ⟨rfl, C11_number_with_fraction (NewScanner "12.50+".toList) "12".toList "50".toList ['+'] rfl
    (by simp) (by simp) (by decide) (by decide) (by decide)⟩

/-- C12 as stated fails: on the source `a`, `Scan` returns an `IDENTIFIER`
token, a kind that is neither `STRING` nor `NUMBER`, whose literal is the text
`a` and not the empty value. -/
theorem C12_identifier_literal_counterexample :
    ∃ toks errs, scanSource 3 ['a'] = .ok (toks, errs) ∧
      ∃ t ∈ toks, t.tokenType = IDENTIFIER ∧ t.tokenType ≠ STRING ∧ t.tokenType ≠ NUMBER ∧
        t.literal = .str ['a'] ∧ t.literal ≠ .str [] :=
  ⟨[⟨IDENTIFIER, ['a'], .str ['a'], 1⟩, ⟨EOF, [], .str [], 1⟩], [], rfl,
    ⟨IDENTIFIER, ['a'], .str ['a'], 1⟩, by simp, rfl, by decide, by decide, rfl, by simp⟩

/-- C12, amended: whenever `Scan` on a fresh Scanner returns, every token whose
kind is none of `STRING`, `NUMBER` and `IDENTIFIER` carries the empty literal,
every `IDENTIFIER` token carries its lexeme as literal, and every `NUMBER`
token carries the number parsed from its lexeme. -/
theorem C12_literal_by_kind (source : List Char) (fuel : Nat)
    (toks : List Token) (errs : List GoError)
    (h : scanSource fuel source = .ok (toks, errs)) :
    ∀ t ∈ toks,
      (t.tokenType ≠ STRING → t.tokenType ≠ NUMBER → t.tokenType ≠ IDENTIFIER →
        t.literal = .str []) ∧
      (t.tokenType = IDENTIFIER → t.literal = .str t.lexeme) ∧
      (t.tokenType = NUMBER → t.literal = .num t.lexeme) := by
  obtain ⟨-, mid, hmid, htoks⟩ := scanSource_spec h
  intro t ht
  rw [htoks] at ht
  rcases List.mem_append.1 ht with hm | he
  · rcases hmid.litOK t hm with h₁ | ⟨h₁, h₂⟩ | ⟨h₁, h₂⟩ | ⟨h₁, h₂, h₃, h₄⟩
    · refine ⟨fun hs => absurd h₁ hs, fun hi => ?_, fun hn => ?_⟩
      · rw [h₁] at hi
        exact absurd hi (by decide)
      · rw [h₁] at hn
        exact absurd hn (by decide)
    · refine ⟨fun _ hn => absurd h₁ hn, fun hi => ?_, fun _ => h₂⟩
      rw [h₁] at hi
      exact absurd hi (by decide)
    · refine ⟨fun _ _ hi => absurd h₁ hi, fun _ => h₂, fun hn => ?_⟩
      rw [h₁] at hn
      exact absurd hn (by decide)
    · exact ⟨fun _ _ _ => h₄, fun hi => absurd hi h₃, fun hn => absurd hn h₂⟩
  · rw [List.mem_singleton.1 he]
    exact ⟨fun _ _ _ => rfl, fun hi => absurd hi (show EOF ≠ IDENTIFIER by decide),
      fun hn => absurd hn (show EOF ≠ NUMBER by decide)⟩

set_option exponentiation.threshold 2000 in
/-- C12 amended, at the source `if x = 12`. -/
theorem C12_literal_by_kind_witness :
    scanSource 9 "if x = 12".toList = .ok ([⟨IF, ['i', 'f'], .str [], 1⟩,
        ⟨IDENTIFIER, ['x'], .str ['x'], 1⟩, ⟨EQUAL, ['='], .str [], 1⟩,
        ⟨NUMBER, ['1', '2'], .num ['1', '2'], 1⟩, ⟨EOF, [], .str [], 1⟩], []) ∧
    ∀ t ∈ [⟨IF, ['i', 'f'], .str [], 1⟩,
        ⟨IDENTIFIER, ['x'], .str ['x'], 1⟩, ⟨EQUAL, ['='], .str [], 1⟩,
        ⟨NUMBER, ['1', '2'], .num ['1', '2'], 1⟩, (⟨EOF, [], .str [], 1⟩ : Token)],
      (t.tokenType ≠ STRING → t.tokenType ≠ NUMBER → t.tokenType ≠ IDENTIFIER →
        t.literal = .str []) ∧
      (t.tokenType = IDENTIFIER → t.literal = .str t.lexeme) ∧
      (t.tokenType = NUMBER → t.literal = .num t.lexeme) :=
  ⟨rfl, C12_literal_by_kind "if x = 12".toList 9 _ [] rfl⟩

/-- C13 as stated fails: the source `@` contains no comment and `Scan` returns
on it with no error, yet the only token is `EOF`, whose lexeme is empty, and
the source has no whitespace: the lexeme lengths and the whitespace outside the
lexemes add up to 0, where the source has length 1.  The `@` lies outside every
lexeme. -/
theorem C13_unknown_character_counterexample :
    scanSource 2 ['@'] =
      .ok ([{ tokenType := EOF, lexeme := [], literal := .str [], line := 1 }], []) ∧
    '/' ∉ ['@'] ∧
    lexemeChars [{ tokenType := EOF, lexeme := [], literal := .str [], line := 1 }] +
      (['@'].countP isWhitespace -
        lexemeSpaces [{ tokenType := EOF, lexeme := [], literal := .str [], line := 1 }])
      ≠ ['@'].length :=
  ⟨rfl, by decide, by decide⟩

/-- C13, amended: take a source in which, outside the string literals, every
character is whitespace, an operator or punctuation character with a case in
`Scan`, a letter, an underscore or a digit, no `//` and no `/*` occurs and no
run of digits has a value of `float64Overflow` or more, and in which every
string literal is closed (`Plain (outsideStrings false source)`; inside a
string literal any character may stand).  Whenever `Scan` returns on it, the
tokens are tokens `mid` followed by an `EOF` token with an empty lexeme, the
source is the lexemes of `mid` in order with only whitespace before, between
and after them, and the lengths of the lexemes plus the number of whitespace
characters outside the lexemes is the length of the source.  And `Scan` does
return on it when the source does not end with a dot. -/
theorem C13_plain_source_round_trip (source : List Char)
    (hp : Plain (outsideStrings false source)) :
    (∀ fuel toks errs, scanSource fuel source = .ok (toks, errs) →
      (∃ mid eof, toks = mid ++ [eof] ∧ eof.tokenType = EOF ∧ eof.lexeme = [] ∧
        Tiled source mid) ∧
      lexemeSpaces toks ≤ source.countP isWhitespace ∧
      lexemeChars toks + (source.countP isWhitespace - lexemeSpaces toks) = source.length) ∧
    (source.getLast? ≠ some '.' →
      ∃ fuel toks errs, scanSource fuel source = .ok (toks, errs)) := by
  refine ⟨fun fuel toks errs h => ?_, scanSource_returns hp⟩
  obtain ⟨mid, eof, rfl, hty, hlex, ht⟩ := scanSource_tiled hp h
  obtain ⟨h₁, h₂⟩ := ht.length_eq
  obtain ⟨e₁, e₂⟩ := lexemeChars_append_empty mid eof hlex
  refine ⟨⟨mid, eof, rfl, hty, hlex, ht⟩, ?_, ?_⟩
  · rw [e₂]
    exact h₂
  · rw [e₁, e₂]
    omega

set_option exponentiation.threshold 2000 in
/-- C13 amended, at a source with an identifier, operators, a number and a
string literal that holds a comma, `//`, an `@` and a space. -/
theorem C13_plain_source_round_trip_witness :
    Plain (outsideStrings false "x = \"a,//@ b\" + 2.5;".toList) ∧
    scanSource 21 "x = \"a,//@ b\" + 2.5;".toList =
      .ok ([⟨IDENTIFIER, ['x'], .str ['x'], 1⟩, ⟨EQUAL, ['='], .str [], 1⟩,
            ⟨STRING, "\"a,//@ b\"".toList, .str "a,//@ b".toList, 1⟩,
            ⟨PLUS, ['+'], .str [], 1⟩,
            ⟨NUMBER, "2.5".toList, .num "2.5".toList, 1⟩,
            ⟨SEMICOLON, [';'], .str [], 1⟩, ⟨EOF, [], .str [], 1⟩], []) ∧
    lexemeChars [⟨IDENTIFIER, ['x'], .str ['x'], 1⟩, ⟨EQUAL, ['='], .str [], 1⟩,
            ⟨STRING, "\"a,//@ b\"".toList, .str "a,//@ b".toList, 1⟩,
            ⟨PLUS, ['+'], .str [], 1⟩,
            ⟨NUMBER, "2.5".toList, .num "2.5".toList, 1⟩,
            ⟨SEMICOLON, [';'], .str [], 1⟩, ⟨EOF, [], .str [], 1⟩] +
      ("x = \"a,//@ b\" + 2.5;".toList.countP isWhitespace -
        lexemeSpaces [⟨IDENTIFIER, ['x'], .str ['x'], 1⟩, ⟨EQUAL, ['='], .str [], 1⟩,
            ⟨STRING, "\"a,//@ b\"".toList, .str "a,//@ b".toList, 1⟩,
            ⟨PLUS, ['+'], .str [], 1⟩,
            ⟨NUMBER, "2.5".toList, .num "2.5".toList, 1⟩,
            ⟨SEMICOLON, [';'], .str [], 1⟩, ⟨EOF, [], .str [], 1⟩])
      = "x = \"a,//@ b\" + 2.5;".toList.length ∧
    ∃ fuel toks errs, scanSource fuel "x = \"a,//@ b\" + 2.5;".toList = .ok (toks, errs) :=
  have hp : Plain (outsideStrings false "x = \"a,//@ b\" + 2.5;".toList) :=
    { chars := by decide
      noLineComment := by decide
      noBlockComment := by decide
      numbers := numbers_of_length (by decide)
      quotes := by decide }
  ⟨hp, rfl, ((C13_plain_source_round_trip _ hp).1 21 _ [] rfl).2.2,
    (C13_plain_source_round_trip _ hp).2 (by decide)⟩

/-- C14: whenever `Scan` on a fresh Scanner returns, the last token is the
`EOF` token and its line is one plus the number of newlines in the whole
source, wherever they stand. -/
theorem C14_EOF_line_counts_every_newline (source : List Char) (fuel : Nat)
    (toks : List Token) (errs : List GoError)
    (h : scanSource fuel source = .ok (toks, errs)) :
    toks.getLast? = some { tokenType := EOF, lexeme := [], literal := .str [],
                           line := 1 + source.count '\n' } := by
  obtain ⟨-, mid, -, htoks⟩ := scanSource_spec h
  rw [htoks, List.getLast?_concat]

/-- C14, at a source with a newline that ends a comment, one inside a string
and one between tokens. -/
theorem C14_EOF_line_witness :
    scanSource 9 "// c\n\"a\nb\"\n(".toList =
      .ok ([⟨STRING, "\"a\nb\"".toList, .str "a\nb".toList, 3⟩, ⟨LEFT_PAREN, ['('], .str [], 4⟩,
            ⟨EOF, [], .str [], 4⟩], []) ∧
    [⟨STRING, "\"a\nb\"".toList, .str "a\nb".toList, 3⟩, ⟨LEFT_PAREN, ['('], .str [], 4⟩,
        (⟨EOF, [], .str [], 4⟩ : Token)].getLast? =
      some { tokenType := EOF, lexeme := [], literal := .str [],
             line := 1 + "// c\n\"a\nb\"\n(".toList.count '\n' } :=
  ⟨rfl, C14_EOF_line_counts_every_newline "// c\n\"a\nb\"\n(".toList 9 _ [] rfl⟩

/-- C15: whenever `Scan` on a fresh Scanner returns, the lexemes of its tokens,
concatenated in token order, are a subsequence of the source, and the tokens
can be paired, in order, with ranges `[i, j)` of the source, each beginning
where the one before ended or later, so that each lexeme is the text of its
range. -/
theorem C15_lexemes_in_source_order (source : List Char) (fuel : Nat)
    (toks : List Token) (errs : List GoError)
    (h : scanSource fuel source = .ok (toks, errs)) :
    ((toks.map Token.lexeme).flatten).Sublist source ∧
    ∃ spans : List (Nat × Nat),
      List.Forall₂ (fun (t : Token) (ij : Nat × Nat) =>
        ij.1 ≤ ij.2 ∧ ij.2 ≤ source.length ∧
        t.lexeme = (source.drop ij.1).take (ij.2 - ij.1)) toks spans ∧
      spans.Chain' (fun a b => a.2 ≤ b.1) := by
  obtain ⟨-, mid, hmid, htoks⟩ := scanSource_spec h
  obtain ⟨spans, hf, hc, -⟩ := hmid.spans (Nat.zero_le _)
  rw [htoks]
  refine ⟨?_, spans, hf.imp (fun t ij hr => ⟨hr.1, hr.2.1, hr.2.2.1⟩), hc⟩
  have := hmid.flatten_sublist
  simpa using this

/-- C15, at the source `a + "b c"`. -/
theorem C15_lexemes_in_source_order_witness :
    scanSource 9 "a + \"b c\"".toList =
      .ok ([⟨IDENTIFIER, ['a'], .str ['a'], 1⟩, ⟨PLUS, ['+'], .str [], 1⟩,
            ⟨STRING, "\"b c\"".toList, .str "b c".toList, 1⟩, ⟨EOF, [], .str [], 1⟩], []) ∧
    (([⟨IDENTIFIER, ['a'], .str ['a'], 1⟩, ⟨PLUS, ['+'], .str [], 1⟩,
        ⟨STRING, "\"b c\"".toList, .str "b c".toList, 1⟩,
        (⟨EOF, [], .str [], 1⟩ : Token)].map Token.lexeme).flatten).Sublist
      "a + \"b c\"".toList ∧
    ∃ spans : List (Nat × Nat),
      List.Forall₂ (fun (t : Token) (ij : Nat × Nat) =>
        ij.1 ≤ ij.2 ∧ ij.2 ≤ "a + \"b c\"".toList.length ∧
        t.lexeme = ("a + \"b c\"".toList.drop ij.1).take (ij.2 - ij.1))
        [⟨IDENTIFIER, ['a'], .str ['a'], 1⟩, ⟨PLUS, ['+'], .str [], 1⟩,
          ⟨STRING, "\"b c\"".toList, .str "b c".toList, 1⟩, ⟨EOF, [], .str [], 1⟩] spans ∧
      spans.Chain' (fun a b => a.2 ≤ b.1) :=
  ⟨rfl, C15_lexemes_in_source_order "a + \"b c\"".toList 9 _ [] rfl⟩

/-- C16: on a source that is `//`, a text `s` without a newline, and a
newline, `Scan` returns no error and one token only, the `EOF` token, whose
line is 2. -/
theorem C16_line_comment (s : List Char) (hs : '\n' ∉ s) :
    ∀ fuel, scanSource (fuel + s.length + 2) ('/' :: '/' :: s ++ ['\n']) =
      .ok ([{ tokenType := EOF, lexeme := [], literal := .str [], line := 2 }], []) := by
  intro fuel
  have e : fuel + s.length + 2 = (fuel + s.length + 1) + 1 := by omega
  rw [scanSource_eq, e, List.cons_append, List.cons_append, scanLoop_fresh, scanSwitch_slash,
    matchAdvance_eq]
  simp only [List.getElem?_cons_succ, List.getElem?_cons_zero, if_true, bind, Except.bind]
  rw [comment_to_newline s [] fuel _ (by simp) hs]
  have hlen : 1 + 1 + s.length + 1 = ('/' :: '/' :: (s ++ ['\n'])).length := by
    simp only [List.length_cons, List.length_append, List.length_nil]; omega
  simp only [hlen, scanLoop_atEnd]
  rfl

/-- C16, at the source `// note` followed by a newline. -/
theorem C16_line_comment_witness :
    '\n' ∉ " note".toList ∧ ∀ fuel, scanSource (fuel + 5 + 2) "// note\n".toList =
      .ok ([{ tokenType := EOF, lexeme := [], literal := .str [], line := 2 }], []) :=
  ⟨by decide, C16_line_comment " note".toList (by decide)⟩

set_option maxRecDepth 100000 in
/-- C17 as stated fails: the digit `1` followed by 309 zeros is a lexeme of the
number grammar, yet `ParseFloat` returns a range error for it (the value
`10^309` is beyond the largest `float64`), and `Scan` on that source returns
the `EOF` token alone: `digit` drops the lexeme. -/
theorem C17_range_error_counterexample :
    ParseFloat ('1' :: List.replicate 309 '0') = .error .errRange ∧
    scanSource 311 ('1' :: List.replicate 309 '0') =
      .ok ([{ tokenType := EOF, lexeme := [], literal := .str [], line := 1 }], []) := by
  have hd : ∀ x ∈ List.replicate 309 '0', isDigit x = true := by
    intro x hx
    rw [(List.mem_replicate.1 hx).2]
    decide
  have hall : ∀ x ∈ '1' :: List.replicate 309 '0', isDigit x = true := by
    intro x hx
    rcases List.mem_cons.1 hx with rfl | hx
    · decide
    · exact hd x hx
  have hov : float64Overflow ≤ natOfDigits ('1' :: List.replicate 309 '0') := by
    rw [natOfDigits_one_zeros]
    exact float64Overflow_le
  refine ⟨?_, ?_⟩
  · rw [ParseFloat_digits (List.cons_ne_nil _ _) hall, if_pos hov]
  · have := scanSource_digits '1' (List.replicate 309 '0') (by decide) hd 0
    rw [if_pos hov] at this
    exact this

/-- C17, amended: for a non-empty run of digits `d₁` and a run of digits `d₂`,
`ParseFloat` on `d₁`, and on `d₁.d₂` when `d₂` is not empty, returns a range
error when the value of `d₁` is `float64Overflow` or more and the number
otherwise; and an iteration of the loop of `Scan` that starts with the cursor
at such a lexeme, followed by a text the number does not go on into, returns
with the cursor after the lexeme, having appended the `NUMBER` token with that
lexeme in the second case and no token in the first. -/
theorem C17_number_token_iff_in_range (d₁ d₂ : List Char) (hne₁ : d₁ ≠ [])
    (h₁ : ∀ c ∈ d₁, isDigit c = true) (h₂ : ∀ c ∈ d₂, isDigit c = true) :
    ParseFloat d₁ = (if float64Overflow ≤ natOfDigits d₁ then .error .errRange
      else .ok (.num d₁)) ∧
    (d₂ ≠ [] → ParseFloat (d₁ ++ '.' :: d₂) =
      if float64Overflow ≤ natOfDigits d₁ then .error .errRange
      else .ok (.num (d₁ ++ '.' :: d₂))) ∧
    (∀ (sc : Scanner) (rest : List Char), sc.source.drop sc.cursor = d₁ ++ rest →
      (rest = [] ∨ ∃ y r, rest = y :: r ∧ isDigit y = false ∧
        (y = '.' → ∃ x r', r = x :: r' ∧ isDigit x = false)) →
      ∃ n s1, (∀ k, Scanner.scanStep (n + k) sc = .ok (false, s1)) ∧
        s1.cursor = sc.cursor + d₁.length ∧
        s1.tokens = sc.tokens ++
          if float64Overflow ≤ natOfDigits d₁ then []
          else [{ tokenType := NUMBER, lexeme := d₁, literal := .num d₁, line := sc.line }]) ∧
    (d₂ ≠ [] → ∀ (sc : Scanner) (rest : List Char),
      sc.source.drop sc.cursor = (d₁ ++ '.' :: d₂) ++ rest →
      (∀ x, rest.head? = some x → isDigit x = false) →
      ∃ n s1, (∀ k, Scanner.scanStep (n + k) sc = .ok (false, s1)) ∧
        s1.cursor = sc.cursor + (d₁ ++ '.' :: d₂).length ∧
        s1.tokens = sc.tokens ++
          if float64Overflow ≤ natOfDigits d₁ then []
          else [{ tokenType := NUMBER, lexeme := d₁ ++ '.' :: d₂,
                  literal := .num (d₁ ++ '.' :: d₂), line := sc.line }]) := by
  obtain ⟨c, d, rfl⟩ := List.exists_cons_of_ne_nil hne₁
  have hc : isDigit c = true := h₁ c (List.mem_cons_self _ _)
  have hd : ∀ x ∈ d, isDigit x = true := fun x hx => h₁ x (List.mem_cons_of_mem _ hx)
  refine ⟨ParseFloat_digits hne₁ h₁, fun _ => ParseFloat_fraction hne₁ h₁ h₂, ?_, ?_⟩
  · intro sc rest hsrc hrest
    have hstep := scanStep_number_plain sc c d rest hsrc hc hd (digitLoop_stop_of hrest)
    exact ⟨_, _, scanStep_fuel hstep, rfl, rfl⟩
  · intro hne₂ sc rest hsrc hrest
    have hstep := scanStep_number_fraction 0 sc c d d₂ rest hsrc hc hd h₂ hne₂ hrest
    exact ⟨_, _, scanStep_fuel hstep, rfl, rfl⟩

set_option exponentiation.threshold 2000 in
/-- C17 amended, at the lexemes `123` and `123.45`, which are in range, on the
sources `123+` and `123.45+`. -/
theorem C17_number_token_witness :
    (ParseFloat "123".toList = (if float64Overflow ≤ natOfDigits "123".toList
        then .error .errRange else .ok (.num "123".toList)) ∧
      ("45".toList ≠ [] → ParseFloat ("123".toList ++ '.' :: "45".toList) =
        if float64Overflow ≤ natOfDigits "123".toList then .error .errRange
        else .ok (.num ("123".toList ++ '.' :: "45".toList))) ∧
      (∀ (sc : Scanner) (rest : List Char), sc.source.drop sc.cursor = "123".toList ++ rest →
        (rest = [] ∨ ∃ y r, rest = y :: r ∧ isDigit y = false ∧
          (y = '.' → ∃ x r', r = x :: r' ∧ isDigit x = false)) →
        ∃ n s1, (∀ k, Scanner.scanStep (n + k) sc = .ok (false, s1)) ∧
          s1.cursor = sc.cursor + "123".toList.length ∧
          s1.tokens = sc.tokens ++
            if float64Overflow ≤ natOfDigits "123".toList then []
            else [{ tokenType := NUMBER, lexeme := "123".toList, literal := .num "123".toList,
                    line := sc.line }]) ∧
      ("45".toList ≠ [] → ∀ (sc : Scanner) (rest : List Char),
        sc.source.drop sc.cursor = ("123".toList ++ '.' :: "45".toList) ++ rest →
        (∀ x, rest.head? = some x → isDigit x = false) →
        ∃ n s1, (∀ k, Scanner.scanStep (n + k) sc = .ok (false, s1)) ∧
          s1.cursor = sc.cursor + ("123".toList ++ '.' :: "45".toList).length ∧
          s1.tokens = sc.tokens ++
            if float64Overflow ≤ natOfDigits "123".toList then []
            else [{ tokenType := NUMBER, lexeme := "123".toList ++ '.' :: "45".toList,
                    literal := .num ("123".toList ++ '.' :: "45".toList),
                    line := sc.line }])) ∧
    natOfDigits "123".toList < float64Overflow ∧
    scanSource 6 "123+".toList =
      .ok ([{ tokenType := NUMBER, lexeme := "123".toList, literal := .num "123".toList,
              line := 1 },
            { tokenType := PLUS, lexeme := ['+'], literal := .str [], line := 1 },
            { tokenType := EOF, lexeme := [], literal := .str [], line := 1 }], []) ∧
    scanSource 8 "123.45+".toList =
      .ok ([{ tokenType := NUMBER, lexeme := "123.45".toList, literal := .num "123.45".toList,
              line := 1 },
            { tokenType := PLUS, lexeme := ['+'], literal := .str [], line := 1 },
            { tokenType := EOF, lexeme := [], literal := .str [], line := 1 }], []) :=
  ⟨C17_number_token_iff_in_range "123".toList "45".toList (by simp) (by decide) (by decide),
   Nat.lt_of_lt_of_le (by decide : natOfDigits "123".toList < 1000) float64Overflow_ge,
   rfl, rfl⟩

/-- C18: the first iteration of the loop of `Scan` on the source `/*` followed
by a text `rest` consumes the two characters `/` and `*` and adds no token, and
from there `Scan` does on `rest` what it does on the source `rest` alone: with
one more unit of fuel it gives the same outcome, so whenever `Scan` on `rest`
returns, `Scan` on `/*` followed by `rest` returns the same tokens and errors.
This holds for every `rest`, with or without a newline. -/
theorem C18_block_comment_opener_is_skipped (rest : List Char) (fuel : Nat) :
    Scanner.scanStep fuel (NewScanner ('/' :: '*' :: rest)) =
      .ok (false, { NewScanner ('/' :: '*' :: rest) with cursor := 2 }) ∧
    scanSource (fuel + 1) ('/' :: '*' :: rest) = scanSource fuel rest := by
  refine ⟨?_, scanSource_block_comment fuel rest⟩
  rw [@scanStep_some fuel (NewScanner ('/' :: '*' :: rest)) '/' rfl, scanSwitch_slash]
  simp [matchAdvance_eq, NewScanner, bind, Except.bind, Except.map, pure, Except.pure]

/-- C19: when `Scan` on a fresh Scanner returns the tokens `toks` and leaves
the Scanner `s1`, the tokens end with the `EOF` token of line `s1.line`, and a
second call of `Scan` on `s1` returns `toks` followed by one more such `EOF`
token, with the same errors, and leaves the cursor and the line counter as
they were. -/
theorem C19_second_Scan_appends_one_EOF (source : List Char) (fuel : Nat)
    (toks : List Token) (errs : List GoError) (s1 : Scanner)
    (h : Scanner.Scan fuel (NewScanner source) = .ok ((toks, errs), s1)) :
    (∃ init, toks = init ++ [{ tokenType := EOF, lexeme := [], literal := .str [],
                               line := s1.line }]) ∧
    ∀ fuel2, Scanner.Scan (fuel2 + 1) s1 =
      .ok ((toks ++ [{ tokenType := EOF, lexeme := [], literal := .str [], line := s1.line }],
            errs),
           { s1 with start := s1.cursor,
                     tokens := toks ++ [{ tokenType := EOF, lexeme := [], literal := .str [],
                                          line := s1.line }] }) := by
  obtain ⟨hl, hr⟩ := Scan_ok h
  simp only [Prod.mk.injEq] at hr
  obtain ⟨rfl, rfl⟩ := hr
  obtain ⟨hsrc, -, hcur, -, -, -, mid, -, htok⟩ :=
    scanLoop_spec 1 fuel (NewScanner source) s1 (by simp [NewScanner]) hl
  refine ⟨⟨mid, by simpa [NewScanner] using htok⟩, fun fuel2 => ?_⟩
  have hend : s1.cursor = s1.source.length := by
    rw [hsrc]
    exact hcur
  unfold Scanner.Scan
  rw [scanLoop_none hend]
  rfl

/-- C19, at the source `(`. -/
theorem C19_second_Scan_witness :
    Scanner.Scan 2 (NewScanner ['(']) =
      .ok (([⟨LEFT_PAREN, ['('], .str [], 1⟩, ⟨EOF, [], .str [], 1⟩], []),
           { source := ['('], line := 1, start := 1, cursor := 1,
             tokens := [⟨LEFT_PAREN, ['('], .str [], 1⟩, ⟨EOF, [], .str [], 1⟩],
             Errors := [] }) ∧
    ∀ fuel2, Scanner.Scan (fuel2 + 1)
        { source := ['('], line := 1, start := 1, cursor := 1,
          tokens := [⟨LEFT_PAREN, ['('], .str [], 1⟩, ⟨EOF, [], .str [], 1⟩],
          Errors := [] } =
      .ok (([⟨LEFT_PAREN, ['('], .str [], 1⟩, ⟨EOF, [], .str [], 1⟩, ⟨EOF, [], .str [], 1⟩], []),
           { source := ['('], line := 1, start := 1, cursor := 1,
             tokens := [⟨LEFT_PAREN, ['('], .str [], 1⟩, ⟨EOF, [], .str [], 1⟩,
                        ⟨EOF, [], .str [], 1⟩],
             Errors := [] }) :=
  ⟨rfl, (C19_second_Scan_appends_one_EOF ['('] 2 _ [] _ rfl).2⟩

/-- C20 fails in the code: for every upper-case letter `c` from `A` to `Y`,
`isAlpha` of `src/scanner.go` is false while `isAlpha` of
`src/scanner/scanner.go` is true, and an iteration of the loop of `ScanToken`
that reads `c` consumes it alone and adds no token: no identifier is begun. -/
theorem C20_root_isAlpha_rejects_upper_case (c : Char) (hlo : 'A' ≤ c) (hhi : c < 'Z') :
    Root.isAlpha c = false ∧ isAlpha c = true ∧
    ∀ (fuel : Nat) (rest : List Char),
      Root.scanner.scanStep fuel (Root.NewScanner (c :: rest)) =
        .ok (false, { Root.NewScanner (c :: rest) with cursor := 1 }) := by
  refine ⟨(Root_isAlpha_upper hlo hhi).1, (Root_isAlpha_upper hlo hhi).2, fun fuel rest => ?_⟩
  simp only [Root.scanner.scanStep, Root.scanner.advance, Root.scanner.isAtEnd, Root.NewScanner,
    index, List.length_cons, List.getElem?_cons_zero]
  simp only [Nat.le_zero_eq, Nat.add_one_ne_zero, decide_False, Bool.false_eq_true, if_false,
    bind, Except.bind, pure, Except.pure, Option.isSome_none, Root_scanSwitch_upper hlo hhi,
    Functor.map, Except.map]

/-- C20, at the letter `A`: `ScanToken` on the source `A` and a space returns
the `EOF` token alone, where on `a` and a space it returns an `IDENTIFIER`
token, and `Scan` of `src/scanner/scanner.go` on `A` and a space returns an
`IDENTIFIER` token with the lexeme `A`. -/
theorem C20_root_isAlpha_witness :
    (Root.isAlpha 'A' = false ∧ isAlpha 'A' = true ∧
      ∀ (fuel : Nat) (rest : List Char),
        Root.scanner.scanStep fuel (Root.NewScanner ('A' :: rest)) =
          .ok (false, { Root.NewScanner ('A' :: rest) with cursor := 1 })) ∧
    (Root.scanner.ScanToken 3 (Root.NewScanner "A ".toList)).map Prod.fst =
      .ok [{ tokenType := Root.EOF, lexeme := [], literal := [], line := 0 }] ∧
    (Root.scanner.ScanToken 3 (Root.NewScanner "a ".toList)).map Prod.fst =
      .ok [{ tokenType := Root.IDENTIFIER, lexeme := "a ".toList, literal := ['a'], line := 0 },
           { tokenType := Root.EOF, lexeme := [], literal := [], line := 0 }] ∧
    scanSource 3 "A ".toList =
      .ok ([{ tokenType := IDENTIFIER, lexeme := ['A'], literal := .str ['A'], line := 1 },
            { tokenType := EOF, lexeme := [], literal := .str [], line := 1 }], []) :=
  ⟨C20_root_isAlpha_rejects_upper_case 'A' (by decide) (by decide), rfl, rfl, rfl⟩

end Glox
